import Mathlib

/-!
The action tree of yemen: a shallow embedding of `lib/actions.js`.

* JavaScript objects live in a heap: an action is a `Nat` reference into a list of
  `Action` records, `parentAction` and `childActions` hold references, and a field
  assignment is a heap update.
* A callback (a step) is a state transformer over an abstract `World`; it either returns a
  value or throws (`Except`).
* Every call that leaves the module (a callback, `bus.trigger`, `options.delay`) is
  appended to an event log, so that "invoked exactly n times" is a statement about the log.
* The JavaScript host (`JSON.stringify`, truthiness, `null`, `undefined`) is a parameter.
-/

namespace Yemen

/-! ## The JavaScript host -/

/-- The parts of the JavaScript host the module relies on. -/
structure Host (Val : Type) where
  /-- The value `null`. -/
  null : Val
  /-- The value `undefined`. -/
  undefined : Val
  /-- Truthiness of a value, as tested by `if (v)` and `a || b`. -/
  truthy : Val → Bool
  /-- The result of `JSON.stringify` on a value that it renders; `none` stands for the
  result `undefined`. -/
  jsonStringify : Val → Option String
  /-- The exception that `JSON.stringify` throws on a value that it does not render (a
  cyclic structure, a BigInt); `none` when it returns. -/
  jsonStringifyThrows : Val → Option Val
  /-- The `TypeError` thrown when a member of `null` or `undefined` is read. -/
  typeError : Val

/-- How a template literal renders the result of `JSON.stringify`. -/
def templateString (s : Option String) : String :=
  match s with
  | some t => t
  | none => "undefined"

/-- How `Array.prototype.join` renders the result of `JSON.stringify`. -/
def joinString (s : Option String) : String :=
  match s with
  | some t => t
  | none => ""

/-- An instance of `AssertionError` (package `assertion-error`). -/
structure AssertionError (Val : Type) where
  message : String
  expected : Val
  actual : Val

/-- A thrown value: `e instanceof AssertionError`, or anything else. -/
inductive Thrown (Val : Type) where
  | assertion (e : AssertionError Val)
  | other (v : Val)

/-- The calls that leave the module, in the order they are made. -/
inductive Event where
  /-- The call `bus.trigger('executingAction', this)` of the action `node`. -/
  | executingAction (node : Nat)
  /-- The call `this.callback(...)` of the action `node`. -/
  | callback (node : Nat)
  /-- The call `options.delay(attemptCallback)` made by the `do` of the action `node`. -/
  | delay (node : Nat)
  deriving DecidableEq, Repr

/-- The state outside the action tree: the world the callbacks act on, and the event log. -/
structure St (World : Type) where
  world : World
  events : List Event

/-- The result of a call: a returned value or a thrown one, and the state after it. -/
abbrev Result (Val World : Type) := Except (Thrown Val) Val × St World

/-! ## The action node model -/

/-- The classes of `lib/actions.js`. -/
inductive ActionClass where
  | RootAction
  | DescribeAction
  | ItAction
  | ChaiComponentAction
  deriving DecidableEq, Repr

/-- The type of the field `callback`. The first argument is the value of `getArgs()` of
the action at the time of the call: the closure built by
`createMissingPropertyProxyAction` reads it, every other callback ignores it. -/
abbrev Callback (Val World : Type) :=
  Option (List Val) → Val → World → Except (Thrown Val) Val × World

/-- An action object: the fields set by the constructor of `Action`, its class, and for a
`ChaiComponentAction` the variable `invocationArgs` of `newInstance`. -/
structure Action (Val World : Type) where
  cls : ActionClass
  parentAction : Option Nat
  description : String
  callback : Callback Val World
  childActions : List Nat
  invocationArgs : Option (List Val)

/-- The heap of action objects; a reference is an index. -/
abbrev Heap (Val World : Type) := List (Action Val World)

variable {Val World : Type}

/-- The field `parentAction` of the object at `r`. -/
def parentOf (h : Heap Val World) (r : Nat) : Option Nat :=
  (h[r]?).bind (fun a => a.parentAction)

/-- The field `description` of the object at `r`. -/
def descriptionOf (h : Heap Val World) (r : Nat) : String :=
  match h[r]? with
  | some a => a.description
  | none => ""

/-- The class of the object at `r`. -/
def classOf (h : Heap Val World) (r : Nat) : Option ActionClass :=
  (h[r]?).map (fun a => a.cls)

/-- The loop of `get ancestors()`: `while(current)`, `ancestors.push(current)`,
`current = current.parentAction`. `fuel` bounds the number of iterations. -/
def ancestorsLoop (h : Heap Val World) : Nat → Option Nat → List Nat → List Nat
  | 0, _, ancestors => ancestors
  | _ + 1, none, ancestors => ancestors
  | fuel + 1, some current, ancestors =>
    ancestorsLoop h fuel (parentOf h current) (ancestors ++ [current])

/-- The getter `Action.ancestors`. A chain of parents that does not cycle visits each
object at most once, so the loop is given one iteration per object and one to spare. -/
def Action.ancestors (h : Heap Val World) (r : Nat) : List Nat :=
  ancestorsLoop h (h.length + 1) (some r) []

/-- The check that the object at `r` was created after its parent. -/
def parentPrecedes (h : Heap Val World) (r : Nat) : Bool :=
  match parentOf h r with
  | none => true
  | some p => decide (p < r)

/-- A heap built by the constructors: `parentAction` is assigned once, at creation, to an
object that exists already, so the reference of a parent is smaller than the reference of
its child. -/
def WellFormed (h : Heap Val World) : Prop :=
  ∀ r, r < h.length → parentPrecedes h r = true

instance (h : Heap Val World) : Decidable (WellFormed h) :=
  inferInstanceAs (Decidable (∀ r, r < h.length → parentPrecedes h r = true))

/-- The actions of a list that have no parent. -/
def roots (h : Heap Val World) (l : List Nat) : List Nat :=
  l.filter (fun a => (parentOf h a).isNone)

/-! ## Executing an action -/

/-- The configuration read by `do`: the module variable `MAX_RETRIES` and the flag
`options.shouldMeansShouldEventually`. -/
structure Config where
  MAX_RETRIES : Int
  shouldMeansShouldEventually : Bool

/-- The call `this.callback(arg)` on the object at `r`. -/
def runCallback (host : Host Val) (h : Heap Val World) (r : Nat) (arg : Val)
    (s : St World) : Result Val World :=
  match h[r]? with
  | none => (Except.error (Thrown.other host.typeError), s)
  | some a =>
    ((a.callback a.invocationArgs arg s.world).1,
      { world := (a.callback a.invocationArgs arg s.world).2,
        events := s.events ++ [Event.callback r] })

/-- The method `Action.do`: `bus.trigger('executingAction', this)`, then
`return this.callback(resultOfPreviousAction)`. -/
def Action.do (host : Host Val) (h : Heap Val World) (r : Nat)
    (resultOfPreviousAction : Val) (s : St World) : Result Val World :=
  runCallback host h r resultOfPreviousAction
    { world := s.world, events := s.events ++ [Event.executingAction r] }

/-- The variables of one activation of `ChaiComponentAction.do` that its closures
`categorizeException` and `attemptCallback` assign. `none` is `undefined`. -/
structure Locals (Val : Type) where
  result : Val
  resultOfPreviousAction : Val
  assertionError : Option (AssertionError Val)
  unhandledException : Option Val

/-- The closure `categorizeException`. -/
def categorizeException (e : Thrown Val) (l : Locals Val) : Locals Val :=
  match e with
  | Thrown.assertion a => { l with assertionError := some a }
  | Thrown.other v => { l with unhandledException := some v }

/-- The test `this.ancestors.some((a) => a.description === "shouldEventually")`. -/
def isDescendantOfShouldEventually (h : Heap Val World) (r : Nat) : Bool :=
  (Action.ancestors h r).any (fun a => descriptionOf h a == "shouldEventually")

/-- The closure `attemptCallback`. The argument `reduceAncestors` is the expression
`this.parentAction.ancestors.reverse().reduce(..., null)`. -/
def attemptCallback (host : Host Val) (h : Heap Val World)
    (reduceAncestors : St World → Result Val World) (r : Nat)
    (ls : Locals Val × St World) : Except (Thrown Val) Unit × (Locals Val × St World) :=
  let l1 : Locals Val := { ls.1 with unhandledException := none }
  match reduceAncestors ls.2 with
  | (Except.error e, s1) => (Except.error e, (l1, s1))
  | (Except.ok v, s1) =>
    let l2 : Locals Val := { l1 with resultOfPreviousAction := v }
    match runCallback host h r v s1 with
    | (Except.error e, s2) => (Except.error e, (l2, s2))
    | (Except.ok res, s2) => (Except.ok (), ({ l2 with result := res }, s2))

/-- Modelled from the spec: `options.delay` of the module `./options`, which is not part of
the source: a delay primitive that runs its callback once, synchronously, and propagates
whatever the callback raises. -/
def optionsDelay {α β : Type} (callback : α → β) (x : α) : β :=
  callback x

/-- The loop `for(let retryAttempt = 0; retryAttempt < MAX_RETRIES; retryAttempt++)`;
the first argument is the number of iterations that remain. An iteration calls
`options.delay(attemptCallback)`, then leaves the loop (`break`), or catches what was
thrown and passes it to `categorizeException`. -/
def retryLoop (r : Nat)
    (attempt : Locals Val × St World → Except (Thrown Val) Unit × (Locals Val × St World)) :
    Nat → Locals Val × St World → Locals Val × St World
  | 0, ls => ls
  | n + 1, ls =>
    match optionsDelay attempt
        (ls.1, { world := ls.2.world, events := ls.2.events ++ [Event.delay r] }) with
    | (Except.ok _, ls1) => ls1
    | (Except.error e, ls1) => retryLoop r attempt n (categorizeException e ls1.1, ls1.2)

/-- The call `JSON.stringify(v)`: it throws on a value that it does not render. -/
def JSON.stringify (host : Host Val) (v : Val) : Except Val (Option String) :=
  match host.jsonStringifyThrows v with
  | some thrown => Except.error thrown
  | none => Except.ok (host.jsonStringify v)

/-- The message `expected: ... actual: ...` when `JSON.stringify` renders both values. -/
def expectedActualMessage (host : Host Val) (e : AssertionError Val) : String :=
  "expected: " ++ templateString (host.jsonStringify e.expected) ++ "   actual: "
    ++ templateString (host.jsonStringify e.actual)

/-- The template literal assigned to `assertionError.message`: `JSON.stringify` is called
on `expected`, then on `actual`, and what either call throws leaves the literal. -/
def messageLiteral (host : Host Val) (e : AssertionError Val) : Except Val String :=
  match JSON.stringify host e.expected with
  | Except.error thrown => Except.error thrown
  | Except.ok expected =>
    match JSON.stringify host e.actual with
    | Except.error thrown => Except.error thrown
    | Except.ok actual =>
      Except.ok ("expected: " ++ templateString expected ++ "   actual: "
        ++ templateString actual)

/-- The statements `assertionError.message = ...; throw assertionError` at the end of
`ChaiComponentAction.do`: the assertion error is thrown with its new message, unless
`JSON.stringify` throws while the message is built; its exception, which is not an
`AssertionError`, then leaves `do` instead. -/
def throwAssertion (host : Host Val) (e : AssertionError Val) (s : St World) :
    Result Val World :=
  match messageLiteral host e with
  | Except.ok message => (Except.error (Thrown.assertion { e with message := message }), s)
  | Except.error thrown => (Except.error (Thrown.other thrown), s)

/-- The end of `ChaiComponentAction.do`: `if(assertionError || unhandledException)` sets
the message of the assertion error and throws `assertionError || unhandledException`;
otherwise `return result`. An assertion error is an object, hence truthy. -/
def throwOrReturn (host : Host Val) (l : Locals Val) (s : St World) : Result Val World :=
  match l.assertionError with
  | some e => throwAssertion host e s
  | none =>
    match l.unhandledException with
    | some v =>
      if host.truthy v then (Except.error (Thrown.other v), s) else (Except.ok l.result, s)
    | none => (Except.ok l.result, s)

/-- The body of `ChaiComponentAction.do`, with the expression
`this.parentAction.ancestors.reverse().reduce(..., null)` as the argument
`reduceAncestors`. -/
def ChaiComponentAction.doWith (host : Host Val) (cfg : Config) (h : Heap Val World)
    (reduceAncestors : St World → Result Val World) (r : Nat)
    (resultOfPreviousAction : Val) (s : St World) : Result Val World :=
  match runCallback host h r resultOfPreviousAction s with
  | (Except.ok result, s1) => (Except.ok result, s1)
  | (Except.error e, s1) =>
    let l0 : Locals Val :=
      { result := host.undefined, resultOfPreviousAction := resultOfPreviousAction,
        assertionError := none, unhandledException := none }
    let l1 := categorizeException e l0
    match e with
    | Thrown.assertion _ =>
      if isDescendantOfShouldEventually h r || cfg.shouldMeansShouldEventually then
        let ls := retryLoop r (attemptCallback host h reduceAncestors r)
          cfg.MAX_RETRIES.toNat (l1, s1)
        throwOrReturn host ls.1 ls.2
      else throwOrReturn host l1 s1
    | Thrown.other _ => throwOrReturn host l1 s1

/-- The call `action.do(resultOfPreviousAction)`: `ChaiComponentAction` overrides `do`,
the other classes inherit `Action.do`. -/
def dispatchDo (host : Host Val) (cfg : Config) (h : Heap Val World)
    (reduceAncestors : St World → Result Val World) (r : Nat)
    (resultOfPreviousAction : Val) (s : St World) : Result Val World :=
  match classOf h r with
  | some ActionClass.ChaiComponentAction =>
    ChaiComponentAction.doWith host cfg h reduceAncestors r resultOfPreviousAction s
  | _ => Action.do host h r resultOfPreviousAction s

/-- The expression `this.parentAction.ancestors` when `this.parentAction` is `null`:
reading a member of `null` throws a `TypeError`. -/
def nullAncestors (host : Host Val) (s : St World) : Result Val World :=
  (Except.error (Thrown.other host.typeError), s)

/-- The expression `ancestors.reverse().reduce((resultOfPreviousAction, action) =>
action.do(resultOfPreviousAction), null)` for a list `ancestors` given nearest first: the
actions above the head are reduced first, then the head runs its own `do` on their
result. The `do` of the head re-derives its previous result from the tail, which is the
ancestor list of its parent, and from `null.ancestors` when nothing is above it (theorem
`reduceAncestors_eq_reduce`). -/
def reduceAncestors (host : Host Val) (cfg : Config) (h : Heap Val World) :
    List Nat → St World → Result Val World
  | [], s => (Except.ok host.null, s)
  | action :: above, s =>
    match reduceAncestors host cfg h above s with
    | (Except.ok v, s1) =>
      dispatchDo host cfg h
        (match above with
          | [] => nullAncestors host
          | _ :: _ => reduceAncestors host cfg h above) action v s1
    | (Except.error e, s1) => (Except.error e, s1)

/-- The expression `this.parentAction.ancestors.reverse().reduce(..., null)` of the action
at `r`. -/
def reduceParentAncestors (host : Host Val) (cfg : Config) (h : Heap Val World) (r : Nat)
    (s : St World) : Result Val World :=
  match parentOf h r with
  | none => nullAncestors host s
  | some p => reduceAncestors host cfg h (Action.ancestors h p) s

/-- The method `ChaiComponentAction.do`. -/
def ChaiComponentAction.do (host : Host Val) (cfg : Config) (h : Heap Val World) (r : Nat)
    (resultOfPreviousAction : Val) (s : St World) : Result Val World :=
  ChaiComponentAction.doWith host cfg h (reduceParentAncestors host cfg h r) r
    resultOfPreviousAction s

/-- The call `action.do(resultOfPreviousAction)` on the object at `r`, by its class. -/
def actionDo (host : Host Val) (cfg : Config) (h : Heap Val World) (r : Nat)
    (resultOfPreviousAction : Val) (s : St World) : Result Val World :=
  dispatchDo host cfg h (reduceParentAncestors host cfg h r) r resultOfPreviousAction s

/-- The reduction `list.reduce((acc, action) => f(action, acc), init)` where `f` may
throw. -/
def reduceDo (f : Nat → Val → St World → Result Val World) :
    List Nat → Val → St World → Result Val World
  | [], acc, s => (Except.ok acc, s)
  | action :: rest, acc, s =>
    match f action acc s with
    | (Except.ok v, s1) => reduceDo f rest v s1
    | (Except.error e, s1) => (Except.error e, s1)

/-- The number of calls of the delay primitive in an event log. -/
def delayCount (events : List Event) : Nat :=
  (events.filter (fun e => match e with
    | Event.delay _ => true
    | _ => false)).length

/-! ## Realization: `generateSpec` -/

/-- The argument `getResultOfPreviousAction` of `generateSpec`. -/
inductive Getter (Val : Type) where
  /-- The default `() => {}`, which returns `undefined`. -/
  | noResult
  /-- The closure `() => resultOfCurrentAction` over a `const` that holds `v`. -/
  | result (v : Val)
  /-- The closure `() => resultOfCurrentAction` made in the group body of the
  `DescribeAction` at `node`; the variable is assigned when the setup hook runs. -/
  | groupResult (node : Nat)

/-- What `generateSpec` registers with the spec runner: a named group with the blocks
registered inside its body, a setup hook, a named case. A closure is kept as the action it
belongs to and the getter it holds. -/
inductive Block (Val : Type) where
  | group (description : String) (body : List (Block Val))
  | setup (node : Nat) (getResultOfPreviousAction : Getter Val)
  | case (description : String) (node : Nat) (getResultOfPreviousAction : Getter Val)

/-- Modelled from the spec: `describe_` of the module `./log-util`, which is not part of
the source: it opens a named group and runs its body at once, so that what the body
registers is nested in the group. -/
def describe_ (description : String) (body : List (Block Val)) : List (Block Val) :=
  [Block.group description body]

/-- Modelled from the spec: `before_` of the module `./log-util`, which is not part of the
source: it registers a setup hook, to run once before the cases of the current group. -/
def before_ (node : Nat) (getResultOfPreviousAction : Getter Val) : List (Block Val) :=
  [Block.setup node getResultOfPreviousAction]

/-- Modelled from the spec: `it_` of the module `./log-util`, which is not part of the
source: it registers a named case, whose body runs when the suite executes. -/
def it_ (description : String) (node : Nat) (getResultOfPreviousAction : Getter Val) :
    List (Block Val) :=
  [Block.case description node getResultOfPreviousAction]

/-- The state of a realization: the heap (`generateSpec` of an `ItAction` assigns
`this.description`), the outside state, and the variables `resultOfCurrentAction` that the
setup hooks have assigned, by group. -/
structure Realization (Val World : Type) where
  heap : Heap Val World
  st : St World
  groupResults : List (Nat × Val)

/-- The result of a call made during realization: the blocks registered by it, in order,
the value thrown if it threw, and the state after it. -/
structure Realized (Val World : Type) where
  blocks : List (Block Val)
  thrown : Option (Thrown Val)
  state : Realization Val World

/-- The call `getResultOfPreviousAction()`. -/
def Getter.call (host : Host Val) (groupResults : List (Nat × Val)) (g : Getter Val) : Val :=
  match g with
  | Getter.noResult => host.undefined
  | Getter.result v => v
  | Getter.groupResult node =>
    match groupResults.lookup node with
    | some v => v
    | none => host.undefined

/-- The loop of `ItAction.generateSpec` that collects `descriptionChunks`: the description
of `currentAction`; when it is a function (an object made by
`ChaiComponentAction.newInstance`) and `getArgs()` is truthy, the rendering of the
arguments joined by `,`; then `currentAction = currentAction.childActions[0]`. -/
def descriptionChunksLoop (host : Host Val) (h : Heap Val World) :
    Nat → Option Nat → List String → List String
  | 0, _, descriptionChunks => descriptionChunks
  | _ + 1, none, descriptionChunks => descriptionChunks
  | fuel + 1, some currentAction, descriptionChunks =>
    match h[currentAction]? with
    | none => descriptionChunks
    | some a =>
      descriptionChunksLoop host h fuel a.childActions.head?
        (match a.cls, a.invocationArgs with
          | ActionClass.ChaiComponentAction, some args =>
            descriptionChunks ++ [a.description,
              String.intercalate "," (args.map (fun e => joinString (host.jsonStringify e)))]
          | _, _ => descriptionChunks ++ [a.description])

/-- The description that `ItAction.generateSpec` computes: `descriptionChunks.join(" ")`. -/
def ItAction.description (host : Host Val) (h : Heap Val World) (r : Nat) : String :=
  String.intercalate " " (descriptionChunksLoop host h (h.length + 1) (some r) [])

/-- What the loop of `ItAction.generateSpec` throws: the exception of the first call of
`JSON.stringify`, on a captured argument of an action of the walk, that throws; `none`
when every call returns. -/
def descriptionThrowsLoop (host : Host Val) (h : Heap Val World) :
    Nat → Option Nat → Option Val
  | 0, _ => none
  | _ + 1, none => none
  | fuel + 1, some currentAction =>
    match h[currentAction]? with
    | none => none
    | some a =>
      match (match a.cls, a.invocationArgs with
          | ActionClass.ChaiComponentAction, some args =>
            args.findSome? host.jsonStringifyThrows
          | _, _ => none) with
      | some thrown => some thrown
      | none => descriptionThrowsLoop host h fuel a.childActions.head?

/-- What the computation of the description of the `ItAction` at `r` throws, if it
throws. -/
def ItAction.descriptionThrows (host : Host Val) (h : Heap Val World) (r : Nat) :
    Option Val :=
  descriptionThrowsLoop host h (h.length + 1) (some r)

/-- The assignment `this.description = description` on the object at `r`. -/
def setDescription (h : Heap Val World) (r : Nat) (description : String) : Heap Val World :=
  match h[r]? with
  | none => h
  | some a => h.set r { a with description := description }

/-- The field `childActions` of the object at `r`. -/
def childrenOf (h : Heap Val World) (r : Nat) : List Nat :=
  match h[r]? with
  | some a => a.childActions
  | none => []

/-- The loop `this.childActions.forEach((childAction) => childAction.generateSpec(...))`;
`gen` is the call of `generateSpec` on one child. The loop ends at the first child that
throws; `none` when `gen` runs out of fuel. -/
def forEachChild (gen : Nat → Realization Val World → Option (Realized Val World)) :
    List Nat → Realization Val World → Option (Realized Val World)
  | [], R => some { blocks := [], thrown := none, state := R }
  | childAction :: rest, R =>
    match gen childAction R with
    | none => none
    | some out =>
      match out.thrown with
      | some _ => some out
      | none =>
        match forEachChild gen rest out.state with
        | none => none
        | some out2 =>
          some { blocks := out.blocks ++ out2.blocks, thrown := out2.thrown,
                 state := out2.state }

/-- The method `generateSpec(getResultOfPreviousAction)` of the object at `r`, by its
class; `fuel` bounds the depth of the tree below `r`, and the result is `none` when it
runs out.

* `DescribeAction` (and `RootAction`): `describe_` runs its body at once; the body
  registers the setup hook and realizes the children with the getter of the group.
* `ItAction`: computes and assigns `this.description`, then registers the case; when
  `JSON.stringify` throws on a captured argument, nothing is assigned or registered.
* `ChaiComponentAction`: runs `this.do(getResultOfPreviousAction())` at once, then
  realizes the children with its result. -/
def generateSpec (host : Host Val) (cfg : Config) :
    Nat → Nat → Getter Val → Realization Val World → Option (Realized Val World)
  | 0, _, _, _ => none
  | fuel + 1, r, getResultOfPreviousAction, R =>
    match classOf R.heap r with
    | none => some { blocks := [], thrown := some (Thrown.other host.typeError), state := R }
    | some ActionClass.ItAction =>
      match ItAction.descriptionThrows host R.heap r with
      | some thrown => some { blocks := [], thrown := some (Thrown.other thrown), state := R }
      | none =>
        let description := ItAction.description host R.heap r
        some { blocks := it_ description r getResultOfPreviousAction, thrown := none,
               state := { R with heap := setDescription R.heap r description } }
    | some ActionClass.ChaiComponentAction =>
      match ChaiComponentAction.do host cfg R.heap r
          (getResultOfPreviousAction.call host R.groupResults) R.st with
      | (Except.error e, st1) =>
        some { blocks := [], thrown := some e, state := { R with st := st1 } }
      | (Except.ok resultOfCurrentAction, st1) =>
        forEachChild
          (fun childAction R1 =>
            generateSpec host cfg fuel childAction (Getter.result resultOfCurrentAction) R1)
          (childrenOf R.heap r) { R with st := st1 }
    | some _ =>
      match forEachChild
          (fun childAction R1 =>
            generateSpec host cfg fuel childAction (Getter.groupResult r) R1)
          (childrenOf R.heap r) R with
      | none => none
      | some body =>
        some { blocks := describe_ ("when doing " ++ descriptionOf R.heap r)
                 (before_ r getResultOfPreviousAction ++ body.blocks),
               thrown := body.thrown, state := body.state }

/-- The setup hook that `DescribeAction.generateSpec` gives to `before_`:
`resultOfCurrentAction = this.do(getResultOfPreviousAction())`. -/
def DescribeAction.setupHook (host : Host Val) (r : Nat)
    (getResultOfPreviousAction : Getter Val) (R : Realization Val World) :
    Option (Thrown Val) × Realization Val World :=
  match Action.do host R.heap r (getResultOfPreviousAction.call host R.groupResults) R.st with
  | (Except.error e, st1) => (some e, { R with st := st1 })
  | (Except.ok v, st1) => (none, { R with st := st1, groupResults := (r, v) :: R.groupResults })

/-- The case body that `ItAction.generateSpec` gives to `it_`:
`const resultOfCurrentAction = this.do(getResultOfPreviousAction())`, then `generateSpec`
of every child. -/
def ItAction.caseBody (host : Host Val) (cfg : Config) (r : Nat)
    (getResultOfPreviousAction : Getter Val) (R : Realization Val World) :
    Option (Realized Val World) :=
  match Action.do host R.heap r (getResultOfPreviousAction.call host R.groupResults) R.st with
  | (Except.error e, st1) =>
    some { blocks := [], thrown := some e, state := { R with st := st1 } }
  | (Except.ok resultOfCurrentAction, st1) =>
    forEachChild
      (fun childAction R1 =>
        generateSpec host cfg (R.heap.length + 1) childAction
          (Getter.result resultOfCurrentAction) R1)
      (childrenOf R.heap r) { R with st := st1 }

/-! ## Runs of a step over the attempts of a `do` -/

/-- The run of the step of the action at `r` in attempt `i + 1` of a call of `do`, begun
in state `s`. Attempt 1 is the first run, on the previous result handed to `do`. A later
attempt is a retry: `options.delay` is called, the previous result is re-derived from the
ancestors, and the step runs on it; `none` when an ancestor raises, so that the step is
not reached. -/
def stepInAttempt (host : Host Val) (cfg : Config) (h : Heap Val World) (r : Nat)
    (resultOfPreviousAction : Val) (i : Nat) (s : St World) : Option (Result Val World) :=
  match i with
  | 0 => some (runCallback host h r resultOfPreviousAction s)
  | _ + 1 =>
    match reduceParentAncestors host cfg h r
        { world := s.world, events := s.events ++ [Event.delay r] } with
    | (Except.ok v, s1) => some (runCallback host h r v s1)
    | (Except.error _, _) => none

/-- The attempts `i + 1, ..., i + n` in which the step raises each time: the values
raised, in order, and the state after the last of them; `none` when one of these attempts
does not end with the step raising. -/
def raisingRun (host : Host Val) (cfg : Config) (h : Heap Val World) (r : Nat)
    (resultOfPreviousAction : Val) : Nat → Nat → St World →
    Option (List (Thrown Val) × St World)
  | 0, _, s => some ([], s)
  | n + 1, i, s =>
    match stepInAttempt host cfg h r resultOfPreviousAction i s with
    | some (Except.error e, s1) =>
      match raisingRun host cfg h r resultOfPreviousAction n (i + 1) s1 with
      | some (es, t) => some (e :: es, t)
      | none => none
    | _ => none

/-- The thrown value is an assertion failure: `e instanceof AssertionError`. -/
def Thrown.isAssertion (e : Thrown Val) : Bool :=
  match e with
  | Thrown.assertion _ => true
  | Thrown.other _ => false

/-- The latest assertion failure of a sequence of thrown values, `init` when there is
none. -/
def lastAssertion (es : List (Thrown Val)) (init : Option (AssertionError Val)) :
    Option (AssertionError Val) :=
  es.foldl (fun acc e => match e with
    | Thrown.assertion a => some a
    | Thrown.other _ => acc) init

/-! ## A worked example: `subject.shouldEventually.equal(5)` -/

/-- The values of the example: `undefined`, `null`, integers that are Numbers, BigInt
values and error objects. -/
inductive JsVal where
  | undefined
  | null
  | num (n : Int)
  | bigInt (n : Int)
  | errorObject (name : String)
  deriving DecidableEq, Repr

/-- The host of the example. -/
def jsHost : Host JsVal where
  null := JsVal.null
  undefined := JsVal.undefined
  truthy := fun v => match v with
    | JsVal.num n => decide (n ≠ 0)
    | JsVal.bigInt n => decide (n ≠ 0)
    | JsVal.errorObject _ => true
    | _ => false
  jsonStringify := fun v => match v with
    | JsVal.null => some "null"
    | JsVal.num n => some (toString n)
    | JsVal.errorObject _ => some "\x7b\x7d"
    | _ => none
  jsonStringifyThrows := fun v => match v with
    | JsVal.bigInt _ => some (JsVal.errorObject "TypeError")
    | _ => none
  typeError := JsVal.errorObject "TypeError"

/-- The step of the root: it reads a value that changes between two readings; the world
is the number of readings made so far, and reading number `w + 1` yields `4 + w`. -/
def pollSubject : Callback JsVal Nat :=
  fun _ _ w => (Except.ok (JsVal.num (4 + w)), w + 1)

/-- The step of `shouldEventually`: `expect(context).to`; the example keeps the subject
itself as the assertion context. -/
def expectTo : Callback JsVal Nat :=
  fun _ context w => (Except.ok context, w)

/-- The `AssertionError` that chai's `equal` throws. -/
def equalFailure (expected actual : JsVal) : AssertionError JsVal :=
  { message := "expected values to equal", expected := expected, actual := actual }

/-- The step of `equal`, called with the captured arguments `[expected]`: chai's `equal`
returns the context when it equals `expected` and throws an `AssertionError` otherwise. -/
def chaiEqual : Callback JsVal Nat :=
  fun args context w =>
    match args with
    | some [expected] =>
      if context = expected then (Except.ok context, w)
      else (Except.error (Thrown.assertion (equalFailure expected context)), w)
    | _ => (Except.error (Thrown.other (JsVal.errorObject "TypeError")), w)

/-- The tree of `subject.<entry>.<member>(5)`: the root `subject` (0), the `ItAction`
made by the entry `should` or `shouldEventually` (1), and the `ChaiComponentAction` with
the step `step` (2), invoked with the argument 5. -/
def chainHeap (entry : String) (step : Callback JsVal Nat) : Heap JsVal Nat :=
  [ { cls := ActionClass.RootAction, parentAction := none, description := "subject",
      callback := pollSubject, childActions := [1], invocationArgs := none },
    { cls := ActionClass.ItAction, parentAction := some 0, description := entry,
      callback := expectTo, childActions := [2], invocationArgs := none },
    { cls := ActionClass.ChaiComponentAction, parentAction := some 1, description := "equal",
      callback := step, childActions := [], invocationArgs := some [JsVal.num 5] } ]

/-- The tree of `subject.shouldEventually.equal(5)`. -/
def exampleHeap : Heap JsVal Nat :=
  chainHeap "shouldEventually" chaiEqual

/-- The tree of `subject.should.equal(5)`. -/
def shouldHeap : Heap JsVal Nat :=
  chainHeap "should" chaiEqual

/-- A step that throws `null`. -/
def throwNull : Callback JsVal Nat :=
  fun _ _ w => (Except.error (Thrown.other JsVal.null), w)

/-- A step that raises an assertion failure on the value 4 and a missing-member error on
every other value. -/
def equalThenMissing : Callback JsVal Nat :=
  fun _ context w =>
    if context = JsVal.num 4 then
      (Except.error (Thrown.assertion (equalFailure (JsVal.num 5) context)), w)
    else (Except.error (Thrown.other (JsVal.errorObject "TypeError")), w)

/-- The configuration of the example: the default `MAX_RETRIES`, the flag off. -/
def exampleConfig : Config where
  MAX_RETRIES := 5
  shouldMeansShouldEventually := false

/-- A configuration with `YEMEN_MAX_RETRIES=2`. -/
def twoRetries : Config where
  MAX_RETRIES := 2
  shouldMeansShouldEventually := false

/-- The calls made by one retry of the action 2 of the example: the delay primitive, the
`do` of the root and of the `ItAction`, and the step of the action 2. -/
def retryLog : List Event :=
  [Event.delay 2, Event.executingAction 0, Event.callback 0, Event.executingAction 1,
    Event.callback 1, Event.callback 2]

/-- The start of the realization of the example: nothing has run. -/
def exampleStart : Realization JsVal Nat :=
  { heap := exampleHeap, st := { world := 0, events := [] }, groupResults := [] }

/-- The state after `generateSpec()` on the root of the example. -/
def exampleRegistered : Realization JsVal Nat :=
  match generateSpec jsHost exampleConfig 4 0 Getter.noResult exampleStart with
  | some out => out.state
  | none => exampleStart

/-- The state after the spec runner has run the setup hook of the root. -/
def exampleAfterSetup : Realization JsVal Nat :=
  (DescribeAction.setupHook jsHost 0 Getter.noResult exampleRegistered).2

/-! ## Dynamic member interception -/

/-- A member name handed to an interception handler: a string, or a value that is not a
string (a symbol). -/
inductive MemberName where
  | string (name : String)
  | symbol (description : String)
  deriving DecidableEq, Repr

/-- The third argument of `getCheckedProperty`: `'function'` or `'property'`. -/
inductive MemberKind where
  | function
  | property
  deriving DecidableEq, Repr

/-- The functions of other modules that the steps made by interception call; they may
throw and may act on the world. -/
structure Collaborators (Val World : Type) where
  /-- The expression `expect(context).to` of chai. -/
  expectTo : Val → World → Except (Thrown Val) Val × World
  /-- The call `getCheckedProperty(context, name, kind)` of `./get-checked-property`. -/
  getCheckedProperty : Val → String → MemberKind → World → Except (Thrown Val) Val × World
  /-- The call `f(...args)` of a value `f`. -/
  call : Val → List Val → World → Except (Thrown Val) Val × World
  /-- The expression `JSON.stringify(args).slice(1,-1)` for the array `args`. -/
  stringifyArgs : List Val → String

/-- The step `(context) => expect(context).to` of an `ItAction`. -/
def expectStep (co : Collaborators Val World) : Callback Val World :=
  fun _ context w => co.expectTo context w

/-- The expression `getCheckedProperty(context, name, 'function')(...args)`. -/
def callMember (co : Collaborators Val World) (name : String) (args : List Val)
    (context : Val) (w : World) : Except (Thrown Val) Val × World :=
  match co.getCheckedProperty context name MemberKind.function w with
  | (Except.ok f, w1) => co.call f args w1
  | (Except.error e, w1) => (Except.error e, w1)

/-- The step made by `createMissingMethodProxyAction`: it calls the member `methodName` of
the context with the arguments of the interception. -/
def methodStep (co : Collaborators Val World) (methodName : String) (args : List Val) :
    Callback Val World :=
  fun _ context w => callMember co methodName args context w

/-- The step made by `createMissingPropertyProxyAction` for a chain step:
`const args = childAction.getArgs()`; when `args` is truthy the member is called with
them, otherwise the member is read as a property. -/
def propertyStep (co : Collaborators Val World) (propertyName : String) :
    Callback Val World :=
  fun getArgs context w =>
    match getArgs with
    | some args => callMember co propertyName args context w
    | none => co.getCheckedProperty context propertyName MemberKind.property w

/-- The object that the constructor of `Action` initialises, for the class `cls`:
`this.childActions = []`, and no captured arguments. -/
def newAction (cls : ActionClass) (parentAction : Option Nat) (description : String)
    (callback : Callback Val World) : Action Val World :=
  { cls := cls, parentAction := parentAction, description := description,
    callback := callback, childActions := [], invocationArgs := none }

/-- The function `Action.newInstance`, called on the class `cls`: `new this(...args)`; the
new object takes the next reference. -/
def Action.newInstance (cls : ActionClass) (h : Heap Val World) (parentAction : Option Nat)
    (description : String) (callback : Callback Val World) : Heap Val World × Nat :=
  (h ++ [newAction cls parentAction description callback], h.length)

/-- The function `ChaiComponentAction.newInstance`: the constructor, then
`let invocationArgs = null` and the invocable handle over the new object. -/
def ChaiComponentAction.newInstance (h : Heap Val World) (parentAction : Option Nat)
    (description : String) (callback : Callback Val World) : Heap Val World × Nat :=
  Action.newInstance ActionClass.ChaiComponentAction h parentAction description callback

/-- The accessor `getArgs` of a handle: `() => invocationArgs`. -/
def getArgs (h : Heap Val World) (r : Nat) : Option (List Val) :=
  (h[r]?).bind (fun a => a.invocationArgs)

/-- The call `handle(...args2)` of a handle made by `ChaiComponentAction.newInstance`: the
function `f`, whose body is `invocationArgs = args2`. It acts on the heap and leaves the
outside state as it is. -/
def ChaiComponentAction.invoke (h : Heap Val World) (r : Nat) (args2 : List Val)
    (s : St World) : Heap Val World × St World :=
  match h[r]? with
  | none => (h, s)
  | some a => (h.set r { a with invocationArgs := some args2 }, s)

/-- The function `Action.create`, called on the class `cls`: `this.newInstance(...args)`,
then the proxy over the new object, which is the same object for the tree. -/
def Action.create (cls : ActionClass) (h : Heap Val World) (parentAction : Option Nat)
    (description : String) (callback : Callback Val World) : Heap Val World × Nat :=
  match cls with
  | ActionClass.ChaiComponentAction =>
    ChaiComponentAction.newInstance h parentAction description callback
  | _ => Action.newInstance cls h parentAction description callback

/-- The statement `parentAction.childActions.push(childAction)`. -/
def pushChild (h : Heap Val World) (parentAction childAction : Nat) : Heap Val World :=
  match h[parentAction]? with
  | none => h
  | some a => h.set parentAction { a with childActions := a.childActions ++ [childAction] }

/-- The function `createMissingMethodProxyAction`; the result `none` is `null`. -/
def createMissingMethodProxyAction (co : Collaborators Val World) (h : Heap Val World)
    (parentAction : Nat) (methodName : MemberName) (args : List Val) :
    Heap Val World × Option Nat :=
  match methodName with
  | MemberName.symbol _ => (h, none)
  | MemberName.string name =>
    if name = "should" ∨ name = "inspect" then (h, none)
    else
      let created := Action.create ActionClass.DescribeAction h (some parentAction)
        (name ++ "(" ++ co.stringifyArgs args ++ ")") (methodStep co name args)
      (pushChild created.1 parentAction created.2, some created.2)

/-- The function `isShouldActionDescription` of `createMissingPropertyProxyAction`. -/
def isShouldActionDescription (description : String) : Bool :=
  description == "should" || description == "shouldEventually"

/-- The test `parentAction.ancestors.some((a) => isShouldActionDescription(a.description))`. -/
def isDescendantOfShould (h : Heap Val World) (parentAction : Nat) : Bool :=
  (Action.ancestors h parentAction).any (fun a => isShouldActionDescription (descriptionOf h a))

/-- The function `createMissingPropertyProxyAction`; the result `none` is `undefined`. -/
def createMissingPropertyProxyAction (co : Collaborators Val World) (h : Heap Val World)
    (parentAction : Nat) (propertyName : MemberName) : Heap Val World × Option Nat :=
  match propertyName with
  | MemberName.symbol _ => (h, none)
  | MemberName.string name =>
    if name = "inspect" then (h, none)
    else if isShouldActionDescription name then
      let created := Action.create ActionClass.ItAction h (some parentAction) name
        (expectStep co)
      (pushChild created.1 parentAction created.2, some created.2)
    else if isDescendantOfShould h parentAction then
      let created := Action.create ActionClass.ChaiComponentAction h (some parentAction) name
        (propertyStep co name)
      (pushChild created.1 parentAction created.2, some created.2)
    else (h, none)

/-- An interception on the action `r` that appends: one object is added to the heap, with
`r` as its parent and no children; it is pushed at the end of the children of `r`; every
other field of `r` and every other object are as before. -/
def AppendsChild (h : Heap Val World) (r : Nat) (h1 : Heap Val World) (child : Nat) : Prop :=
  child = h.length
  ∧ h1.length = h.length + 1
  ∧ parentOf h1 child = some r
  ∧ childrenOf h1 child = []
  ∧ childrenOf h1 r = childrenOf h r ++ [child]
  ∧ (∀ i, i < h.length → parentOf h1 i = parentOf h i)
  ∧ (∀ i, i < h.length → i ≠ r → h1[i]? = h[i]?)

/-- The collaborators of the example: `expect(context).to` keeps the subject as the
assertion context; the only member of a context is `equal`, the context itself taken as a
function, which compares the context with its one argument; a missing member is a
`TypeError`; the arguments, which are Numbers in the examples, are rendered one by one,
`undefined` as `null` as in an array, and joined by commas. -/
def exampleCollaborators : Collaborators JsVal Nat where
  expectTo := fun context w => (Except.ok context, w)
  getCheckedProperty := fun context name _ w =>
    if name = "equal" then (Except.ok context, w)
    else (Except.error (Thrown.other (JsVal.errorObject "TypeError")), w)
  call := fun f args w =>
    match args with
    | [expected] =>
      if f = expected then (Except.ok f, w)
      else (Except.error (Thrown.assertion (equalFailure expected f)), w)
    | _ => (Except.error (Thrown.other (JsVal.errorObject "TypeError")), w)
  stringifyArgs := fun args =>
    String.intercalate "," (args.map (fun e =>
      match jsHost.jsonStringify e with
      | some rendered => rendered
      | none => "null"))

/-- The tree of `subject.should`, before `equal` is accessed. -/
def shouldEntryHeap : Heap JsVal Nat :=
  [ { cls := ActionClass.RootAction, parentAction := none, description := "subject",
      callback := pollSubject, childActions := [1], invocationArgs := none },
    { cls := ActionClass.ItAction, parentAction := some 0, description := "should",
      callback := expectStep exampleCollaborators, childActions := [],
      invocationArgs := none } ]

/-! ## The module variable `MAX_RETRIES` -/

/-- The characters that `Number.parseInt` skips at the start of its input: the white space
and line terminator code points of ECMAScript. -/
def isStrWhiteSpaceChar (c : Char) : Bool :=
  c.toNat ∈ [0x9, 0xA, 0xB, 0xC, 0xD, 0x20, 0xA0, 0x1680, 0x2000, 0x2001, 0x2002, 0x2003,
    0x2004, 0x2005, 0x2006, 0x2007, 0x2008, 0x2009, 0x200A, 0x2028, 0x2029, 0x202F, 0x205F,
    0x3000, 0xFEFF]

/-- The value of a decimal digit. -/
def digitValue (c : Char) : Nat :=
  c.toNat - 48

/-- The integer denoted by a sequence of decimal digits, read after the value `acc`. -/
def decimalValue (acc : Nat) (digits : List Char) : Nat :=
  digits.foldl (fun a c => 10 * a + digitValue c) acc

/-- The sign that `Number.parseInt` reads, and the input after it. -/
def readSign (input : List Char) : Int × List Char :=
  match input with
  | '-' :: rest => (-1, rest)
  | '+' :: rest => (1, rest)
  | _ => (1, input)

/-- The mathematical integer that `Number.parseInt(string, 10)` reads: leading white
space is skipped, a sign is read, then the longest run of decimal digits; `none` when that
run is empty, and the signed integer it denotes otherwise, whatever follows the digits. -/
def mathInt (string : String) : Option Int :=
  let signed := readSign (string.data.dropWhile isStrWhiteSpaceChar)
  let digits := signed.2.takeWhile Char.isDigit
  if digits.isEmpty then none else some (signed.1 * (decimalValue 0 digits : Nat))

/-- The number of binary digits of `n`, counted in at most `fuel` halvings. -/
def bitLength : Nat → Nat → Nat
  | 0, _ => 0
  | fuel + 1, n => if n = 0 then 0 else bitLength fuel (n / 2) + 1

/-- The natural number `n` as a Number, a double: the 53 leading binary digits of `n` are
kept and the digits after them are rounded to nearest, a tie going to the even
significand; `none` is `Infinity`, when the rounded value has more than 1024 binary
digits. -/
def roundToDouble (n : Nat) : Option Nat :=
  let shift := bitLength n n - 53
  let significand := n / 2 ^ shift
  let rest := n % 2 ^ shift
  let rounded :=
    if 2 ^ shift < 2 * rest ∨ (2 * rest = 2 ^ shift ∧ significand % 2 = 1) then significand + 1
    else significand
  if shift + bitLength rounded rounded ≤ 1024 then some (rounded * 2 ^ shift) else none

/-- The Numbers that `Number.parseInt` returns: `NaN`, a double whose value is an integer,
`Infinity` and `-Infinity`. The zero that follows a `-` is kept as 0: the test
`retryAttempt < MAX_RETRIES` does not tell `-0` from 0. -/
inductive Number where
  | NaN
  | integer (n : Int)
  | infinity (negative : Bool)
  deriving DecidableEq, Repr

/-- The Number value of a mathematical integer. -/
def Number.ofInt (z : Int) : Number :=
  match roundToDouble z.natAbs with
  | some m => Number.integer (if z < 0 then -(m : Int) else (m : Int))
  | none => Number.infinity (decide (z < 0))

/-- The call `Number.parseInt(string, 10)`: `NaN` when no digit is read, and otherwise the
Number value of the integer read, which is that integer up to `2 ^ 53` and a rounded one
beyond. When more than 20 digits are read, an implementation may take those after the
20th for 0 before rounding; the integer that all the digits denote is rounded here. -/
def parseInt (string : String) : Number :=
  match mathInt string with
  | none => Number.NaN
  | some z => Number.ofInt z

/-- The message that the `catch` clause hands to `console.error`. -/
def notParseableMessage (value : String) : String :=
  "Error: YEMEN_MAX_RETRIES is not parseable as a number: " ++ value

/-- The top-level block that sets `MAX_RETRIES`, for the value `env` of
`process.env.YEMEN_MAX_RETRIES` (`none` when it is unset): the value of `MAX_RETRIES`
after it, and the lines written with `console.error`. An empty string is falsy, so that
the `if` skips it. -/
def loadMaxRetries (env : Option String) : Number × List String :=
  match env with
  | none => (Number.integer 5, [])
  | some value =>
    if value = "" then (Number.integer 5, [])
    else
      match parseInt value with
      | Number.NaN => (Number.integer 5, [notParseableMessage value])
      | numRetriesFromEnv => (numRetriesFromEnv, [])

/-- The module variable `MAX_RETRIES` once the module is loaded. -/
def MAX_RETRIES (env : Option String) : Number :=
  (loadMaxRetries env).1

/-- A base-10 integer numeral: an optional sign, then one or more decimal digits, and
nothing else. -/
def isIntegerNumeral (value : String) : Bool :=
  let digits := (readSign value.data).2
  !digits.isEmpty && digits.all Char.isDigit

/-! ## The description of a case, as the spec words it -/

/-- The chunks that one action contributes to the description of a case: its label, and
for an action carrying captured call arguments their renderings joined by commas. -/
def labelChunks (host : Host Val) (a : Action Val World) : List String :=
  match a.cls, a.invocationArgs with
  | ActionClass.ChaiComponentAction, some args =>
    [a.description,
      String.intercalate "," (args.map (fun e => joinString (host.jsonStringify e)))]
  | _, _ => [a.description]

/-- The chunks contributed by the object at `r`. -/
def labelChunksOf (host : Host Val) (h : Heap Val World) (r : Nat) : List String :=
  match h[r]? with
  | some a => labelChunks host a
  | none => []

/-- The first-child spine from an action: the action, its first child, the first child of
that child, and so on, until an action has no children. -/
def firstChildSpine (h : Heap Val World) : Nat → Option Nat → List Nat
  | 0, _ => []
  | _ + 1, none => []
  | fuel + 1, some r =>
    match h[r]? with
    | none => []
    | some a => r :: firstChildSpine h fuel a.childActions.head?

/-- The single-child spine from an action, in the words of the spec: the walk goes on to
the child of an action that has exactly one child, and stops at an action that has no
children or more than one child. -/
def singleChildSpine (h : Heap Val World) : Nat → Option Nat → List Nat
  | 0, _ => []
  | _ + 1, none => []
  | fuel + 1, some r =>
    match h[r]? with
    | none => []
    | some a =>
      r :: (match a.childActions with
            | [child] => singleChildSpine h fuel (some child)
            | _ => [])

/-- The description of a case in the words of the spec: the chunks of the actions of the
single-child spine, joined by spaces. -/
def specDescription (host : Host Val) (h : Heap Val World) (r : Nat) : String :=
  String.intercalate " "
    (((singleChildSpine h (h.length + 1) (some r)).map (labelChunksOf host h)).flatten)

/-- A heap built by the constructors: a child is created after the action it is pushed
to, so the reference of a child is larger than the reference of its parent. -/
def ChildrenFollow (h : Heap Val World) : Prop :=
  ∀ r, r < h.length → (childrenOf h r).all (fun c => decide (r < c)) = true

instance (h : Heap Val World) : Decidable (ChildrenFollow h) :=
  inferInstanceAs
    (Decidable (∀ r, r < h.length → (childrenOf h r).all (fun c => decide (r < c)) = true))

/-- The tree of `s = subject.should; s.equal(5); s.equal(4)`: the `ItAction` (1) has two
children. -/
def twoChildrenHeap : Heap JsVal Nat :=
  [ { cls := ActionClass.RootAction, parentAction := none, description := "subject",
      callback := pollSubject, childActions := [1], invocationArgs := none },
    { cls := ActionClass.ItAction, parentAction := some 0, description := "should",
      callback := expectTo, childActions := [2, 3], invocationArgs := none },
    { cls := ActionClass.ChaiComponentAction, parentAction := some 1, description := "equal",
      callback := chaiEqual, childActions := [], invocationArgs := some [JsVal.num 5] },
    { cls := ActionClass.ChaiComponentAction, parentAction := some 1, description := "equal",
      callback := chaiEqual, childActions := [], invocationArgs := some [JsVal.num 4] } ]

/-! ## What realization leaves as it was -/

/-- The heap `h1` holds the objects of `h`, each with the class, parent, step, children
and captured arguments it has in `h`, and with the description it has in `h` unless it is
an `ItAction`. -/
def SameExceptCaseLabels (h h1 : Heap Val World) : Prop :=
  h1.length = h.length
  ∧ ∀ (i : Nat) (a : Action Val World), h[i]? = some a →
      ∃ a1, h1[i]? = some a1 ∧ a1.cls = a.cls ∧ a1.parentAction = a.parentAction
        ∧ a1.callback = a.callback ∧ a1.childActions = a.childActions
        ∧ a1.invocationArgs = a.invocationArgs
        ∧ (a.cls ≠ ActionClass.ItAction → a1.description = a.description)

/-! ## Trees grown without `should` -/

mutual
/-- The number of cases registered by a block, the cases nested in a group included. -/
def Block.caseCount : Block Val → Nat
  | Block.group _ body => caseCountList body
  | Block.setup _ _ => 0
  | Block.case _ _ _ => 1
/-- The number of cases registered by a list of blocks. -/
def caseCountList : List (Block Val) → Nat
  | [] => 0
  | block :: rest => block.caseCount + caseCountList rest
end

/-- The root made by `new RootAction(description, callback)`: the constructor of
`RootAction` passes `null` as the parent. -/
def newRoot (description : String) (callback : Callback Val World) : Heap Val World :=
  (Action.create ActionClass.RootAction [] none description callback).1

/-- A tree grown from the root `new RootAction(description, callback)` by property and
method interceptions, on any of its nodes, with member names other than `should` and
`shouldEventually`. -/
inductive GrownWithoutShould (co : Collaborators Val World) (description : String)
    (callback : Callback Val World) : Heap Val World → Prop where
  | root : GrownWithoutShould co description callback (newRoot description callback)
  | property (h : Heap Val World) (r : Nat) (name : MemberName) :
      GrownWithoutShould co description callback h → r < h.length →
      name ≠ MemberName.string "should" → name ≠ MemberName.string "shouldEventually" →
      GrownWithoutShould co description callback
        (createMissingPropertyProxyAction co h r name).1
  | method (h : Heap Val World) (r : Nat) (name : MemberName) (args : List Val) :
      GrownWithoutShould co description callback h → r < h.length →
      name ≠ MemberName.string "should" → name ≠ MemberName.string "shouldEventually" →
      GrownWithoutShould co description callback
        (createMissingMethodProxyAction co h r name args).1

/-- The tree of `subject.getTotal()`: the root and one group. -/
def groupsHeap : Heap JsVal Nat :=
  (createMissingMethodProxyAction exampleCollaborators (newRoot "subject" pollSubject) 0
    (MemberName.string "getTotal") []).1

/-! ## The calls made by a `do` -/

/-- The action an event belongs to. -/
def Event.node (e : Event) : Nat :=
  match e with
  | Event.executingAction node => node
  | Event.callback node => node
  | Event.delay node => node

/-- The bound on the events added while the actions of the list `l` are executed: the
step of an action runs at most once for each time the action is in `l` and once for each
call of the delay primitive; every event belongs to an action of `l`; the delay primitive
is only called for chain steps. -/
def LogBound (h : Heap Val World) (l : List Nat) (evs : List Event) : Prop :=
  (∀ a, evs.count (Event.callback a) ≤ l.count a + delayCount evs)
  ∧ (∀ e ∈ evs, e.node ∈ l)
  ∧ (∀ q, Event.delay q ∈ evs → classOf h q = some ActionClass.ChaiComponentAction)

/-- The tree of `subject.shouldEventually.equal(4).equal(5)`: two chain steps (2 and 3)
under the `ItAction` (1). -/
def nestedHeap : Heap JsVal Nat :=
  [ { cls := ActionClass.RootAction, parentAction := none, description := "subject",
      callback := pollSubject, childActions := [1], invocationArgs := none },
    { cls := ActionClass.ItAction, parentAction := some 0, description := "shouldEventually",
      callback := expectTo, childActions := [2], invocationArgs := none },
    { cls := ActionClass.ChaiComponentAction, parentAction := some 1, description := "equal",
      callback := chaiEqual, childActions := [3], invocationArgs := some [JsVal.num 4] },
    { cls := ActionClass.ChaiComponentAction, parentAction := some 2, description := "equal",
      callback := chaiEqual, childActions := [], invocationArgs := some [JsVal.num 5] } ]
/-- The bound on the events added by an attempt of the `do` of the action `r`, or by the
first run of its step, when the ancestors of its parent are `l`. -/
def AttemptBound (h : Heap Val World) (r : Nat) (l : List Nat) (evs : List Event) : Prop :=
  (∀ a, evs.count (Event.callback a) ≤ (if a = r then 1 else 0) + l.count a + delayCount evs)
  ∧ (∀ e ∈ evs, e.node = r ∨ e.node ∈ l)
  ∧ (∀ q, Event.delay q ∈ evs →
      q ∈ l ∧ classOf h q = some ActionClass.ChaiComponentAction)

/-- The bound on the events added by at most `n` iterations of the retry loop of the `do`
of the action `r`, after `first` runs of its step outside the loop: the step of an action
runs at most once for each call of the delay primitive, the action `r` calls the delay
primitive at most `n` times, and any other call of it is made by a chain step. -/
def RetryBound (h : Heap Val World) (r : Nat) (l : List Nat) (first n : Nat)
    (evs : List Event) : Prop :=
  (∀ a, evs.count (Event.callback a) ≤ (if a = r then first else 0) + delayCount evs)
  ∧ (∀ e ∈ evs, e.node = r ∨ e.node ∈ l)
  ∧ (∀ q, Event.delay q ∈ evs →
      q = r ∨ (q ∈ l ∧ classOf h q = some ActionClass.ChaiComponentAction))
  ∧ evs.count (Event.delay r) ≤ n

/-- The step of a root whose subject is the BigInt `4n` at every reading. -/
def readBigInt : Callback JsVal Nat :=
  fun _ _ w => (Except.ok (JsVal.bigInt 4), w + 1)

/-- The tree of `subject.<entry>.equal(5)` over a subject that is the BigInt `4n`. -/
def bigIntHeap (entry : String) : Heap JsVal Nat :=
  [ { cls := ActionClass.RootAction, parentAction := none, description := "subject",
      callback := readBigInt, childActions := [1], invocationArgs := none },
    { cls := ActionClass.ItAction, parentAction := some 0, description := entry,
      callback := expectTo, childActions := [2], invocationArgs := none },
    { cls := ActionClass.ChaiComponentAction, parentAction := some 1, description := "equal",
      callback := chaiEqual, childActions := [], invocationArgs := some [JsVal.num 5] } ]

/-! ## Theorems -/

theorem parentOf_lt {h : Heap Val World} (wf : WellFormed h) {r p : Nat}
    (hp : parentOf h r = some p) : p < r := by
  have hr : r < h.length := by
    by_contra hge
    have : h[r]? = none := List.getElem?_eq_none (by omega)
    simp [parentOf, this] at hp
  have := wf r hr
  simpa [parentPrecedes, hp] using this

theorem ancestorsLoop_acc (h : Heap Val World) (fuel : Nat) (cur : Option Nat)
    (acc : List Nat) : ancestorsLoop h fuel cur acc = acc ++ ancestorsLoop h fuel cur [] := by
  induction fuel generalizing cur acc with
  | zero => simp [ancestorsLoop]
  | succ n ih =>
    cases cur with
    | none => simp [ancestorsLoop]
    | some c =>
      simp only [ancestorsLoop]
      rw [ih, ih (parentOf h c) ([] ++ [c])]
      simp

theorem ancestorsLoop_fuel {h : Heap Val World} (wf : WellFormed h) :
    ∀ (r f g : Nat), r < f → r < g →
      ancestorsLoop h f (some r) [] = ancestorsLoop h g (some r) [] := by
  intro r
  induction r using Nat.strong_induction_on with
  | _ r ih =>
    intro f g hf hg
    obtain ⟨f, rfl⟩ : ∃ k, f = k + 1 := ⟨f - 1, by omega⟩
    obtain ⟨g, rfl⟩ : ∃ k, g = k + 1 := ⟨g - 1, by omega⟩
    simp only [ancestorsLoop]
    cases hp : parentOf h r with
    | none =>
      cases f <;> cases g <;> simp [ancestorsLoop]
    | some p =>
      have hlt := parentOf_lt wf hp
      rw [ancestorsLoop_acc h f, ancestorsLoop_acc h g, ih p hlt f g (by omega) (by omega)]

theorem parentOf_inRange {h : Heap Val World} {r p : Nat}
    (hp : parentOf h r = some p) : r < h.length := by
  by_contra hge
  have : h[r]? = none := List.getElem?_eq_none (by omega)
  simp [parentOf, this] at hp

theorem ancestorsLoop_none (h : Heap Val World) (fuel : Nat) (acc : List Nat) :
    ancestorsLoop h fuel none acc = acc := by
  cases fuel <;> simp [ancestorsLoop]

/-- The loop of `ancestors` satisfies the recursive description of the ancestor list. -/
theorem ancestors_unfold {h : Heap Val World} (wf : WellFormed h) (r : Nat) :
    Action.ancestors h r =
      r :: (match parentOf h r with
            | none => []
            | some p => Action.ancestors h p) := by
  have hL : Action.ancestors h r = r :: ancestorsLoop h h.length (parentOf h r) [] := by
    unfold Action.ancestors
    simp only [ancestorsLoop]
    rw [ancestorsLoop_acc]
    simp
  rw [hL]
  cases hp : parentOf h r with
  | none => simp [ancestorsLoop_none]
  | some p =>
    have hlt := parentOf_lt wf hp
    have hr := parentOf_inRange hp
    simp only
    unfold Action.ancestors
    rw [ancestorsLoop_fuel wf p h.length (h.length + 1) (by omega) (by omega)]

/-- More fuel does not change the ancestor list: the loop has ended by itself. -/
theorem ancestors_fuel {h : Heap Val World} (wf : WellFormed h) (r fuel : Nat)
    (hf : h.length + 1 ≤ fuel) :
    ancestorsLoop h fuel (some r) [] = Action.ancestors h r := by
  unfold Action.ancestors
  by_cases hr : r < h.length
  · exact ancestorsLoop_fuel wf r _ _ (by omega) (by omega)
  · obtain ⟨f, rfl⟩ : ∃ k, fuel = k + 1 := ⟨fuel - 1, by omega⟩
    have hnone : parentOf h r = none := by
      have : h[r]? = none := List.getElem?_eq_none (by omega)
      simp [parentOf, this]
    simp [ancestorsLoop, hnone, ancestorsLoop_none]

/-- C1. For every action N of a heap built by the constructors, `ancestors(N)` is N
followed by `ancestors(parent(N))`, and is `[N]` when N has no parent; the list is
nearest-first (each element is followed by its own parent), and it ends in the one node
of the list that has no parent, the root. -/
theorem ancestors_nearest_first (h : Heap Val World) (wf : WellFormed h) (r : Nat) :
    (Action.ancestors h r =
      r :: (match parentOf h r with
            | none => []
            | some p => Action.ancestors h p))
    ∧ (parentOf h r = none → Action.ancestors h r = [r])
    ∧ List.Chain' (fun a b => parentOf h a = some b) (Action.ancestors h r)
    ∧ ∃ root, (Action.ancestors h r).getLast? = some root
        ∧ parentOf h root = none
        ∧ roots h (Action.ancestors h r) = [root] := by
  refine ⟨ancestors_unfold wf r, ?_, ?_, ?_⟩
  · intro hp
    rw [ancestors_unfold wf r, hp]
  · induction r using Nat.strong_induction_on with
    | _ r ih =>
      rw [ancestors_unfold wf r]
      cases hp : parentOf h r with
      | none => simp
      | some p =>
        have hlt := parentOf_lt wf hp
        have ihp := ih p hlt
        simp only
        rw [ancestors_unfold wf p] at ihp ⊢
        exact List.Chain'.cons hp ihp
  · induction r using Nat.strong_induction_on with
    | _ r ih =>
      rw [ancestors_unfold wf r]
      cases hp : parentOf h r with
      | none => exact ⟨r, by simp, hp, by simp [roots, hp]⟩
      | some p =>
        have hlt := parentOf_lt wf hp
        obtain ⟨root, hlast, hroot, hroots⟩ := ih p hlt
        refine ⟨root, ?_, hroot, ?_⟩
        · simp only
          rw [ancestors_unfold wf p] at hlast ⊢
          simpa [List.getLast?_cons_cons] using hlast
        · simp only [roots] at hroots ⊢
          rw [List.filter_cons_of_neg (by simp [hp])]
          exact hroots

/-! ### The reduction over the ancestors -/

theorem reduceDo_append (f : Nat → Val → St World → Result Val World) (l1 l2 : List Nat)
    (acc : Val) (s : St World) :
    reduceDo f (l1 ++ l2) acc s =
      match reduceDo f l1 acc s with
      | (Except.ok v, s1) => reduceDo f l2 v s1
      | (Except.error e, s1) => (Except.error e, s1) := by
  induction l1 generalizing acc s with
  | nil => simp [reduceDo]
  | cons a l ih =>
    simp only [List.cons_append, reduceDo]
    rcases hf : f a acc s with ⟨res, s1⟩
    cases res with
    | error e => simp
    | ok v => simp [ih]

theorem result_match_id (x : Result Val World) :
    (match x with
      | (Except.ok v, s1) => ((Except.ok v, s1) : Result Val World)
      | (Except.error e, s1) => (Except.error e, s1)) = x := by
  rcases x with ⟨res, s1⟩
  cases res <;> rfl

/-- The reduction used by the retry is the reduction of the source: a left fold of
`action.do` over the reversed ancestor list of the parent, starting from `null`. -/
theorem reduceAncestors_eq_reduce (host : Host Val) (cfg : Config) {h : Heap Val World}
    (wf : WellFormed h) (p : Nat) (s : St World) :
    reduceAncestors host cfg h (Action.ancestors h p) s =
      reduceDo (actionDo host cfg h) (Action.ancestors h p).reverse host.null s := by
  induction p using Nat.strong_induction_on generalizing s with
  | _ p ih =>
    rw [ancestors_unfold wf p]
    simp only [List.reverse_cons, reduceDo_append, reduceAncestors]
    cases hp : parentOf h p with
    | none =>
      have hfun : reduceParentAncestors host cfg h p = nullAncestors host := by
        funext t
        simp [reduceParentAncestors, hp]
      simp only [reduceAncestors, List.reverse_nil, reduceDo, actionDo, hfun]
      rw [result_match_id]
    | some q =>
      have hlt := parentOf_lt wf hp
      simp only
      rw [← ih q hlt]
      have hfun : reduceParentAncestors host cfg h p =
          reduceAncestors host cfg h (Action.ancestors h q) := by
        funext t
        simp [reduceParentAncestors, hp]
      rcases hq : reduceAncestors host cfg h (Action.ancestors h q) s with ⟨res, s1⟩
      cases res with
      | error e => rfl
      | ok v =>
        simp only [reduceDo, actionDo, hfun]
        rw [result_match_id]
        have hne : Action.ancestors h q = q :: (Action.ancestors h q).tail := by
          rw [ancestors_unfold wf q]; rfl
        rw [hne]


/-! ### Counting the calls of the delay primitive -/

theorem delayCount_append (a b : List Event) :
    delayCount (a ++ b) = delayCount a + delayCount b := by
  simp [delayCount]

theorem delayCount_callback (r : Nat) : delayCount [Event.callback r] = 0 := rfl

theorem delayCount_executingAction (r : Nat) : delayCount [Event.executingAction r] = 0 := rfl

theorem delayCount_delay (r : Nat) : delayCount [Event.delay r] = 1 := rfl

/-! ### One run of a step -/

theorem runCallback_events (host : Host Val) (h : Heap Val World) (r : Nat) (arg : Val)
    (s : St World) :
    (runCallback host h r arg s).2.events = s.events ++ [Event.callback r]
      ∨ ((runCallback host h r arg s).2 = s ∧ h[r]? = none) := by
  unfold runCallback
  cases h[r]? with
  | none => right; simp
  | some a => left; rfl

theorem runCallback_ok_events {host : Host Val} {h : Heap Val World} {r : Nat} {arg v : Val}
    {s s1 : St World} (hrun : runCallback host h r arg s = (Except.ok v, s1)) :
    s1.events = s.events ++ [Event.callback r] := by
  unfold runCallback at hrun
  cases hr : h[r]? with
  | none => simp [hr] at hrun
  | some a =>
    simp only [hr, Prod.mk.injEq] at hrun
    rw [← hrun.2]

theorem runCallback_assertion_events {host : Host Val} {h : Heap Val World} {r : Nat}
    {arg : Val} {e : AssertionError Val} {s s1 : St World}
    (hrun : runCallback host h r arg s = (Except.error (Thrown.assertion e), s1)) :
    s1.events = s.events ++ [Event.callback r] := by
  unfold runCallback at hrun
  cases hr : h[r]? with
  | none => simp [hr] at hrun
  | some a =>
    simp only [hr, Prod.mk.injEq] at hrun
    rw [← hrun.2]

theorem do_of_step_ok (host : Host Val) (cfg : Config) (h : Heap Val World)
    (r : Nat) (resultOfPreviousAction v : Val) (s s1 : St World)
    (hstep : runCallback host h r resultOfPreviousAction s = (Except.ok v, s1)) :
    ChaiComponentAction.do host cfg h r resultOfPreviousAction s = (Except.ok v, s1) := by
  simp [ChaiComponentAction.do, ChaiComponentAction.doWith, hstep]

/-- C4. For every chain step, in an eventual context or not and whatever the flag
`shouldMeansShouldEventually`: if its step returns normally on the first run, then
`ChaiComponentAction.do` returns exactly that result; the only call it makes is that one
run of the step, so the delay primitive is not invoked and no ancestor is executed. -/
theorem do_returns_first_result (host : Host Val) (cfg : Config) (h : Heap Val World)
    (r : Nat) (resultOfPreviousAction v : Val) (s s1 : St World)
    (hstep : runCallback host h r resultOfPreviousAction s = (Except.ok v, s1)) :
    ChaiComponentAction.do host cfg h r resultOfPreviousAction s = (Except.ok v, s1)
    ∧ s1.events = s.events ++ [Event.callback r]
    ∧ delayCount s1.events = delayCount s.events := by
  refine ⟨do_of_step_ok host cfg h r resultOfPreviousAction v s s1 hstep,
    runCallback_ok_events hstep, ?_⟩
  rw [runCallback_ok_events hstep]
  simp [delayCount]

theorem throwAssertion_state (host : Host Val) (e : AssertionError Val) (s : St World) :
    (throwAssertion host e s).2 = s := by
  unfold throwAssertion
  cases messageLiteral host e <;> rfl

theorem throwAssertion_raises (host : Host Val) (e : AssertionError Val) (s : St World) :
    ∃ x, throwAssertion host e s = (Except.error x, s) := by
  unfold throwAssertion
  cases messageLiteral host e with
  | ok m => exact ⟨_, rfl⟩
  | error t => exact ⟨_, rfl⟩

/-- When `JSON.stringify` renders `expected` and `actual`, the assertion error is thrown
with the message `expected: <expected>   actual: <actual>`. -/
theorem throwAssertion_renders (host : Host Val) (e : AssertionError Val) (s : St World)
    (hexpected : host.jsonStringifyThrows e.expected = none)
    (hactual : host.jsonStringifyThrows e.actual = none) :
    throwAssertion host e s =
      (Except.error (Thrown.assertion
        { message := expectedActualMessage host e, expected := e.expected,
          actual := e.actual }), s) := by
  simp [throwAssertion, messageLiteral, JSON.stringify, hexpected, hactual,
    expectedActualMessage]

/-- When `JSON.stringify` throws on `expected`, or renders it and throws on `actual`, its
exception is thrown in place of the assertion error. -/
theorem throwAssertion_masks (host : Host Val) (e : AssertionError Val) (s : St World)
    (thrown : Val)
    (hthrows : host.jsonStringifyThrows e.expected = some thrown
      ∨ (host.jsonStringifyThrows e.expected = none
          ∧ host.jsonStringifyThrows e.actual = some thrown)) :
    throwAssertion host e s = (Except.error (Thrown.other thrown), s) := by
  rcases hthrows with h1 | ⟨h1, h2⟩
  · simp [throwAssertion, messageLiteral, JSON.stringify, h1]
  · simp [throwAssertion, messageLiteral, JSON.stringify, h1, h2]

/-- A chain step with no ancestor labelled `shouldEventually`, the flag
`shouldMeansShouldEventually` off, whose step raises an assertion failure: the only call
made is the one run of the step, so the delay primitive is not invoked and the step is
not run again, and `ChaiComponentAction.do` ends with the statements that set the message
and throw; when `JSON.stringify` renders `expected` and `actual`, it raises that same
failure, changed only in its message, which becomes
`expected: <expected>   actual: <actual>`. -/
theorem do_ineligible_assertion (host : Host Val) (cfg : Config) (h : Heap Val World)
    (r : Nat) (resultOfPreviousAction : Val) (e : AssertionError Val) (s s1 : St World)
    (hnot : ∀ a ∈ Action.ancestors h r, descriptionOf h a ≠ "shouldEventually")
    (hflag : cfg.shouldMeansShouldEventually = false)
    (hstep : runCallback host h r resultOfPreviousAction s
      = (Except.error (Thrown.assertion e), s1)) :
    ChaiComponentAction.do host cfg h r resultOfPreviousAction s = throwAssertion host e s1
    ∧ (host.jsonStringifyThrows e.expected = none → host.jsonStringifyThrows e.actual = none →
        ChaiComponentAction.do host cfg h r resultOfPreviousAction s =
          (Except.error (Thrown.assertion
            { message := expectedActualMessage host e, expected := e.expected,
              actual := e.actual }), s1))
    ∧ s1.events = s.events ++ [Event.callback r]
    ∧ delayCount s1.events = delayCount s.events
    ∧ (∃ post, expectedActualMessage host e =
        "expected: " ++ templateString (host.jsonStringify e.expected) ++ post)
    ∧ (∃ pre, expectedActualMessage host e =
        pre ++ "actual: " ++ templateString (host.jsonStringify e.actual)) := by
  have hdesc : isDescendantOfShouldEventually h r = false := by
    simp only [isDescendantOfShouldEventually, List.any_eq_false]
    intro a ha
    simpa using hnot a ha
  have hdo : ChaiComponentAction.do host cfg h r resultOfPreviousAction s
      = throwAssertion host e s1 := by
    simp [ChaiComponentAction.do, ChaiComponentAction.doWith, hstep, hdesc, hflag,
      categorizeException, throwOrReturn]
  refine ⟨hdo, fun hexpected hactual => ?_, runCallback_assertion_events hstep, ?_, ?_, ?_⟩
  · rw [hdo]
    exact throwAssertion_renders host e s1 hexpected hactual
  · rw [runCallback_assertion_events hstep]
    simp [delayCount]
  · exact ⟨"   actual: " ++ templateString (host.jsonStringify e.actual), by
      simp [expectedActualMessage, String.append_assoc]⟩
  · exact ⟨"expected: " ++ templateString (host.jsonStringify e.expected) ++ "   ", by
      simp only [expectedActualMessage, String.append_assoc]
      rfl⟩

/-- A thrown value that is not an assertion failure and is truthy leaves
`ChaiComponentAction.do` unchanged, after the one run of the step. -/
theorem do_other_truthy (host : Host Val) (cfg : Config) (h : Heap Val World)
    (r : Nat) (resultOfPreviousAction x : Val) (s s1 : St World)
    (htruthy : host.truthy x = true)
    (hstep : runCallback host h r resultOfPreviousAction s
      = (Except.error (Thrown.other x), s1)) :
    ChaiComponentAction.do host cfg h r resultOfPreviousAction s =
      (Except.error (Thrown.other x), s1)
    ∧ delayCount s1.events = delayCount s.events := by
  constructor
  · simp [ChaiComponentAction.do, ChaiComponentAction.doWith, hstep, categorizeException,
      throwOrReturn, htruthy]
  · rcases runCallback_events host h r resultOfPreviousAction s with hev | ⟨hev, _⟩
    · rw [hstep] at hev
      simp only at hev
      rw [hev]
      simp [delayCount]
    · rw [hstep] at hev
      simp only at hev
      rw [hev]

/-- A thrown value that is not an assertion failure and is falsy (`throw null`) is
swallowed: `ChaiComponentAction.do` returns `undefined`. -/
theorem do_other_falsy (host : Host Val) (cfg : Config) (h : Heap Val World)
    (r : Nat) (resultOfPreviousAction x : Val) (s s1 : St World)
    (hfalsy : host.truthy x = false)
    (hstep : runCallback host h r resultOfPreviousAction s
      = (Except.error (Thrown.other x), s1)) :
    ChaiComponentAction.do host cfg h r resultOfPreviousAction s =
      (Except.ok host.undefined, s1) := by
  simp [ChaiComponentAction.do, ChaiComponentAction.doWith, hstep, categorizeException,
    throwOrReturn, hfalsy]

/-! ### A `do` that returns has not called the delay primitive -/

theorem runCallback_delayCount (host : Host Val) (h : Heap Val World) (r : Nat) (arg : Val)
    (s : St World) :
    delayCount (runCallback host h r arg s).2.events = delayCount s.events := by
  rcases runCallback_events host h r arg s with hev | ⟨hev, _⟩
  · rw [hev, delayCount_append, delayCount_callback]
    rfl
  · rw [hev]

theorem throwOrReturn_state (host : Host Val) (l : Locals Val) (s : St World) :
    (throwOrReturn host l s).2 = s := by
  unfold throwOrReturn
  cases l.assertionError with
  | some e => exact throwAssertion_state host e s
  | none =>
    cases l.unhandledException with
    | none => rfl
    | some v => by_cases ht : host.truthy v = true <;> simp [ht]

theorem throwOrReturn_assertion (host : Host Val) (l : Locals Val) (s : St World)
    (e : AssertionError Val) (he : l.assertionError = some e) :
    throwOrReturn host l s = throwAssertion host e s := by
  simp [throwOrReturn, he]

theorem attemptCallback_assertionError (host : Host Val) (h : Heap Val World)
    (f : St World → Result Val World) (r : Nat) (ls : Locals Val × St World) :
    (attemptCallback host h f r ls).2.1.assertionError = ls.1.assertionError := by
  unfold attemptCallback
  rcases f ls.2 with ⟨res, s1⟩
  cases res with
  | error e => rfl
  | ok v =>
    simp only
    rcases runCallback host h r v s1 with ⟨res2, s2⟩
    cases res2 <;> rfl

theorem categorizeException_isSome (e : Thrown Val) (l : Locals Val)
    (hl : l.assertionError.isSome = true) :
    (categorizeException e l).assertionError.isSome = true := by
  cases e <;> simp [categorizeException, hl]

theorem retryLoop_assertionError_isSome (host : Host Val) (h : Heap Val World)
    (f : St World → Result Val World) (r n : Nat) (ls : Locals Val × St World)
    (hl : ls.1.assertionError.isSome = true) :
    (retryLoop r (attemptCallback host h f r) n ls).1.assertionError.isSome = true := by
  induction n generalizing ls with
  | zero => simpa [retryLoop] using hl
  | succ n ih =>
    simp only [retryLoop, optionsDelay]
    have hkeep := attemptCallback_assertionError host h f r
      (ls.1, { world := ls.2.world, events := ls.2.events ++ [Event.delay r] })
    rcases hatt : attemptCallback host h f r
      (ls.1, { world := ls.2.world, events := ls.2.events ++ [Event.delay r] })
      with ⟨res, ls1⟩
    rw [hatt] at hkeep
    simp only at hkeep
    cases res with
    | ok u => simp only; rw [hkeep]; exact hl
    | error e =>
      simp only
      apply ih
      apply categorizeException_isSome
      show ls1.1.assertionError.isSome = true
      rw [hkeep]; exact hl

/-- Once the step has raised an assertion failure, `ChaiComponentAction.do` does not
return, whatever the retries do: it ends with the statements that set the message of an
assertion failure and throw. -/
theorem doWith_assertion_raises (host : Host Val) (cfg : Config) (h : Heap Val World)
    (f : St World → Result Val World) (r : Nat) (resultOfPreviousAction : Val)
    (e : AssertionError Val) (s s1 : St World)
    (hstep : runCallback host h r resultOfPreviousAction s
      = (Except.error (Thrown.assertion e), s1)) :
    ∃ x t, ChaiComponentAction.doWith host cfg h f r resultOfPreviousAction s =
      (Except.error x, t) := by
  simp only [ChaiComponentAction.doWith, hstep]
  split
  · have hsome := retryLoop_assertionError_isSome host h f r cfg.MAX_RETRIES.toNat
      (categorizeException (Thrown.assertion e)
        { result := host.undefined, resultOfPreviousAction := resultOfPreviousAction,
          assertionError := none, unhandledException := none }, s1)
      (by simp [categorizeException])
    obtain ⟨a, ha⟩ := Option.isSome_iff_exists.mp hsome
    rw [throwOrReturn_assertion host _ _ a ha]
    obtain ⟨x, hx⟩ := throwAssertion_raises host a
      (retryLoop r (attemptCallback host h f r) cfg.MAX_RETRIES.toNat
        (categorizeException (Thrown.assertion e)
          { result := host.undefined, resultOfPreviousAction := resultOfPreviousAction,
            assertionError := none, unhandledException := none }, s1)).2
    exact ⟨x, _, hx⟩
  · rw [throwOrReturn_assertion host _ _ e (by simp [categorizeException])]
    obtain ⟨x, hx⟩ := throwAssertion_raises host e s1
    exact ⟨x, _, hx⟩

theorem doWith_ok_delayCount (host : Host Val) (cfg : Config) (h : Heap Val World)
    (f : St World → Result Val World) (r : Nat) (resultOfPreviousAction v : Val)
    (s s1 : St World)
    (hdo : ChaiComponentAction.doWith host cfg h f r resultOfPreviousAction s
      = (Except.ok v, s1)) :
    delayCount s1.events = delayCount s.events := by
  have hcount := runCallback_delayCount host h r resultOfPreviousAction s
  rcases hrun : runCallback host h r resultOfPreviousAction s with ⟨res, s2⟩
  rw [hrun] at hcount
  simp only at hcount
  cases res with
  | ok w =>
    simp only [ChaiComponentAction.doWith, hrun, Prod.mk.injEq] at hdo
    rw [← hdo.2]; exact hcount
  | error e =>
    cases e with
    | assertion a =>
      obtain ⟨a2, t, hraise⟩ := doWith_assertion_raises host cfg h f r resultOfPreviousAction
        a s s2 hrun
      rw [hraise] at hdo
      simp at hdo
    | other x =>
      simp only [ChaiComponentAction.doWith, hrun] at hdo
      have hst := throwOrReturn_state host (categorizeException (Thrown.other x)
        { result := host.undefined, resultOfPreviousAction := resultOfPreviousAction,
          assertionError := none, unhandledException := none }) s2
      rw [hdo] at hst
      simp only at hst
      rw [hst]; exact hcount

theorem dispatchDo_ok_delayCount (host : Host Val) (cfg : Config) (h : Heap Val World)
    (f : St World → Result Val World) (r : Nat) (resultOfPreviousAction v : Val)
    (s s1 : St World)
    (hdo : dispatchDo host cfg h f r resultOfPreviousAction s = (Except.ok v, s1)) :
    delayCount s1.events = delayCount s.events := by
  have hbase : ∀ (hd : Action.do host h r resultOfPreviousAction s = (Except.ok v, s1)),
      delayCount s1.events = delayCount s.events := by
    intro hd
    have hc := runCallback_delayCount host h r resultOfPreviousAction
      { world := s.world, events := s.events ++ [Event.executingAction r] }
    unfold Action.do at hd
    rw [hd] at hc
    simpa [delayCount_append, delayCount_executingAction] using hc
  unfold dispatchDo at hdo
  split at hdo
  · exact doWith_ok_delayCount host cfg h f r resultOfPreviousAction v s s1 hdo
  · exact hbase hdo

theorem reduceAncestors_ok_delayCount (host : Host Val) (cfg : Config) (h : Heap Val World)
    (l : List Nat) (v : Val) (s s1 : St World)
    (hred : reduceAncestors host cfg h l s = (Except.ok v, s1)) :
    delayCount s1.events = delayCount s.events := by
  induction l generalizing v s s1 with
  | nil =>
    simp only [reduceAncestors, Prod.mk.injEq] at hred
    rw [← hred.2]
  | cons a above ih =>
    simp only [reduceAncestors] at hred
    rcases habove : reduceAncestors host cfg h above s with ⟨res, s2⟩
    rw [habove] at hred
    cases res with
    | error e => simp at hred
    | ok w =>
      simp only at hred
      rw [dispatchDo_ok_delayCount host cfg h _ a w v s2 s1 hred, ih w s s2 habove]

theorem reduceParentAncestors_ok_delayCount (host : Host Val) (cfg : Config)
    (h : Heap Val World) (r : Nat) (v : Val) (s s1 : St World)
    (hred : reduceParentAncestors host cfg h r s = (Except.ok v, s1)) :
    delayCount s1.events = delayCount s.events := by
  unfold reduceParentAncestors at hred
  cases hp : parentOf h r with
  | none => simp [hp, nullAncestors] at hred
  | some p =>
    simp only [hp] at hred
    exact reduceAncestors_ok_delayCount host cfg h _ v s s1 hred

/-! ### The retry loop along a run of failing attempts -/

theorem stepInAttempt_succ {host : Host Val} {cfg : Config} {h : Heap Val World} {r : Nat}
    {prev : Val} {i : Nat} {s s1 : St World} {res : Except (Thrown Val) Val}
    (hstep : stepInAttempt host cfg h r prev (i + 1) s = some (res, s1)) :
    ∃ v u, reduceParentAncestors host cfg h r
        { world := s.world, events := s.events ++ [Event.delay r] } = (Except.ok v, u)
      ∧ runCallback host h r v u = (res, s1) := by
  simp only [stepInAttempt] at hstep
  rcases hred : reduceParentAncestors host cfg h r
    { world := s.world, events := s.events ++ [Event.delay r] } with ⟨res0, u⟩
  rw [hred] at hstep
  cases res0 with
  | error e => simp at hstep
  | ok v =>
    simp only [Option.some.injEq] at hstep
    exact ⟨v, u, rfl, hstep⟩

theorem stepInAttempt_succ_delayCount {host : Host Val} {cfg : Config} {h : Heap Val World}
    {r : Nat} {prev : Val} {i : Nat} {s s1 : St World} {res : Except (Thrown Val) Val}
    (hstep : stepInAttempt host cfg h r prev (i + 1) s = some (res, s1)) :
    delayCount s1.events = delayCount s.events + 1 := by
  obtain ⟨v, u, hred, hrun⟩ := stepInAttempt_succ hstep
  have h1 := reduceParentAncestors_ok_delayCount host cfg h r v _ u hred
  have h2 := runCallback_delayCount host h r v u
  rw [hrun] at h2
  simp only at h2
  rw [h2, h1, delayCount_append, delayCount_delay]

theorem attemptCallback_step_error {host : Host Val} {cfg : Config} {h : Heap Val World}
    {r : Nat} {prev : Val} {i : Nat} {s s1 : St World} {e : Thrown Val}
    (hstep : stepInAttempt host cfg h r prev (i + 1) s = some (Except.error e, s1))
    (l : Locals Val) :
    ∃ l1, attemptCallback host h (reduceParentAncestors host cfg h r) r
        (l, { world := s.world, events := s.events ++ [Event.delay r] })
        = (Except.error e, (l1, s1))
      ∧ l1.assertionError = l.assertionError ∧ l1.result = l.result := by
  obtain ⟨v, u, hred, hrun⟩ := stepInAttempt_succ hstep
  refine ⟨{ l with unhandledException := none, resultOfPreviousAction := v }, ?_, rfl, rfl⟩
  simp [attemptCallback, hred, hrun]

theorem attemptCallback_step_ok {host : Host Val} {cfg : Config} {h : Heap Val World}
    {r : Nat} {prev : Val} {i : Nat} {s s1 : St World} {w : Val}
    (hstep : stepInAttempt host cfg h r prev (i + 1) s = some (Except.ok w, s1))
    (l : Locals Val) :
    ∃ l1, attemptCallback host h (reduceParentAncestors host cfg h r) r
        (l, { world := s.world, events := s.events ++ [Event.delay r] })
        = (Except.ok (), (l1, s1))
      ∧ l1.assertionError = l.assertionError ∧ l1.result = w := by
  obtain ⟨v, u, hred, hrun⟩ := stepInAttempt_succ hstep
  refine ⟨{ l with unhandledException := none, resultOfPreviousAction := v, result := w },
    ?_, rfl, rfl⟩
  simp [attemptCallback, hred, hrun]

theorem raisingRun_succ {host : Host Val} {cfg : Config} {h : Heap Val World} {r : Nat}
    {prev : Val} {n i : Nat} {s t : St World} {es : List (Thrown Val)}
    (hrun : raisingRun host cfg h r prev (n + 1) i s = some (es, t)) :
    ∃ e s1 es1, stepInAttempt host cfg h r prev i s = some (Except.error e, s1)
      ∧ raisingRun host cfg h r prev n (i + 1) s1 = some (es1, t) ∧ es = e :: es1 := by
  simp only [raisingRun] at hrun
  rcases hstep : stepInAttempt host cfg h r prev i s with _ | ⟨res, s1⟩
  · simp [hstep] at hrun
  · cases res with
    | ok v => simp [hstep] at hrun
    | error e =>
      simp only [hstep] at hrun
      rcases hrest : raisingRun host cfg h r prev n (i + 1) s1 with _ | ⟨es1, t1⟩
      · simp [hrest] at hrun
      · simp only [hrest, Option.some.injEq, Prod.mk.injEq] at hrun
        exact ⟨e, s1, es1, rfl, by rw [hrest, hrun.2], hrun.1.symm⟩

theorem raisingRun_length {host : Host Val} {cfg : Config} {h : Heap Val World} {r : Nat}
    {prev : Val} (n : Nat) {i : Nat} {s t : St World} {es : List (Thrown Val)}
    (hrun : raisingRun host cfg h r prev n i s = some (es, t)) : es.length = n := by
  induction n generalizing i s es with
  | zero =>
    simp only [raisingRun, Option.some.injEq, Prod.mk.injEq] at hrun
    rw [← hrun.1]; rfl
  | succ n ih =>
    obtain ⟨e, s1, es1, _, hrest, rfl⟩ := raisingRun_succ hrun
    simp [ih hrest]

theorem raisingRun_delayCount {host : Host Val} {cfg : Config} {h : Heap Val World}
    {r : Nat} {prev : Val} (n : Nat) {i : Nat} {s t : St World} {es : List (Thrown Val)}
    (hrun : raisingRun host cfg h r prev n (i + 1) s = some (es, t)) :
    delayCount t.events = delayCount s.events + n := by
  induction n generalizing i s es with
  | zero =>
    simp only [raisingRun, Option.some.injEq, Prod.mk.injEq] at hrun
    rw [← hrun.2]; rfl
  | succ n ih =>
    obtain ⟨e, s1, es1, hstep, hrest, _⟩ := raisingRun_succ hrun
    rw [ih hrest, stepInAttempt_succ_delayCount hstep]
    omega

theorem lastAssertion_cons (e : Thrown Val) (es : List (Thrown Val))
    (init : Option (AssertionError Val)) :
    lastAssertion (e :: es) init = lastAssertion es (lastAssertion [e] init) := by
  simp [lastAssertion]

/-- Along `n` retry attempts in which the step raises, the loop runs `n` iterations and
keeps, as `assertionError`, the latest assertion failure raised so far. -/
theorem retryLoop_raisingRun {host : Host Val} {cfg : Config} {h : Heap Val World}
    {r : Nat} {prev : Val} (n m : Nat) {i : Nat} {s t : St World} {es : List (Thrown Val)}
    (l : Locals Val)
    (hrun : raisingRun host cfg h r prev n (i + 1) s = some (es, t)) :
    ∃ l1, retryLoop r (attemptCallback host h (reduceParentAncestors host cfg h r) r)
        (n + m) (l, s)
        = retryLoop r (attemptCallback host h (reduceParentAncestors host cfg h r) r)
          m (l1, t)
      ∧ l1.assertionError = lastAssertion es l.assertionError ∧ l1.result = l.result := by
  induction n generalizing i s es l with
  | zero =>
    simp only [raisingRun, Option.some.injEq, Prod.mk.injEq] at hrun
    refine ⟨l, ?_, ?_, rfl⟩
    · rw [← hrun.2]; simp
    · rw [← hrun.1]; rfl
  | succ n ih =>
    obtain ⟨e, s1, es1, hstep, hrest, rfl⟩ := raisingRun_succ hrun
    obtain ⟨l1, hatt, hae, hres⟩ := attemptCallback_step_error hstep l
    obtain ⟨l2, hloop, hae2, hres2⟩ := ih (categorizeException e l1) hrest
    refine ⟨l2, ?_, ?_, ?_⟩
    · rw [show n + 1 + m = (n + m) + 1 by omega]
      simp only [retryLoop, optionsDelay, hatt]
      exact hloop
    · rw [hae2, lastAssertion_cons]
      congr 1
      cases e <;> simp [categorizeException, lastAssertion, hae]
    · rw [hres2]
      cases e <;> simp [categorizeException, hres]

theorem lastAssertion_some (es : List (Thrown Val)) (a0 : AssertionError Val) :
    ∃ a, lastAssertion es (some a0) = some a := by
  induction es generalizing a0 with
  | nil => exact ⟨a0, rfl⟩
  | cons e es ih =>
    rw [lastAssertion_cons]
    cases e with
    | assertion a1 => exact ih a1
    | other x => exact ih a0

theorem lastAssertion_all_assertions (es : List (Thrown Val))
    (init : Option (AssertionError Val)) (a : AssertionError Val)
    (hlast : es.getLast? = some (Thrown.assertion a)) :
    lastAssertion es init = some a := by
  obtain ⟨front, rfl⟩ : ∃ front, es = front ++ [Thrown.assertion a] := by
    rcases List.eq_nil_or_concat es with hnil | ⟨front, x, hx⟩
    · simp [hnil] at hlast
    · refine ⟨front, ?_⟩
      rw [hx] at hlast ⊢
      simp only [List.concat_eq_append, List.getLast?_concat, Option.some.injEq] at hlast
      simp [hlast]
  simp [lastAssertion, List.foldl_append]

theorem isDescendantOfShouldEventually_iff (h : Heap Val World) (r : Nat) :
    isDescendantOfShouldEventually h r = true ↔
      ∃ a ∈ Action.ancestors h r, descriptionOf h a = "shouldEventually" := by
  simp [isDescendantOfShouldEventually]

/-- The retry path when an attempt passes: after a first run that raises an assertion
failure and `n` retries in which the step raises, a retry in which the step returns ends
the loop; `do` then ends with the statements that set the message of the latest assertion
failure and throw. The delay primitive has been called `n + 1` times. -/
theorem do_retry_pass {host : Host Val} {cfg : Config} {h : Heap Val World} {r : Nat}
    {prev : Val} {n : Nat} {s s0 t t1 : St World} {a0 : AssertionError Val}
    {es : List (Thrown Val)} {v : Val}
    (helig : isDescendantOfShouldEventually h r = true
      ∨ cfg.shouldMeansShouldEventually = true)
    (hfirst : runCallback host h r prev s = (Except.error (Thrown.assertion a0), s0))
    (hrun : raisingRun host cfg h r prev n 1 s0 = some (es, t))
    (hpass : stepInAttempt host cfg h r prev (n + 1) t = some (Except.ok v, t1))
    (hn : n < cfg.MAX_RETRIES.toNat) :
    ∃ a, lastAssertion es (some a0) = some a
      ∧ ChaiComponentAction.do host cfg h r prev s = throwAssertion host a t1
      ∧ delayCount t1.events = delayCount s.events + (n + 1) := by
  obtain ⟨a, ha⟩ := lastAssertion_some es a0
  refine ⟨a, ha, ?_, ?_⟩
  · have hcond : (isDescendantOfShouldEventually h r || cfg.shouldMeansShouldEventually)
        = true := by
      rcases helig with h1 | h1 <;> simp [h1]
    obtain ⟨m, hm⟩ : ∃ m, cfg.MAX_RETRIES.toNat = n + (m + 1) :=
      ⟨cfg.MAX_RETRIES.toNat - n - 1, by omega⟩
    simp only [ChaiComponentAction.do, ChaiComponentAction.doWith, hfirst, hcond, if_true, hm]
    obtain ⟨l1, hloop, hae, _⟩ := retryLoop_raisingRun n (m + 1)
      (categorizeException (Thrown.assertion a0)
        { result := host.undefined, resultOfPreviousAction := prev,
          assertionError := none, unhandledException := none }) hrun
    obtain ⟨l2, hatt, hae2, _⟩ := attemptCallback_step_ok hpass l1
    rw [hloop]
    simp only [retryLoop, optionsDelay, hatt]
    apply throwOrReturn_assertion
    rw [hae2, hae]
    simpa [categorizeException] using ha
  · have h0 := runCallback_delayCount host h r prev s
    rw [hfirst] at h0
    simp only at h0
    rw [stepInAttempt_succ_delayCount hpass, raisingRun_delayCount n hrun, h0]
    omega

/-- The retry path when every attempt fails: after a first run that raises an assertion
failure and `MAX_RETRIES` retries in which the step raises, `do` ends with the statements
that set the message of the latest assertion failure and throw. The delay primitive has
been called `MAX_RETRIES` times. -/
theorem do_retry_exhausted {host : Host Val} {cfg : Config} {h : Heap Val World} {r : Nat}
    {prev : Val} {s s0 t : St World} {a0 : AssertionError Val} {es : List (Thrown Val)}
    (helig : isDescendantOfShouldEventually h r = true
      ∨ cfg.shouldMeansShouldEventually = true)
    (hfirst : runCallback host h r prev s = (Except.error (Thrown.assertion a0), s0))
    (hrun : raisingRun host cfg h r prev cfg.MAX_RETRIES.toNat 1 s0 = some (es, t)) :
    ∃ a, lastAssertion es (some a0) = some a
      ∧ ChaiComponentAction.do host cfg h r prev s = throwAssertion host a t
      ∧ delayCount t.events = delayCount s.events + cfg.MAX_RETRIES.toNat := by
  obtain ⟨a, ha⟩ := lastAssertion_some es a0
  refine ⟨a, ha, ?_, ?_⟩
  · have hcond : (isDescendantOfShouldEventually h r || cfg.shouldMeansShouldEventually)
        = true := by
      rcases helig with h1 | h1 <;> simp [h1]
    simp only [ChaiComponentAction.do, ChaiComponentAction.doWith, hfirst, hcond, if_true]
    obtain ⟨l1, hloop, hae, _⟩ := retryLoop_raisingRun cfg.MAX_RETRIES.toNat 0
      (categorizeException (Thrown.assertion a0)
        { result := host.undefined, resultOfPreviousAction := prev,
          assertionError := none, unhandledException := none }) hrun
    rw [Nat.add_zero] at hloop
    rw [hloop]
    simp only [retryLoop]
    apply throwOrReturn_assertion
    rw [hae]
    simpa [categorizeException] using ha
  · have h0 := runCallback_delayCount host h r prev s
    rw [hfirst] at h0
    simp only at h0
    rw [raisingRun_delayCount _ hrun, h0]

/-! ### The event log only grows -/

theorem runCallback_extends (host : Host Val) (h : Heap Val World) (r : Nat) (arg : Val)
    (s : St World) : ∃ evs, (runCallback host h r arg s).2.events = s.events ++ evs := by
  rcases runCallback_events host h r arg s with hev | ⟨hev, _⟩
  · exact ⟨_, hev⟩
  · exact ⟨[], by rw [hev]; simp⟩

theorem attemptCallback_extends (host : Host Val) (h : Heap Val World)
    (f : St World → Result Val World) (r : Nat)
    (hf : ∀ s, ∃ evs, (f s).2.events = s.events ++ evs) (ls : Locals Val × St World) :
    ∃ evs, (attemptCallback host h f r ls).2.2.events = ls.2.events ++ evs := by
  obtain ⟨ev1, h1⟩ := hf ls.2
  unfold attemptCallback
  rcases hfs : f ls.2 with ⟨res, s1⟩
  rw [hfs] at h1
  simp only at h1
  cases res with
  | error e => exact ⟨ev1, h1⟩
  | ok v =>
    obtain ⟨ev2, h2⟩ := runCallback_extends host h r v s1
    simp only
    rcases hrun : runCallback host h r v s1 with ⟨res2, s2⟩
    rw [hrun] at h2
    simp only at h2
    cases res2 <;> exact ⟨ev1 ++ ev2, by simp [h2, h1]⟩

theorem retryLoop_extends (r : Nat)
    (att : Locals Val × St World → Except (Thrown Val) Unit × (Locals Val × St World))
    (hatt : ∀ ls, ∃ evs, (att ls).2.2.events = ls.2.events ++ evs) (n : Nat)
    (ls : Locals Val × St World) :
    ∃ evs, (retryLoop r att n ls).2.events = ls.2.events ++ evs := by
  induction n generalizing ls with
  | zero => exact ⟨[], by simp [retryLoop]⟩
  | succ n ih =>
    simp only [retryLoop, optionsDelay]
    obtain ⟨ev1, h1⟩ :=
      hatt (ls.1, { world := ls.2.world, events := ls.2.events ++ [Event.delay r] })
    rcases hres : att (ls.1, { world := ls.2.world, events := ls.2.events ++ [Event.delay r] })
      with ⟨res, ls1⟩
    rw [hres] at h1
    simp only at h1
    cases res with
    | ok u => exact ⟨[Event.delay r] ++ ev1, by simp [h1]⟩
    | error e =>
      obtain ⟨ev2, h2⟩ := ih (categorizeException e ls1.1, ls1.2)
      exact ⟨[Event.delay r] ++ ev1 ++ ev2, by simp [h2, h1]⟩

/-- An iteration of the retry loop begins with a call of the delay primitive. -/
theorem retryLoop_succ_events (r : Nat)
    (att : Locals Val × St World → Except (Thrown Val) Unit × (Locals Val × St World))
    (hatt : ∀ ls, ∃ evs, (att ls).2.2.events = ls.2.events ++ evs) (n : Nat)
    (ls : Locals Val × St World) :
    ∃ rest, (retryLoop r att (n + 1) ls).2.events = ls.2.events ++ Event.delay r :: rest := by
  simp only [retryLoop, optionsDelay]
  obtain ⟨ev1, h1⟩ :=
    hatt (ls.1, { world := ls.2.world, events := ls.2.events ++ [Event.delay r] })
  rcases hres : att (ls.1, { world := ls.2.world, events := ls.2.events ++ [Event.delay r] })
    with ⟨res, ls1⟩
  rw [hres] at h1
  simp only at h1
  cases res with
  | ok u => exact ⟨ev1, by simp [h1]⟩
  | error e =>
    obtain ⟨ev2, h2⟩ := retryLoop_extends r att hatt n (categorizeException e ls1.1, ls1.2)
    exact ⟨ev1 ++ ev2, by simp [h2, h1]⟩

theorem doWith_extends (host : Host Val) (cfg : Config) (h : Heap Val World)
    (f : St World → Result Val World) (hf : ∀ s, ∃ evs, (f s).2.events = s.events ++ evs)
    (r : Nat) (prev : Val) (s : St World) :
    ∃ evs, (ChaiComponentAction.doWith host cfg h f r prev s).2.events = s.events ++ evs := by
  obtain ⟨ev1, h1⟩ := runCallback_extends host h r prev s
  unfold ChaiComponentAction.doWith
  rcases hrun : runCallback host h r prev s with ⟨res, s1⟩
  rw [hrun] at h1
  simp only at h1
  cases res with
  | ok v => exact ⟨ev1, h1⟩
  | error e =>
    cases e with
    | other x => exact ⟨ev1, by simp only [throwOrReturn_state]; exact h1⟩
    | assertion a =>
      simp only
      split
      · obtain ⟨ev2, h2⟩ := retryLoop_extends r (attemptCallback host h f r)
          (attemptCallback_extends host h f r hf) cfg.MAX_RETRIES.toNat
          (categorizeException (Thrown.assertion a)
            { result := host.undefined, resultOfPreviousAction := prev,
              assertionError := none, unhandledException := none }, s1)
        exact ⟨ev1 ++ ev2, by simp only [throwOrReturn_state]; simp [h2, h1]⟩
      · exact ⟨ev1, by simp only [throwOrReturn_state]; exact h1⟩

theorem dispatchDo_extends (host : Host Val) (cfg : Config) (h : Heap Val World)
    (f : St World → Result Val World) (hf : ∀ s, ∃ evs, (f s).2.events = s.events ++ evs)
    (r : Nat) (prev : Val) (s : St World) :
    ∃ evs, (dispatchDo host cfg h f r prev s).2.events = s.events ++ evs := by
  unfold dispatchDo
  split
  · exact doWith_extends host cfg h f hf r prev s
  · obtain ⟨ev1, h1⟩ := runCallback_extends host h r prev
      { world := s.world, events := s.events ++ [Event.executingAction r] }
    exact ⟨[Event.executingAction r] ++ ev1, by simp [Action.do, h1]⟩

theorem nullAncestors_extends (host : Host Val) (s : St World) :
    ∃ evs, (nullAncestors host s).2.events = s.events ++ evs :=
  ⟨[], by simp [nullAncestors]⟩

theorem reduceAncestors_extends (host : Host Val) (cfg : Config) (h : Heap Val World)
    (l : List Nat) (s : St World) :
    ∃ evs, (reduceAncestors host cfg h l s).2.events = s.events ++ evs := by
  induction l generalizing s with
  | nil => exact ⟨[], by simp [reduceAncestors]⟩
  | cons a above ih =>
    obtain ⟨ev1, h1⟩ := ih s
    simp only [reduceAncestors]
    rcases habove : reduceAncestors host cfg h above s with ⟨res, s1⟩
    rw [habove] at h1
    simp only at h1
    cases res with
    | error e => exact ⟨ev1, h1⟩
    | ok v =>
      have hf : ∀ t, ∃ evs, ((match above with
          | [] => nullAncestors host
          | _ :: _ => reduceAncestors host cfg h above) t).2.events = t.events ++ evs := by
        intro t
        cases above with
        | nil => exact nullAncestors_extends host t
        | cons b above2 => exact ih t
      obtain ⟨ev2, h2⟩ := dispatchDo_extends host cfg h _ hf a v s1
      exact ⟨ev1 ++ ev2, by simp only; rw [h2, h1]; simp⟩

theorem reduceParentAncestors_extends (host : Host Val) (cfg : Config) (h : Heap Val World)
    (r : Nat) (s : St World) :
    ∃ evs, (reduceParentAncestors host cfg h r s).2.events = s.events ++ evs := by
  unfold reduceParentAncestors
  cases parentOf h r with
  | none => exact nullAncestors_extends host s
  | some p => exact reduceAncestors_extends host cfg h _ s


/-! ### The claims on the retry loop -/

/-- The count of delays while the test of `do` finds the eventual context: for a chain
step that has, when `do` runs, an ancestor whose description is `shouldEventually`, or
with the flag `shouldMeansShouldEventually` on, whose step raises an assertion failure on
attempts 1..k-1 and returns normally on attempt k, with k at most the maximum attempt
count, `ChaiComponentAction.do` ends in the state left by attempt k, and has invoked the
delay primitive exactly k-1 times. -/
theorem delay_invoked_k_minus_one (host : Host Val) (cfg : Config) (h : Heap Val World)
    (r : Nat) (prev v : Val) (k : Nat) (s t t1 : St World) (es : List (Thrown Val))
    (hk1 : 1 ≤ k) (hk : (k : Int) ≤ cfg.MAX_RETRIES)
    (helig : isDescendantOfShouldEventually h r = true
      ∨ cfg.shouldMeansShouldEventually = true)
    (hfail : raisingRun host cfg h r prev (k - 1) 0 s = some (es, t))
    (hass : ∀ e ∈ es, e.isAssertion = true)
    (hpass : stepInAttempt host cfg h r prev (k - 1) t = some (Except.ok v, t1)) :
    (ChaiComponentAction.do host cfg h r prev s).2 = t1
    ∧ delayCount t1.events = delayCount s.events + (k - 1) := by
  obtain ⟨n, rfl⟩ : ∃ n, k = n + 1 := ⟨k - 1, by omega⟩
  simp only [Nat.add_sub_cancel] at hfail hpass ⊢
  cases n with
  | zero =>
    simp only [raisingRun, Option.some.injEq, Prod.mk.injEq] at hfail
    rw [← hfail.2] at hpass
    simp only [stepInAttempt, Option.some.injEq] at hpass
    rw [do_of_step_ok host cfg h r prev v s t1 hpass, runCallback_ok_events hpass]
    exact ⟨rfl, by simp [delayCount]⟩
  | succ n =>
    obtain ⟨e0, s0, es1, hstep0, hrest, rfl⟩ := raisingRun_succ hfail
    simp only [stepInAttempt, Option.some.injEq] at hstep0
    have he0 := hass e0 (by simp)
    cases e0 with
    | other x => simp [Thrown.isAssertion] at he0
    | assertion a0 =>
      have hn : n < cfg.MAX_RETRIES.toNat := by omega
      obtain ⟨a, _, hdo, hcount⟩ := do_retry_pass helig hstep0 hrest hpass hn
      rw [hdo]
      exact ⟨throwAssertion_state host a t1, hcount⟩

/-- The exhausted retry loop while the test of `do` finds the eventual context: for a
chain step that has, when `do` runs, an ancestor whose description is `shouldEventually`,
or with the flag `shouldMeansShouldEventually` on, whose step raises an assertion failure
on the first run and on every retry attempt up to `MAX_RETRIES`, `ChaiComponentAction.do`
ends with the statements that set the message of the failure raised by the last attempt
and throw it; when `JSON.stringify` renders its `expected` and `actual`, that failure is
raised with the message `expected: <JSON of expected>   actual: <JSON of actual>`. -/
theorem exhausted_raises_last_assertion (host : Host Val) (cfg : Config)
    (h : Heap Val World) (r : Nat) (prev : Val) (s t : St World) (es : List (Thrown Val))
    (helig : isDescendantOfShouldEventually h r = true
      ∨ cfg.shouldMeansShouldEventually = true)
    (hfail : raisingRun host cfg h r prev (cfg.MAX_RETRIES.toNat + 1) 0 s = some (es, t))
    (hass : ∀ e ∈ es, e.isAssertion = true) :
    ∃ a, es.getLast? = some (Thrown.assertion a)
      ∧ ChaiComponentAction.do host cfg h r prev s = throwAssertion host a t
      ∧ (host.jsonStringifyThrows a.expected = none →
          host.jsonStringifyThrows a.actual = none →
          ChaiComponentAction.do host cfg h r prev s =
            (Except.error (Thrown.assertion
              { message := "expected: " ++ templateString (host.jsonStringify a.expected)
                  ++ "   actual: " ++ templateString (host.jsonStringify a.actual),
                expected := a.expected, actual := a.actual }), t)) := by
  obtain ⟨e0, s0, es1, hstep0, hrest, rfl⟩ := raisingRun_succ hfail
  simp only [stepInAttempt, Option.some.injEq] at hstep0
  have he0 := hass e0 (by simp)
  cases e0 with
  | other x => simp [Thrown.isAssertion] at he0
  | assertion a0 =>
    obtain ⟨a, hla, hdo, _⟩ := do_retry_exhausted helig hstep0 hrest
    obtain ⟨b, hb⟩ :
        ∃ b, (Thrown.assertion a0 :: es1).getLast? = some (Thrown.assertion b) := by
      have hne : (Thrown.assertion a0 :: es1) ≠ [] := by simp
      have hmem := List.getLast_mem hne
      have hlast := hass _ hmem
      rw [List.getLast?_eq_getLast _ hne]
      cases hx : (Thrown.assertion a0 :: es1).getLast hne with
      | other x => rw [hx] at hlast; simp [Thrown.isAssertion] at hlast
      | assertion b => exact ⟨b, rfl⟩
    have hab : a = b := by
      have h1 := lastAssertion_all_assertions (Thrown.assertion a0 :: es1) none b hb
      rw [lastAssertion_cons] at h1
      have h2 : lastAssertion [Thrown.assertion a0] none = some a0 := rfl
      rw [h2, hla] at h1
      exact Option.some.inj h1
    subst hab
    refine ⟨a, hb, hdo, fun hexpected hactual => ?_⟩
    rw [hdo]
    exact throwAssertion_renders host a t hexpected hactual

/-- C9, as amended. The retry loop goes on while attempts remain, whatever the kind of
the latest failure: in every run in which the first run raises an assertion failure in an
eventual context and the step raises again, an assertion failure or not, in each of the
first `n` retry attempts, with `n` less than `MAX_RETRIES`, the delay primitive is invoked
again right after the last of these attempts. -/
theorem retry_continues_after_any_failure (host : Host Val) (cfg : Config)
    (h : Heap Val World) (r : Nat) (prev : Val) (n : Nat) (s t : St World)
    (es : List (Thrown Val)) (a0 : AssertionError Val)
    (helig : isDescendantOfShouldEventually h r = true
      ∨ cfg.shouldMeansShouldEventually = true)
    (hfail : raisingRun host cfg h r prev (n + 1) 0 s = some (es, t))
    (hfirst : es.head? = some (Thrown.assertion a0))
    (hn : (n : Int) < cfg.MAX_RETRIES) :
    ∃ rest, (ChaiComponentAction.do host cfg h r prev s).2.events
      = t.events ++ Event.delay r :: rest := by
  obtain ⟨e0, s0, es1, hstep0, hrest, rfl⟩ := raisingRun_succ hfail
  simp only [stepInAttempt, Option.some.injEq] at hstep0
  simp only [List.head?_cons, Option.some.injEq] at hfirst
  subst hfirst
  have hcond : (isDescendantOfShouldEventually h r || cfg.shouldMeansShouldEventually)
      = true := by
    rcases helig with h1 | h1 <;> simp [h1]
  obtain ⟨m, hm⟩ : ∃ m, cfg.MAX_RETRIES.toNat = n + (m + 1) :=
    ⟨cfg.MAX_RETRIES.toNat - n - 1, by omega⟩
  simp only [ChaiComponentAction.do, ChaiComponentAction.doWith, hstep0, hcond, if_true, hm,
    throwOrReturn_state]
  obtain ⟨l1, hloop, _, _⟩ := retryLoop_raisingRun n (m + 1)
    (categorizeException (Thrown.assertion a0)
      { result := host.undefined, resultOfPreviousAction := prev,
        assertionError := none, unhandledException := none }) hrest
  rw [hloop]
  exact retryLoop_succ_events r _
    (attemptCallback_extends host h _ r (reduceParentAncestors_extends host cfg h r)) m (l1, t)

/-! ### The description assigned by `ItAction.generateSpec` -/

theorem descriptionChunksLoop_acc (host : Host Val) (h : Heap Val World) (fuel : Nat)
    (cur : Option Nat) (acc : List String) :
    descriptionChunksLoop host h fuel cur acc
      = acc ++ descriptionChunksLoop host h fuel cur [] := by
  induction fuel generalizing cur acc with
  | zero => simp [descriptionChunksLoop]
  | succ n ih =>
    cases cur with
    | none => simp [descriptionChunksLoop]
    | some c =>
      simp only [descriptionChunksLoop]
      cases h[c]? with
      | none => simp
      | some a =>
        simp only
        rw [ih]
        conv_rhs => rw [ih]
        split <;> simp

theorem intercalate_go_length (acc sep : String) (l : List String) :
    acc.length ≤ (String.intercalate.go acc sep l).length := by
  induction l generalizing acc with
  | nil => simp [String.intercalate.go]
  | cons x l ih =>
    simp only [String.intercalate.go]
    have := ih (acc ++ sep ++ x)
    simp only [String.length_append] at this
    omega

/-- The description that `ItAction.generateSpec` assigns to an action with a child differs
from the description the action had: the label of the child is appended to it. -/
theorem ItAction.description_ne (host : Host Val) (h : Heap Val World) (r c : Nat)
    (a b : Action Val World) (rest : List Nat) (hr : h[r]? = some a)
    (hchild : a.childActions = c :: rest) (hc : h[c]? = some b) :
    ItAction.description host h r ≠ a.description := by
  have hlen : 0 < h.length := by
    by_contra hz
    have : h[r]? = none := List.getElem?_eq_none (by omega)
    rw [this] at hr
    exact Option.noConfusion hr
  obtain ⟨n, hn⟩ : ∃ n, h.length = n + 1 := ⟨h.length - 1, by omega⟩
  have hchunks : ∃ x more, descriptionChunksLoop host h (h.length + 1) (some r) []
      = a.description :: x :: more := by
    rw [hn]
    simp only [descriptionChunksLoop, hr, hchild, List.head?_cons, hc, List.nil_append]
    rw [descriptionChunksLoop_acc]
    split <;> split <;> simp
  obtain ⟨x, more, hx⟩ := hchunks
  intro heq
  have hle := intercalate_go_length (a.description ++ " " ++ x) " " more
  have hlen2 : (ItAction.description host h r).length = a.description.length := by rw [heq]
  simp only [ItAction.description, hx, String.intercalate, String.intercalate.go] at hlen2
  simp only [String.length_append] at hle
  have hsp : (" " : String).length = 1 := by decide
  omega

theorem descriptionOf_setDescription (h : Heap Val World) (r : Nat) (a : Action Val World)
    (d : String) (hr : h[r]? = some a) : descriptionOf (setDescription h r d) r = d := by
  have hlt : r < h.length := by
    by_contra hge
    have : h[r]? = none := List.getElem?_eq_none (by omega)
    rw [this] at hr
    exact Option.noConfusion hr
  simp [descriptionOf, setDescription, hr, List.getElem?_set, hlt]

/-- After `generateSpec` of an `ItAction` labelled `shouldEventually` that has a child,
the captured arguments being values that `JSON.stringify` renders, the action is no longer
labelled `shouldEventually`. -/
theorem generateSpec_it_relabels (host : Host Val) (cfg : Config) (fuel r c : Nat)
    (g : Getter Val) (R : Realization Val World) (a b : Action Val World) (rest : List Nat)
    (hr : R.heap[r]? = some a) (hcls : a.cls = ActionClass.ItAction)
    (hchild : a.childActions = c :: rest) (hc : R.heap[c]? = some b)
    (hrenders : ItAction.descriptionThrows host R.heap r = none) :
    ∃ out, generateSpec host cfg (fuel + 1) r g R = some out
      ∧ descriptionOf out.state.heap r ≠ a.description := by
  have hgen : generateSpec host cfg (fuel + 1) r g R =
      some { blocks := it_ (ItAction.description host R.heap r) r g, thrown := none,
             state := { heap := setDescription R.heap r (ItAction.description host R.heap r),
                        st := R.st, groupResults := R.groupResults } } := by
    simp only [generateSpec, classOf, hr, Option.map_some', hcls, hrenders]
  refine ⟨_, hgen, ?_⟩
  simp only
  rw [descriptionOf_setDescription R.heap r a _ hr]
  exact ItAction.description_ne host R.heap r c a b rest hr hchild hc

/-! ### The worked example -/

/-- An instance of C1: the ancestors of `equal` in `subject.shouldEventually.equal(5)`. -/
theorem ancestors_nearest_first_witness :
    WellFormed exampleHeap
    ∧ List.Chain' (fun a b => parentOf exampleHeap a = some b) (Action.ancestors exampleHeap 2)
    ∧ ∃ root, (Action.ancestors exampleHeap 2).getLast? = some root
        ∧ parentOf exampleHeap root = none
        ∧ roots exampleHeap (Action.ancestors exampleHeap 2) = [root] :=
  ⟨by decide, (ancestors_nearest_first exampleHeap (by decide) 2).2.2⟩

/-- C2, at the failing input `subject.shouldEventually.equal(5)` with a subject that reads
4, then 5: the step of `equal` raises an assertion failure on attempt 1 and returns 5 on
attempt 2, and `ChaiComponentAction.do` does not return 5: it throws the assertion failure
of attempt 1, because `assertionError` is still set when the loop is left. -/
theorem retry_pass_still_raises :
    stepInAttempt jsHost exampleConfig exampleHeap 2 (JsVal.num 4) 0
        { world := 1, events := [] }
      = some (Except.error (Thrown.assertion
          (equalFailure (JsVal.num 5) (JsVal.num 4))),
          { world := 1, events := [Event.callback 2] })
    ∧ stepInAttempt jsHost exampleConfig exampleHeap 2 (JsVal.num 4) 1
        { world := 1, events := [Event.callback 2] }
      = some (Except.ok (JsVal.num 5), { world := 2, events := Event.callback 2 :: retryLog })
    ∧ ChaiComponentAction.do jsHost exampleConfig exampleHeap 2 (JsVal.num 4)
        { world := 1, events := [] }
      = (Except.error (Thrown.assertion
          { message := "expected: 5   actual: 4", expected := JsVal.num 5,
            actual := JsVal.num 4 }),
        { world := 2, events := Event.callback 2 :: retryLog }) :=
  ⟨rfl, rfl, rfl⟩

/-- Before the tree is realized, the label `shouldEventually` is in place: in
`subject.shouldEventually.equal(5)` the step fails on attempt 1 and passes on attempt 2,
and the delay primitive is invoked once. -/
theorem delay_invoked_k_minus_one_example :
    (ChaiComponentAction.do jsHost exampleConfig exampleHeap 2 (JsVal.num 4)
        { world := 1, events := [] }).2
      = { world := 2, events := Event.callback 2 :: retryLog }
    ∧ delayCount (Event.callback 2 :: retryLog) = delayCount [] + (2 - 1) :=
  delay_invoked_k_minus_one jsHost exampleConfig exampleHeap 2 (JsVal.num 4) (JsVal.num 5) 2
    { world := 1, events := [] } { world := 1, events := [Event.callback 2] }
    { world := 2, events := Event.callback 2 :: retryLog }
    [Thrown.assertion (equalFailure (JsVal.num 5) (JsVal.num 4))]
    (by decide) (by decide) (Or.inl rfl) rfl
    (by simp [Thrown.isAssertion]) rfl

/-- An instance of C4: `equal(5)` on the value 5 returns it after one run of the step. -/
theorem do_returns_first_result_witness :
    ChaiComponentAction.do jsHost exampleConfig exampleHeap 2 (JsVal.num 5)
        { world := 1, events := [] }
      = (Except.ok (JsVal.num 5), { world := 1, events := [Event.callback 2] })
    ∧ [Event.callback 2] = [] ++ [Event.callback 2]
    ∧ delayCount [Event.callback 2] = delayCount [] :=
  do_returns_first_result jsHost exampleConfig exampleHeap 2 (JsVal.num 5) (JsVal.num 5)
    { world := 1, events := [] } { world := 1, events := [Event.callback 2] } rfl

/-- Before the tree is realized, the label `shouldEventually` is in place: with
`MAX_RETRIES` 2 and a subject that reads 9, 6, 7, the step of `equal(5)` fails three times
and the failure thrown is the one of the last attempt. -/
theorem exhausted_raises_last_assertion_example :
    ∃ a, [Thrown.assertion (equalFailure (JsVal.num 5) (JsVal.num 9)),
          Thrown.assertion (equalFailure (JsVal.num 5) (JsVal.num 6)),
          Thrown.assertion (equalFailure (JsVal.num 5) (JsVal.num 7))].getLast?
        = some (Thrown.assertion a)
      ∧ ChaiComponentAction.do jsHost twoRetries exampleHeap 2 (JsVal.num 9)
          { world := 2, events := [] } =
          throwAssertion jsHost a
            { world := 4, events := Event.callback 2 :: retryLog ++ retryLog } := by
  obtain ⟨a, hlast, hdo, _⟩ := exhausted_raises_last_assertion jsHost twoRetries exampleHeap
    2 (JsVal.num 9) { world := 2, events := [] }
    { world := 4, events := Event.callback 2 :: retryLog ++ retryLog } _
    (Or.inl rfl) rfl (by simp [Thrown.isAssertion])
  exact ⟨a, hlast, hdo⟩

/-- With values that `JSON.stringify` renders: in `subject.should.equal(5)` on the value 4
the failure is thrown at once, with the message `expected: 5   actual: 4`. -/
theorem do_ineligible_assertion_example :
    ChaiComponentAction.do jsHost exampleConfig shouldHeap 2 (JsVal.num 4)
        { world := 1, events := [] }
      = (Except.error (Thrown.assertion
          { message := "expected: 5   actual: 4", expected := JsVal.num 5,
            actual := JsVal.num 4 }), { world := 1, events := [Event.callback 2] }) :=
  (do_ineligible_assertion jsHost exampleConfig shouldHeap 2 (JsVal.num 4)
    (equalFailure (JsVal.num 5) (JsVal.num 4))
    { world := 1, events := [] } { world := 1, events := [Event.callback 2] }
    (by decide) rfl rfl).2.1 rfl rfl

/-- C7, at the failing input: a step that throws `null`, which is not an assertion
failure. `ChaiComponentAction.do` does not throw it: the test
`if(assertionError || unhandledException)` is false for a falsy value, and `do` returns
`undefined`. -/
theorem falsy_throw_swallowed :
    runCallback jsHost (chainHeap "should" throwNull) 2 (JsVal.num 4)
        { world := 1, events := [] }
      = (Except.error (Thrown.other JsVal.null), { world := 1, events := [Event.callback 2] })
    ∧ ChaiComponentAction.do jsHost exampleConfig (chainHeap "should" throwNull) 2
        (JsVal.num 4) { world := 1, events := [] }
      = (Except.ok JsVal.undefined, { world := 1, events := [Event.callback 2] }) :=
  ⟨rfl, rfl⟩

/-- C8, at the failing input `subject.shouldEventually.equal(5)` with a subject that reads
4: `generateSpec` of the `ItAction` replaces its description `shouldEventually` by
`shouldEventually equal 5` before the case is registered; when the case body runs, no
ancestor of `equal` is labelled `shouldEventually` any more, and the assertion failure of
`equal` is thrown without any call of the delay primitive, with `MAX_RETRIES` 5. -/
theorem realized_shouldEventually_not_retried :
    (generateSpec jsHost exampleConfig 4 0 Getter.noResult exampleStart).map
        (fun out => (out.blocks, out.state.heap.map (fun a => a.description)))
      = some ([Block.group "when doing subject"
                [Block.setup 0 Getter.noResult,
                  Block.case "shouldEventually equal 5" 1 (Getter.groupResult 0)]],
              ["subject", "shouldEventually equal 5", "equal"])
    ∧ isDescendantOfShouldEventually exampleStart.heap 2 = true
    ∧ isDescendantOfShouldEventually exampleRegistered.heap 2 = false
    ∧ (ItAction.caseBody jsHost exampleConfig 1 (Getter.groupResult 0) exampleAfterSetup).map
        (fun out => (out.thrown, out.state.st.events))
      = some (some (Thrown.assertion
          { message := "expected: 5   actual: 4", expected := JsVal.num 5,
            actual := JsVal.num 4 }),
        [Event.executingAction 0, Event.callback 0, Event.executingAction 1,
          Event.callback 1, Event.callback 2]) :=
  ⟨rfl, rfl, rfl, rfl⟩

/-- C9, as stated, fails: with `MAX_RETRIES` 2, the first retry attempt raises a failure
that is not an assertion failure (a `TypeError`), one call of the delay primitive has been
made by then, and `ChaiComponentAction.do` makes a second one after it. -/
theorem delay_invoked_after_other_failure :
    stepInAttempt jsHost twoRetries (chainHeap "shouldEventually" equalThenMissing) 2
        (JsVal.num 4) 1 { world := 1, events := [Event.callback 2] }
      = some (Except.error (Thrown.other (JsVal.errorObject "TypeError")),
          { world := 2, events := Event.callback 2 :: retryLog })
    ∧ (ChaiComponentAction.do jsHost twoRetries
        (chainHeap "shouldEventually" equalThenMissing) 2 (JsVal.num 4)
        { world := 1, events := [] }).2.events
      = (Event.callback 2 :: retryLog) ++ retryLog
    ∧ delayCount (Event.callback 2 :: retryLog) = 1
    ∧ delayCount (ChaiComponentAction.do jsHost twoRetries
        (chainHeap "shouldEventually" equalThenMissing) 2 (JsVal.num 4)
        { world := 1, events := [] }).2.events = 2 :=
  ⟨rfl, rfl, rfl, rfl⟩

/-- An instance of C9 as amended: after the retry attempt that raised a `TypeError`, the
delay primitive is invoked again. -/
theorem retry_continues_after_any_failure_witness :
    ∃ rest, (ChaiComponentAction.do jsHost twoRetries
        (chainHeap "shouldEventually" equalThenMissing) 2 (JsVal.num 4)
        { world := 1, events := [] }).2.events
      = (Event.callback 2 :: retryLog) ++ Event.delay 2 :: rest :=
  retry_continues_after_any_failure jsHost twoRetries
    (chainHeap "shouldEventually" equalThenMissing) 2 (JsVal.num 4) 1
    { world := 1, events := [] } { world := 2, events := Event.callback 2 :: retryLog }
    [Thrown.assertion (equalFailure (JsVal.num 5) (JsVal.num 4)),
      Thrown.other (JsVal.errorObject "TypeError")]
    (equalFailure (JsVal.num 5) (JsVal.num 4))
    (Or.inl rfl) rfl rfl (by decide)

/-- C10, at the failing input: with `MAX_RETRIES` 2, the step raises an assertion failure
on the first run and a `TypeError` on both retry attempts; the loop ends with the step
still failing, and `ChaiComponentAction.do` throws the assertion failure of the first run,
not the `TypeError` raised by the last attempt. -/
theorem exhausted_drops_last_failure :
    (raisingRun jsHost twoRetries (chainHeap "shouldEventually" equalThenMissing) 2
        (JsVal.num 4) 3 0 { world := 1, events := [] }).map (fun run => run.1)
      = some [Thrown.assertion (equalFailure (JsVal.num 5) (JsVal.num 4)),
              Thrown.other (JsVal.errorObject "TypeError"),
              Thrown.other (JsVal.errorObject "TypeError")]
    ∧ ChaiComponentAction.do jsHost twoRetries
        (chainHeap "shouldEventually" equalThenMissing) 2 (JsVal.num 4)
        { world := 1, events := [] }
      = (Except.error (Thrown.assertion
          { message := "expected: 5   actual: 4", expected := JsVal.num 5,
            actual := JsVal.num 4 }),
        { world := 3, events := Event.callback 2 :: retryLog ++ retryLog }) :=
  ⟨rfl, rfl⟩

/-! ### The retry attempt -/

theorem ancestors_reverse_head {h : Heap Val World} (wf : WellFormed h) (r : Nat) :
    ∃ root, (Action.ancestors h r).reverse.head? = some root ∧ parentOf h root = none := by
  induction r using Nat.strong_induction_on with
  | _ r ih =>
    rw [ancestors_unfold wf r]
    cases hp : parentOf h r with
    | none => exact ⟨r, by simp, hp⟩
    | some p =>
      obtain ⟨root, hhead, hroot⟩ := ih p (parentOf_lt wf hp)
      refine ⟨root, ?_, hroot⟩
      simp only [List.reverse_cons]
      rw [List.head?_append, hhead]
      rfl

/-- C20. On every retry attempt of a chain step N with parent P, the previous result is
re-derived by a left fold of `do` (each ancestor through the `do` of its own class, each
on the result of the one before it) over the reversed `ancestors(P)`, which begins at the
root, the root receiving `null`; when the fold returns a value, the step of N is then
applied once, to that value and not to the previous result held before the attempt, and
the only call added after the fold is that one run of the step. -/
theorem attempt_rederives_root_first (host : Host Val) (cfg : Config) (h : Heap Val World)
    (wf : WellFormed h) (r p : Nat) (hp : parentOf h r = some p) (l : Locals Val)
    (s : St World) :
    (attemptCallback host h (reduceParentAncestors host cfg h r) r (l, s) =
      match reduceDo (actionDo host cfg h) (Action.ancestors h p).reverse host.null s with
      | (Except.error e, s1) => (Except.error e, ({ l with unhandledException := none }, s1))
      | (Except.ok v, s1) =>
        match runCallback host h r v s1 with
        | (Except.error e, s2) =>
          (Except.error e,
            ({ l with unhandledException := none, resultOfPreviousAction := v }, s2))
        | (Except.ok res, s2) =>
          (Except.ok (),
            ({ l with unhandledException := none, resultOfPreviousAction := v,
                      result := res }, s2)))
    ∧ (∃ root, (Action.ancestors h p).reverse.head? = some root ∧ parentOf h root = none)
    ∧ (∀ v s1, reduceDo (actionDo host cfg h) (Action.ancestors h p).reverse host.null s
          = (Except.ok v, s1) →
        (attemptCallback host h (reduceParentAncestors host cfg h r) r (l, s)).2.2.events
          = s1.events ++ [Event.callback r]) := by
  have hred : reduceParentAncestors host cfg h r s =
      reduceDo (actionDo host cfg h) (Action.ancestors h p).reverse host.null s := by
    simp only [reduceParentAncestors, hp]
    exact reduceAncestors_eq_reduce host cfg wf p s
  have hr : r < h.length := parentOf_inRange hp
  refine ⟨?_, ancestors_reverse_head wf p, ?_⟩
  · simp only [attemptCallback, hred]
  · intro v s1 hfold
    simp only [attemptCallback, hred, hfold]
    rcases runCallback_events host h r v s1 with hev | ⟨_, hnone⟩
    · rcases hrun : runCallback host h r v s1 with ⟨res2, s2⟩
      rw [hrun] at hev
      cases res2 <;> exact hev
    · have : h[r]? ≠ none := by
        intro hn
        have := List.getElem?_eq_none_iff.mp hn
        omega
      exact absurd hnone this

/-- An instance of C20: the first retry of `equal` in `subject.shouldEventually.equal(5)`
runs the root on `null`, the `ItAction` on its result 5, and `equal` on that 5. -/
theorem attempt_rederives_root_first_witness :
    (attemptCallback jsHost exampleHeap (reduceParentAncestors jsHost exampleConfig exampleHeap 2)
        2 ({ result := JsVal.undefined, resultOfPreviousAction := JsVal.num 4,
             assertionError := none, unhandledException := none },
           { world := 1, events := [] })).2.2.events
      = [Event.executingAction 0, Event.callback 0, Event.executingAction 1,
          Event.callback 1] ++ [Event.callback 2] :=
  (attempt_rederives_root_first jsHost exampleConfig exampleHeap (by decide) 2 1 rfl
    { result := JsVal.undefined, resultOfPreviousAction := JsVal.num 4,
      assertionError := none, unhandledException := none }
    { world := 1, events := [] }).2.2 (JsVal.num 5)
    { world := 2, events := [Event.executingAction 0, Event.callback 0,
        Event.executingAction 1, Event.callback 1] } rfl

/-! ### Dynamic member interception -/

theorem Action.create_eq (cls : ActionClass) (h : Heap Val World) (parentAction : Option Nat)
    (description : String) (callback : Callback Val World) :
    Action.create cls h parentAction description callback =
      (h ++ [newAction cls parentAction description callback], h.length) := by
  cases cls <;> rfl

theorem getElem?_of_lt (h : Heap Val World) (r : Nat) (hr : r < h.length) :
    ∃ a, h[r]? = some a :=
  ⟨h[r], List.getElem?_eq_getElem hr⟩

theorem pushChild_append_appends (h : Heap Val World) (r : Nat) (hr : r < h.length)
    (n : Action Val World) (hparent : n.parentAction = some r) (hchildren : n.childActions = []) :
    AppendsChild h r (pushChild (h ++ [n]) r h.length) h.length := by
  obtain ⟨a, ha⟩ := getElem?_of_lt h r hr
  have ha1 : (h ++ [n])[r]? = some a := by
    rw [List.getElem?_append_left hr]; exact ha
  have hne : r ≠ h.length := by omega
  have hpush : pushChild (h ++ [n]) r h.length
      = (h ++ [n]).set r { a with childActions := a.childActions ++ [h.length] } := by
    simp only [pushChild, ha1]
  have hnew : (h ++ [n])[h.length]? = some n := by simp
  have hlt : r < (h ++ [n]).length := by simp; omega
  refine ⟨rfl, ?_, ?_, ?_, ?_, ?_, ?_⟩
  · rw [hpush]; simp
  · rw [hpush]
    simp [parentOf, List.getElem?_set_ne hne, hparent]
  · rw [hpush]
    simp [childrenOf, List.getElem?_set_ne hne, hchildren]
  · rw [hpush]
    simp [childrenOf, List.getElem?_set_self hlt, ha]
  · intro i hi
    rw [hpush]
    by_cases hir : i = r
    · subst hir
      simp [parentOf, List.getElem?_set_self hlt, ha]
    · have : r ≠ i := fun hh => hir hh.symm
      simp only [parentOf, List.getElem?_set_ne this, List.getElem?_append_left hi]
  · intro i hi hir
    rw [hpush]
    have : r ≠ i := fun hh => hir hh.symm
    rw [List.getElem?_set_ne this, List.getElem?_append_left hi]

theorem createMissingMethodProxyAction_cases (co : Collaborators Val World)
    (h : Heap Val World) (r : Nat) (methodName : MemberName) (args : List Val) :
    createMissingMethodProxyAction co h r methodName args = (h, none)
    ∨ ∃ name, methodName = MemberName.string name
        ∧ createMissingMethodProxyAction co h r methodName args =
          (pushChild (h ++ [newAction ActionClass.DescribeAction (some r)
              (name ++ "(" ++ co.stringifyArgs args ++ ")") (methodStep co name args)])
            r h.length, some h.length) := by
  cases methodName with
  | symbol d => left; rfl
  | string name =>
    by_cases hn : name = "should" ∨ name = "inspect"
    · left; simp [createMissingMethodProxyAction, hn]
    · right
      exact ⟨name, rfl, by simp [createMissingMethodProxyAction, hn, Action.create_eq]⟩

theorem createMissingPropertyProxyAction_cases (co : Collaborators Val World)
    (h : Heap Val World) (r : Nat) (propertyName : MemberName) :
    createMissingPropertyProxyAction co h r propertyName = (h, none)
    ∨ ∃ name cls callback, propertyName = MemberName.string name
        ∧ createMissingPropertyProxyAction co h r propertyName =
          (pushChild (h ++ [newAction cls (some r) name callback]) r h.length,
            some h.length) := by
  cases propertyName with
  | symbol d => left; rfl
  | string name =>
    by_cases hi : name = "inspect"
    · left; simp [createMissingPropertyProxyAction, hi]
    · by_cases hs : isShouldActionDescription name = true
      · right
        exact ⟨name, ActionClass.ItAction, expectStep co, rfl, by
          simp [createMissingPropertyProxyAction, hi, hs, Action.create_eq]⟩
      · by_cases hd : isDescendantOfShould h r = true
        · right
          exact ⟨name, ActionClass.ChaiComponentAction, propertyStep co name, rfl, by
            simp [createMissingPropertyProxyAction, hi, hs, hd, Action.create_eq]⟩
        · left; simp [createMissingPropertyProxyAction, hi, hs, hd]

/-- C13. For every node and every member name, property interception and method
interception each either leave the whole heap unchanged (and return absent) or append
exactly one new node: it is pushed at the end of the children of that node, its parent is
that node, the children already present are kept in order as a prefix, and no other
node's children or parent changes. -/
theorem interception_leaves_or_appends (co : Collaborators Val World) (h : Heap Val World)
    (r : Nat) (hr : r < h.length) (name : MemberName) (args : List Val) :
    (createMissingPropertyProxyAction co h r name = (h, none)
      ∨ ∃ c, (createMissingPropertyProxyAction co h r name).2 = some c
          ∧ AppendsChild h r (createMissingPropertyProxyAction co h r name).1 c)
    ∧ (createMissingMethodProxyAction co h r name args = (h, none)
      ∨ ∃ c, (createMissingMethodProxyAction co h r name args).2 = some c
          ∧ AppendsChild h r (createMissingMethodProxyAction co h r name args).1 c) := by
  constructor
  · rcases createMissingPropertyProxyAction_cases co h r name with h0 | ⟨n, cls, cb, _, h1⟩
    · exact Or.inl h0
    · right
      rw [h1]
      exact ⟨h.length, rfl, pushChild_append_appends h r hr _ rfl rfl⟩
  · rcases createMissingMethodProxyAction_cases co h r name args with h0 | ⟨n, _, h1⟩
    · exact Or.inl h0
    · right
      rw [h1]
      exact ⟨h.length, rfl, pushChild_append_appends h r hr _ rfl rfl⟩

/-- An instance of C13: accessing `equal` on `subject.should` appends the node 2 to the
children of the node 1. -/
theorem interception_leaves_or_appends_witness :
    (createMissingPropertyProxyAction exampleCollaborators shouldEntryHeap 1
        (MemberName.string "equal") = (shouldEntryHeap, none)
      ∨ ∃ c, (createMissingPropertyProxyAction exampleCollaborators shouldEntryHeap 1
            (MemberName.string "equal")).2 = some c
          ∧ AppendsChild shouldEntryHeap 1
            (createMissingPropertyProxyAction exampleCollaborators shouldEntryHeap 1
              (MemberName.string "equal")).1 c) :=
  (interception_leaves_or_appends exampleCollaborators shouldEntryHeap 1 (by decide)
    (MemberName.string "equal") []).1

theorem pushChild_append_new (h : Heap Val World) (r : Nat) (hr : r < h.length)
    (n : Action Val World) : (pushChild (h ++ [n]) r h.length)[h.length]? = some n := by
  obtain ⟨a, ha⟩ := getElem?_of_lt h r hr
  have ha1 : (h ++ [n])[r]? = some a := by
    rw [List.getElem?_append_left hr]; exact ha
  have hne : r ≠ h.length := by omega
  simp [pushChild, ha1, List.getElem?_set_ne hne]

/-- C14. For every node and every string property name other than `inspect`: when the
name is `should` or `shouldEventually`, `createMissingPropertyProxyAction` returns a new
`ItAction` labelled with that name, the last child of the node; otherwise, when the node
or one of its ancestors is labelled `should` or `shouldEventually`, it returns a new
`ChaiComponentAction` labelled with that name, the last child of the node. -/
theorem property_interception_variants (co : Collaborators Val World) (h : Heap Val World)
    (r : Nat) (hr : r < h.length) (name : String) (hname : name ≠ "inspect") :
    ((name = "should" ∨ name = "shouldEventually") →
      (createMissingPropertyProxyAction co h r (MemberName.string name)).2 = some h.length
      ∧ classOf (createMissingPropertyProxyAction co h r (MemberName.string name)).1 h.length
          = some ActionClass.ItAction
      ∧ descriptionOf (createMissingPropertyProxyAction co h r (MemberName.string name)).1
          h.length = name
      ∧ AppendsChild h r (createMissingPropertyProxyAction co h r (MemberName.string name)).1
          h.length)
    ∧ (¬ (name = "should" ∨ name = "shouldEventually") →
      (∃ a ∈ Action.ancestors h r,
        descriptionOf h a = "should" ∨ descriptionOf h a = "shouldEventually") →
      (createMissingPropertyProxyAction co h r (MemberName.string name)).2 = some h.length
      ∧ classOf (createMissingPropertyProxyAction co h r (MemberName.string name)).1 h.length
          = some ActionClass.ChaiComponentAction
      ∧ descriptionOf (createMissingPropertyProxyAction co h r (MemberName.string name)).1
          h.length = name
      ∧ AppendsChild h r (createMissingPropertyProxyAction co h r (MemberName.string name)).1
          h.length) := by
  constructor
  · intro hs
    have hs1 : isShouldActionDescription name = true := by
      rcases hs with hs | hs <;> simp [isShouldActionDescription, hs]
    have hcreate : createMissingPropertyProxyAction co h r (MemberName.string name) =
        (pushChild (h ++ [newAction ActionClass.ItAction (some r) name (expectStep co)])
          r h.length, some h.length) := by
      simp [createMissingPropertyProxyAction, hname, hs1, Action.create_eq]
    rw [hcreate]
    refine ⟨rfl, ?_, ?_, pushChild_append_appends h r hr _ rfl rfl⟩
    · simp [classOf, pushChild_append_new h r hr, newAction]
    · simp [descriptionOf, pushChild_append_new h r hr, newAction]
  · intro hs hanc
    have hs1 : isShouldActionDescription name = false := by
      simp only [not_or] at hs
      simp [isShouldActionDescription, hs.1, hs.2]
    have hd : isDescendantOfShould h r = true := by
      obtain ⟨a, ha, hdesc⟩ := hanc
      simp only [isDescendantOfShould, List.any_eq_true]
      exact ⟨a, ha, by rcases hdesc with hd | hd <;> simp [isShouldActionDescription, hd]⟩
    have hcreate : createMissingPropertyProxyAction co h r (MemberName.string name) =
        (pushChild (h ++ [newAction ActionClass.ChaiComponentAction (some r) name
            (propertyStep co name)]) r h.length, some h.length) := by
      simp [createMissingPropertyProxyAction, hname, hs1, hd, Action.create_eq]
    rw [hcreate]
    refine ⟨rfl, ?_, ?_, pushChild_append_appends h r hr _ rfl rfl⟩
    · simp [classOf, pushChild_append_new h r hr, newAction]
    · simp [descriptionOf, pushChild_append_new h r hr, newAction]

/-- An instance of C14: accessing `equal` on `subject.should` returns a new
`ChaiComponentAction` labelled `equal`. -/
theorem property_interception_variants_witness :
    (createMissingPropertyProxyAction exampleCollaborators shouldEntryHeap 1
        (MemberName.string "equal")).2 = some 2
    ∧ classOf (createMissingPropertyProxyAction exampleCollaborators shouldEntryHeap 1
        (MemberName.string "equal")).1 2 = some ActionClass.ChaiComponentAction
    ∧ descriptionOf (createMissingPropertyProxyAction exampleCollaborators shouldEntryHeap 1
        (MemberName.string "equal")).1 2 = "equal" :=
  have hw := (property_interception_variants exampleCollaborators shouldEntryHeap 1
    (by decide) "equal" (by decide)).2 (by decide) ⟨1, by decide, Or.inl (by decide)⟩
  ⟨hw.1, hw.2.1, hw.2.2.1⟩

/-- C16. For every node, under `should` or `shouldEventually` or not, the name `inspect`
and every member name that is not a string trigger no synthesis:
`createMissingPropertyProxyAction` returns `undefined` and `createMissingMethodProxyAction`
returns `null`, and the heap, the children of the node among it, is unchanged. -/
theorem reserved_names_not_intercepted (co : Collaborators Val World) (h : Heap Val World)
    (r : Nat) (args : List Val) (d : String) :
    createMissingPropertyProxyAction co h r (MemberName.string "inspect") = (h, none)
    ∧ createMissingPropertyProxyAction co h r (MemberName.symbol d) = (h, none)
    ∧ createMissingMethodProxyAction co h r (MemberName.string "inspect") args = (h, none)
    ∧ createMissingMethodProxyAction co h r (MemberName.symbol d) args = (h, none) := by
  refine ⟨?_, rfl, ?_, rfl⟩
  · simp [createMissingPropertyProxyAction]
  · simp [createMissingMethodProxyAction]

theorem invoke_eq (h : Heap Val World) (r : Nat) (a : Action Val World) (args2 : List Val)
    (s : St World) (ha : h[r]? = some a) :
    ChaiComponentAction.invoke h r args2 s
      = (h.set r { a with invocationArgs := some args2 }, s) := by
  simp [ChaiComponentAction.invoke, ha]

theorem getArgs_invoke (h : Heap Val World) (r : Nat) (hr : r < h.length) (args2 : List Val)
    (s : St World) : getArgs (ChaiComponentAction.invoke h r args2 s).1 r = some args2 := by
  obtain ⟨a, ha⟩ := getElem?_of_lt h r hr
  rw [invoke_eq h r a args2 s ha]
  simp [getArgs, List.getElem?_set_self hr]

theorem invoke_length (h : Heap Val World) (r : Nat) (args2 : List Val) (s : St World) :
    (ChaiComponentAction.invoke h r args2 s).1.length = h.length := by
  unfold ChaiComponentAction.invoke
  cases h[r]? <;> simp

/-- C17. A handle made by `ChaiComponentAction.newInstance` has `getArgs()` absent until
it is invoked. Invoking a handle with an argument sequence leaves the outside state as it
is (no step runs), adds no object to the heap, leaves every other object and every other
field of the same object as they were, and records the arguments on that object, so that
`getArgs()` then returns the arguments of the most recent invocation. A property
interception followed by a call therefore makes one node, whose step calls the member
with the recorded arguments. -/
theorem getArgs_records_invocation (h : Heap Val World) (parentAction : Option Nat)
    (description : String) (callback : Callback Val World) :
    getArgs (ChaiComponentAction.newInstance h parentAction description callback).1
      (ChaiComponentAction.newInstance h parentAction description callback).2 = none
    ∧ (∀ (h1 : Heap Val World) (r : Nat) (a : Action Val World) (args1 args2 : List Val)
        (s : St World), h1[r]? = some a →
        (ChaiComponentAction.invoke h1 r args1 s).2 = s
        ∧ (ChaiComponentAction.invoke h1 r args1 s).1.length = h1.length
        ∧ (∀ i, i ≠ r → (ChaiComponentAction.invoke h1 r args1 s).1[i]? = h1[i]?)
        ∧ (ChaiComponentAction.invoke h1 r args1 s).1[r]?
            = some { a with invocationArgs := some args1 }
        ∧ getArgs (ChaiComponentAction.invoke h1 r args1 s).1 r = some args1
        ∧ getArgs (ChaiComponentAction.invoke
            (ChaiComponentAction.invoke h1 r args1 s).1 r args2 s).1 r = some args2)
    ∧ (∀ (co : Collaborators Val World) (name : String) (args : List Val) (context : Val)
        (w : World),
        propertyStep co name (some args) context w = callMember co name args context w) := by
  refine ⟨?_, ?_, fun _ _ _ _ _ => rfl⟩
  · simp [ChaiComponentAction.newInstance, Action.newInstance, getArgs, newAction]
  · intro h1 r a args1 args2 s ha
    have hr : r < h1.length := by
      by_contra hge
      have : h1[r]? = none := List.getElem?_eq_none (by omega)
      rw [this] at ha
      exact Option.noConfusion ha
    refine ⟨?_, invoke_length h1 r args1 s, ?_, ?_, getArgs_invoke h1 r hr args1 s, ?_⟩
    · rw [invoke_eq h1 r a args1 s ha]
    · intro i hi
      rw [invoke_eq h1 r a args1 s ha]
      exact List.getElem?_set_ne (fun hh => hi hh.symm)
    · rw [invoke_eq h1 r a args1 s ha]
      exact List.getElem?_set_self hr
    · apply getArgs_invoke
      rw [invoke_length]
      exact hr

/-- An instance of C17: `equal` accessed on `subject.should`, then invoked with 5, then
with 4: one node, and `getArgs()` holds the last arguments. -/
theorem getArgs_records_invocation_witness :
    (ChaiComponentAction.invoke
        (createMissingPropertyProxyAction exampleCollaborators shouldEntryHeap 1
          (MemberName.string "equal")).1 2 [JsVal.num 5] { world := 0, events := [] }).1.length
      = 3
    ∧ getArgs (ChaiComponentAction.invoke
        (ChaiComponentAction.invoke
          (createMissingPropertyProxyAction exampleCollaborators shouldEntryHeap 1
            (MemberName.string "equal")).1 2 [JsVal.num 5] { world := 0, events := [] }).1
        2 [JsVal.num 4] { world := 0, events := [] }).1 2 = some [JsVal.num 4] :=
  have hw := (getArgs_records_invocation shouldEntryHeap none "" (expectStep exampleCollaborators)).2.1
    (createMissingPropertyProxyAction exampleCollaborators shouldEntryHeap 1
      (MemberName.string "equal")).1 2
    (newAction ActionClass.ChaiComponentAction (some 1) "equal"
      (propertyStep exampleCollaborators "equal"))
    [JsVal.num 5] [JsVal.num 4] { world := 0, events := [] } rfl
  ⟨hw.2.1, hw.2.2.2.2.2⟩

/-! ### The module variable `MAX_RETRIES` -/

theorem isDigit_bounds (c : Char) (h : c.isDigit = true) : 48 ≤ c.toNat ∧ c.toNat ≤ 57 := by
  simp only [Char.isDigit, ge_iff_le, Bool.and_eq_true, decide_eq_true_eq] at h
  exact ⟨h.1, h.2⟩

theorem isDigit_not_whiteSpace (c : Char) (h : c.isDigit = true) :
    isStrWhiteSpaceChar c = false := by
  have hb := isDigit_bounds c h
  simp only [isStrWhiteSpaceChar, decide_eq_false_iff_not, List.mem_cons, List.mem_singleton,
    List.not_mem_nil, or_false, not_or]
  omega

theorem isDigit_readSign (c : Char) (rest : List Char) (h : c.isDigit = true) :
    readSign (c :: rest) = (1, c :: rest) := by
  have hb := isDigit_bounds c h
  have h1 : c ≠ '-' := by
    intro hc; rw [hc] at hb; revert hb; decide
  have h2 : c ≠ '+' := by
    intro hc; rw [hc] at hb; revert hb; decide
  unfold readSign
  split
  · rename_i heq
    exact absurd (List.cons.inj heq).1 h1
  · rename_i heq
    exact absurd (List.cons.inj heq).1 h2
  · rfl

theorem dropWhile_whiteSpace (ws : List Char) (c : Char) (rest : List Char)
    (hws : ∀ x ∈ ws, isStrWhiteSpaceChar x = true) (hc : isStrWhiteSpaceChar c = false) :
    (ws ++ c :: rest).dropWhile isStrWhiteSpaceChar = c :: rest := by
  induction ws with
  | nil => simp [List.dropWhile, hc]
  | cons x ws ih =>
    have ih1 := ih (fun y hy => hws y (by simp [hy]))
    simp only [List.cons_append, List.dropWhile_cons, hws x (by simp), if_true, ih1]

theorem takeWhile_digits (digits rest : List Char) (hd : ∀ x ∈ digits, x.isDigit = true)
    (hrest : ∀ c, rest.head? = some c → c.isDigit = false) :
    (digits ++ rest).takeWhile Char.isDigit = digits := by
  induction digits with
  | nil =>
    cases rest with
    | nil => rfl
    | cons c rest => simp [List.takeWhile, hrest c rfl]
  | cons x digits ih =>
    have ih1 := ih (fun y hy => hd y (by simp [hy]))
    simp only [List.cons_append, List.takeWhile_cons, hd x (by simp), if_true, ih1]

/-- What `parseInt` reads: after white space, a run of digits is read as the integer it
denotes, with the sign before it if there is one, whatever follows the digits. -/
theorem mathInt_reads_digits (ws digits rest : List Char) (d : Char)
    (hws : ∀ x ∈ ws, isStrWhiteSpaceChar x = true)
    (hd : ∀ x ∈ d :: digits, x.isDigit = true)
    (hrest : ∀ c, rest.head? = some c → c.isDigit = false) :
    mathInt (String.mk (ws ++ (d :: digits) ++ rest))
      = some ((decimalValue 0 (d :: digits) : Nat) : Int)
    ∧ mathInt (String.mk (ws ++ '-' :: (d :: digits) ++ rest))
      = some (-((decimalValue 0 (d :: digits) : Nat) : Int))
    ∧ mathInt (String.mk (ws ++ '+' :: (d :: digits) ++ rest))
      = some ((decimalValue 0 (d :: digits) : Nat) : Int) := by
  have hdd := hd d (by simp)
  have htake := takeWhile_digits (d :: digits) rest hd hrest
  refine ⟨?_, ?_, ?_⟩
  · have hdrop := dropWhile_whiteSpace ws d (digits ++ rest) hws (isDigit_not_whiteSpace d hdd)
    simp only [mathInt, List.append_assoc, List.cons_append] at hdrop ⊢
    rw [hdrop, isDigit_readSign d _ hdd]
    simp only [List.cons_append] at htake
    simp [htake]
  · have hdrop := dropWhile_whiteSpace ws '-' ((d :: digits) ++ rest) hws (by decide)
    simp only [mathInt, List.append_assoc, List.cons_append] at hdrop ⊢
    rw [hdrop]
    simp only [readSign, List.cons_append] at htake ⊢
    simp [htake]
  · have hdrop := dropWhile_whiteSpace ws '+' ((d :: digits) ++ rest) hws (by decide)
    simp only [mathInt, List.append_assoc, List.cons_append] at hdrop ⊢
    rw [hdrop]
    simp only [readSign, List.cons_append] at htake ⊢
    simp [htake]

theorem digitChar_isDigit : ∀ k, k < 10 →
    (Nat.digitChar k).isDigit = true ∧ digitValue (Nat.digitChar k) = k := by
  decide

theorem decimalValue_append (acc : Nat) (l1 l2 : List Char) :
    decimalValue acc (l1 ++ l2) = decimalValue (decimalValue acc l1) l2 := by
  simp [decimalValue, List.foldl_append]

/-- The digits that `Nat.toDigits` writes denote the number written. -/
theorem toDigitsCore_value (fuel n : Nat) (ds : List Char) (hfuel : n < fuel) :
    ∃ c l, Nat.toDigitsCore 10 fuel n ds = (c :: l) ++ ds
      ∧ (∀ x ∈ c :: l, x.isDigit = true) ∧ decimalValue 0 (c :: l) = n := by
  induction fuel generalizing n ds with
  | zero => omega
  | succ fuel ih =>
    have hmod := digitChar_isDigit (n % 10) (Nat.mod_lt _ (by decide))
    simp only [Nat.toDigitsCore]
    by_cases hq : n / 10 = 0
    · refine ⟨Nat.digitChar (n % 10), [], by simp [hq], by simpa using hmod.1, ?_⟩
      simp only [decimalValue, List.foldl_cons, List.foldl_nil, hmod.2]
      omega
    · obtain ⟨c, l, heq, hdig, hval⟩ := ih (n / 10) (Nat.digitChar (n % 10) :: ds) (by omega)
      refine ⟨c, l ++ [Nat.digitChar (n % 10)], by simp [hq, heq], ?_, ?_⟩
      · intro x hx
        rw [← List.cons_append, List.mem_append] at hx
        rcases hx with hx | hx
        · exact hdig x hx
        · rw [List.mem_singleton] at hx
          rw [hx]; exact hmod.1
      · rw [← List.cons_append, decimalValue_append, hval]
        simp only [decimalValue, List.foldl_cons, List.foldl_nil, hmod.2]
        omega

theorem mathInt_toString (n : Int) : mathInt (toString n) = some n := by
  cases n with
  | ofNat m =>
    obtain ⟨c, l, heq, hdig, hval⟩ := toDigitsCore_value (m + 1) m [] (by omega)
    have hstr : toString (Int.ofNat m) = String.mk ([] ++ (c :: l) ++ []) := by
      show Nat.repr m = _
      simp only [Nat.repr, Nat.toDigits, heq, List.asString]
      simp
    rw [hstr, (mathInt_reads_digits [] l [] c (by simp) hdig (by simp)).1, hval]
    rfl
  | negSucc m =>
    obtain ⟨c, l, heq, hdig, hval⟩ := toDigitsCore_value (m + 1 + 1) (m + 1) [] (by omega)
    have hstr : toString (Int.negSucc m) = String.mk ([] ++ '-' :: (c :: l) ++ []) := by
      show "-" ++ Nat.repr (m + 1) = _
      simp only [Nat.repr, Nat.toDigits, heq, List.asString]
      rfl
    rw [hstr, (mathInt_reads_digits [] l [] c (by simp) hdig (by simp)).2.1, hval]
    rfl

theorem mathInt_empty : mathInt "" = none := by decide

theorem bitLength_le (fuel : Nat) : ∀ n k : Nat, n < 2 ^ k → bitLength fuel n ≤ k := by
  induction fuel with
  | zero => intro n k _; simp [bitLength]
  | succ fuel ih =>
    intro n k hn
    simp only [bitLength]
    split
    · omega
    · rename_i hne
      cases k with
      | zero => simp at hn; omega
      | succ k =>
        have hhalf : n / 2 < 2 ^ k := by
          rw [Nat.pow_succ] at hn
          omega
        have := ih (n / 2) k hhalf
        omega

/-- An integer up to `2 ^ 53` is a double: rounding leaves it as it is. -/
theorem roundToDouble_exact (n : Nat) (hn : n ≤ 2 ^ 53) : roundToDouble n = some n := by
  by_cases htop : n = 2 ^ 53
  · subst htop
    decide
  · have hlt : n < 2 ^ 53 := by omega
    have hbits := bitLength_le n n 53 hlt
    have hshift : bitLength n n - 53 = 0 := by omega
    simp only [roundToDouble, hshift, Nat.pow_zero, Nat.div_one, Nat.mod_one, Nat.mul_zero,
      Nat.mul_one, Nat.zero_add]
    have hcond : ¬ (1 < 0 ∨ (0 = 1 ∧ n % 2 = 1)) := by omega
    rw [if_neg hcond, if_pos (by omega)]

theorem Number.ofInt_exact (z : Int) (hz : z.natAbs ≤ 2 ^ 53) :
    Number.ofInt z = Number.integer z := by
  simp only [Number.ofInt, roundToDouble_exact z.natAbs hz]
  congr 1
  split <;> omega

theorem Number.ofInt_ne_NaN (z : Int) : Number.ofInt z ≠ Number.NaN := by
  unfold Number.ofInt
  cases roundToDouble z.natAbs <;> simp

theorem loadMaxRetries_of_mathInt (value : String) (z : Int)
    (hparse : mathInt value = some z) :
    loadMaxRetries (some value) = (Number.ofInt z, []) := by
  have hne : value ≠ "" := by
    intro he
    rw [he, mathInt_empty] at hparse
    exact Option.noConfusion hparse
  have hnan := Number.ofInt_ne_NaN z
  simp only [loadMaxRetries, hne, if_false, parseInt, hparse]

/-- C19, as stated, fails, twice. The value `12abc` is not a base-10 integer numeral, and
yet the override is not ignored: `MAX_RETRIES` becomes 12, without a diagnostic. The value
`9007199254740993` is the base-10 numeral of `2 ^ 53 + 1`, and `MAX_RETRIES` does not
become that integer, which is not a Number, but `2 ^ 53`. -/
theorem max_retries_reads_leading_digits :
    isIntegerNumeral "12abc" = false
    ∧ loadMaxRetries (some "12abc") = (Number.integer 12, [])
    ∧ MAX_RETRIES (some "12abc") = Number.integer 12
    ∧ isIntegerNumeral "9007199254740993" = true
    ∧ mathInt "9007199254740993" = some (2 ^ 53 + 1)
    ∧ MAX_RETRIES (some "9007199254740993") = Number.integer (2 ^ 53) := by
  decide

/-- C19, as amended. `MAX_RETRIES` is 5 when `YEMEN_MAX_RETRIES` is unset or empty, and
stays 5, with a diagnostic, for every other value in which `Number.parseInt(value, 10)`
reads no digit; for a value that begins, after optional white space and an optional sign,
with decimal digits, it becomes the integer that the leading digits denote, negated after
`-`, whatever follows them, when that integer is at most `2 ^ 53`; in particular for the
base-10 numeral of an integer `n` with `|n| ≤ 2 ^ 53` it becomes `n`. Beyond `2 ^ 53`,
for a run of at most 20 digits, it becomes the integer rounded to a double. -/
theorem max_retries_from_env :
    loadMaxRetries none = (Number.integer 5, [])
    ∧ loadMaxRetries (some "") = (Number.integer 5, [])
    ∧ (∀ value : String, value ≠ "" → parseInt value = Number.NaN →
        loadMaxRetries (some value) = (Number.integer 5, [notParseableMessage value]))
    ∧ (∀ value : String, parseInt value = Number.NaN ↔ mathInt value = none)
    ∧ (∀ (ws digits rest : List Char) (d : Char),
        (∀ x ∈ ws, isStrWhiteSpaceChar x = true) → (∀ x ∈ d :: digits, x.isDigit = true) →
        (∀ c, rest.head? = some c → c.isDigit = false) →
        decimalValue 0 (d :: digits) ≤ 2 ^ 53 →
        loadMaxRetries (some (String.mk (ws ++ (d :: digits) ++ rest)))
          = (Number.integer ((decimalValue 0 (d :: digits) : Nat) : Int), [])
        ∧ loadMaxRetries (some (String.mk (ws ++ '-' :: (d :: digits) ++ rest)))
          = (Number.integer (-((decimalValue 0 (d :: digits) : Nat) : Int)), [])
        ∧ loadMaxRetries (some (String.mk (ws ++ '+' :: (d :: digits) ++ rest)))
          = (Number.integer ((decimalValue 0 (d :: digits) : Nat) : Int), []))
    ∧ (∀ n : Int, n.natAbs ≤ 2 ^ 53 →
        loadMaxRetries (some (toString n)) = (Number.integer n, []))
    ∧ (∀ (ws digits rest : List Char) (d : Char),
        (∀ x ∈ ws, isStrWhiteSpaceChar x = true) → (∀ x ∈ d :: digits, x.isDigit = true) →
        (∀ c, rest.head? = some c → c.isDigit = false) →
        (d :: digits).length ≤ 20 →
        loadMaxRetries (some (String.mk (ws ++ (d :: digits) ++ rest)))
          = (Number.ofInt ((decimalValue 0 (d :: digits) : Nat) : Int), [])
        ∧ loadMaxRetries (some (String.mk (ws ++ '-' :: (d :: digits) ++ rest)))
          = (Number.ofInt (-((decimalValue 0 (d :: digits) : Nat) : Int)), [])
        ∧ loadMaxRetries (some (String.mk (ws ++ '+' :: (d :: digits) ++ rest)))
          = (Number.ofInt ((decimalValue 0 (d :: digits) : Nat) : Int), [])) := by
  refine ⟨rfl, rfl, ?_, ?_, ?_, ?_, ?_⟩
  · intro value hne hparse
    simp [loadMaxRetries, hne, hparse]
  · intro value
    unfold parseInt
    cases hm : mathInt value with
    | none => simp
    | some z => simpa using Number.ofInt_ne_NaN z
  · intro ws digits rest d hws hd hrest hbound
    obtain ⟨h1, h2, h3⟩ := mathInt_reads_digits ws digits rest d hws hd hrest
    rw [loadMaxRetries_of_mathInt _ _ h1, loadMaxRetries_of_mathInt _ _ h2,
      loadMaxRetries_of_mathInt _ _ h3]
    rw [Number.ofInt_exact _ (by simpa using hbound),
      Number.ofInt_exact _ (by simpa using hbound)]
    exact ⟨rfl, rfl, rfl⟩
  · intro n hn
    rw [loadMaxRetries_of_mathInt _ _ (mathInt_toString n), Number.ofInt_exact n hn]
  · intro ws digits rest d hws hd hrest _
    obtain ⟨h1, h2, h3⟩ := mathInt_reads_digits ws digits rest d hws hd hrest
    exact ⟨loadMaxRetries_of_mathInt _ _ h1, loadMaxRetries_of_mathInt _ _ h2,
      loadMaxRetries_of_mathInt _ _ h3⟩

/-- An instance of C19 as amended: `abc` is ignored with a diagnostic, and the numeral of
12 sets `MAX_RETRIES` to 12. -/
theorem max_retries_from_env_witness :
    loadMaxRetries (some "abc") = (Number.integer 5, [notParseableMessage "abc"])
    ∧ loadMaxRetries (some (toString (12 : Int))) = (Number.integer 12, []) :=
  ⟨max_retries_from_env.2.2.1 "abc" (by decide) (by decide),
    max_retries_from_env.2.2.2.2.2.1 12 (by decide)⟩

/-! ### The description of a case -/

theorem descriptionChunksLoop_eq_spine (host : Host Val) (h : Heap Val World) (fuel : Nat)
    (cur : Option Nat) :
    descriptionChunksLoop host h fuel cur []
      = ((firstChildSpine h fuel cur).map (labelChunksOf host h)).flatten := by
  induction fuel generalizing cur with
  | zero => simp [descriptionChunksLoop, firstChildSpine]
  | succ n ih =>
    cases cur with
    | none => simp [descriptionChunksLoop, firstChildSpine]
    | some r =>
      simp only [descriptionChunksLoop, firstChildSpine]
      cases hr : h[r]? with
      | none => simp
      | some a =>
        simp only [List.map_cons, List.flatten_cons]
        rw [descriptionChunksLoop_acc, ih]
        congr 1
        simp only [labelChunksOf, hr, labelChunks]
        split <;> simp

theorem lt_length_of_getElem? {h : Heap Val World} {r : Nat} {a : Action Val World}
    (hr : h[r]? = some a) : r < h.length := by
  by_contra hge
  have : h[r]? = none := List.getElem?_eq_none (by omega)
  rw [this] at hr
  exact Option.noConfusion hr

theorem ChildrenFollow.lt {h : Heap Val World} (cf : ChildrenFollow h) {r c : Nat}
    {a : Action Val World} (hr : h[r]? = some a) (hc : c ∈ a.childActions) : r < c := by
  have hall := cf r (lt_length_of_getElem? hr)
  simp only [childrenOf, hr, List.all_eq_true, decide_eq_true_eq] at hall
  exact hall c hc

theorem firstChildSpine_fuel {h : Heap Val World} (cf : ChildrenFollow h) :
    ∀ (k r f g : Nat), h.length - r ≤ k → h.length - r < f → h.length - r < g →
      firstChildSpine h f (some r) = firstChildSpine h g (some r) := by
  intro k
  induction k with
  | zero =>
    intro r f g hk hf hg
    have hnone : h[r]? = none := List.getElem?_eq_none (by omega)
    obtain ⟨f, rfl⟩ : ∃ k, f = k + 1 := ⟨f - 1, by omega⟩
    obtain ⟨g, rfl⟩ : ∃ k, g = k + 1 := ⟨g - 1, by omega⟩
    simp [firstChildSpine, hnone]
  | succ k ih =>
    intro r f g hk hf hg
    obtain ⟨f, rfl⟩ : ∃ k, f = k + 1 := ⟨f - 1, by omega⟩
    obtain ⟨g, rfl⟩ : ∃ k, g = k + 1 := ⟨g - 1, by omega⟩
    simp only [firstChildSpine]
    cases hr : h[r]? with
    | none => rfl
    | some a =>
      simp only
      congr 1
      cases hc : a.childActions.head? with
      | none => cases f <;> cases g <;> simp [firstChildSpine]
      | some c =>
        have hmem : c ∈ a.childActions := List.mem_of_mem_head? hc
        have hlt := cf.lt hr hmem
        have hrlt : r < h.length := by
          by_contra hge
          have : h[r]? = none := List.getElem?_eq_none (by omega)
          rw [this] at hr
          exact Option.noConfusion hr
        exact ih c f g (by omega) (by omega) (by omega)

/-- C12, as stated, fails: in `s = subject.should; s.equal(5); s.equal(4)` the `ItAction`
has two children, and the description that `ItAction.generateSpec` computes goes on into
the first of them (`should equal 5`), where the single-child spine of the spec stops
(`should`). -/
theorem description_enters_first_of_two_children :
    childrenOf twoChildrenHeap 1 = [2, 3]
    ∧ ItAction.description jsHost twoChildrenHeap 1 = "should equal 5"
    ∧ specDescription jsHost twoChildrenHeap 1 = "should" := by
  decide

/-- C12, as amended. For every Leaf-Case node of a heap in which children are created
after their parents, the description computed by `ItAction.generateSpec` is the
space-joined sequence of the labels (each followed, for a node carrying captured call
arguments, by the comma-joined rendering of those arguments) of the nodes on the
first-child spine starting at this node: the spine of a node is the node followed by the
spine of its first child, however many children it has, and the walk stops at the first
node that has no children. -/
theorem description_follows_first_child_spine (host : Host Val) (h : Heap Val World)
    (cf : ChildrenFollow h) (r : Nat) :
    ItAction.description host h r = String.intercalate " "
        (((firstChildSpine h (h.length + 1) (some r)).map (labelChunksOf host h)).flatten)
    ∧ (∀ a, h[r]? = some a →
        firstChildSpine h (h.length + 1) (some r) =
          r :: (match a.childActions with
                | [] => []
                | child :: _ => firstChildSpine h (h.length + 1) (some child))) := by
  constructor
  · simp only [ItAction.description, descriptionChunksLoop_eq_spine]
  · intro a ha
    have hrlt : r < h.length := by
      by_contra hge
      have : h[r]? = none := List.getElem?_eq_none (by omega)
      rw [this] at ha
      exact Option.noConfusion ha
    simp only [firstChildSpine, ha]
    congr 1
    cases hc : a.childActions with
    | nil => cases h.length <;> simp [firstChildSpine]
    | cons c rest =>
      simp only [List.head?_cons]
      have hlt := cf.lt ha (by simp [hc] : c ∈ a.childActions)
      exact firstChildSpine_fuel cf (h.length - c) c h.length (h.length + 1) (le_refl _)
        (by omega) (by omega)

/-- An instance of C12 as amended: the description of the `ItAction` with two children is
joined from the labels of its first-child spine. -/
theorem description_follows_first_child_spine_witness :
    ItAction.description jsHost twoChildrenHeap 1 = String.intercalate " "
      (((firstChildSpine twoChildrenHeap (twoChildrenHeap.length + 1) (some 1)).map
        (labelChunksOf jsHost twoChildrenHeap)).flatten) :=
  (description_follows_first_child_spine jsHost twoChildrenHeap (by decide) 1).1

/-! ### What realization leaves as it was -/

theorem SameExceptCaseLabels.refl (h : Heap Val World) : SameExceptCaseLabels h h :=
  ⟨rfl, fun _ a ha => ⟨a, ha, rfl, rfl, rfl, rfl, rfl, fun _ => rfl⟩⟩

theorem SameExceptCaseLabels.trans {h h1 h2 : Heap Val World}
    (h01 : SameExceptCaseLabels h h1) (h12 : SameExceptCaseLabels h1 h2) :
    SameExceptCaseLabels h h2 := by
  refine ⟨h12.1.trans h01.1, fun i a ha => ?_⟩
  obtain ⟨a1, ha1, c1, p1, s1, k1, g1, d1⟩ := h01.2 i a ha
  obtain ⟨a2, ha2, c2, p2, s2, k2, g2, d2⟩ := h12.2 i a1 ha1
  exact ⟨a2, ha2, c2.trans c1, p2.trans p1, s2.trans s1, k2.trans k1, g2.trans g1,
    fun hne => (d2 (by rw [c1]; exact hne)).trans (d1 hne)⟩

theorem setDescription_same (h : Heap Val World) (r : Nat) (d : String)
    (hcls : classOf h r = some ActionClass.ItAction) :
    SameExceptCaseLabels h (setDescription h r d) := by
  unfold setDescription
  cases hr : h[r]? with
  | none => exact SameExceptCaseLabels.refl h
  | some a =>
    have hacls : a.cls = ActionClass.ItAction := by
      simpa [classOf, hr] using hcls
    have hlt := lt_length_of_getElem? hr
    refine ⟨by simp, fun i b hb => ?_⟩
    by_cases hi : r = i
    · subst hi
      rw [hr] at hb
      have hab : a = b := Option.some.inj hb
      subst hab
      exact ⟨_, List.getElem?_set_self hlt, rfl, rfl, rfl, rfl, rfl,
        fun hne => absurd hacls hne⟩
    · exact ⟨b, by rw [List.getElem?_set_ne hi]; exact hb, rfl, rfl, rfl, rfl, rfl,
        fun _ => rfl⟩

theorem forEachChild_same
    (gen : Nat → Realization Val World → Option (Realized Val World))
    (hgen : ∀ c R out, gen c R = some out → SameExceptCaseLabels R.heap out.state.heap)
    (l : List Nat) (R : Realization Val World) (out : Realized Val World)
    (hout : forEachChild gen l R = some out) :
    SameExceptCaseLabels R.heap out.state.heap := by
  induction l generalizing R out with
  | nil =>
    simp only [forEachChild, Option.some.injEq] at hout
    rw [← hout]
    exact SameExceptCaseLabels.refl _
  | cons c rest ih =>
    simp only [forEachChild] at hout
    cases hg : gen c R with
    | none => simp [hg] at hout
    | some o1 =>
      have h1 := hgen c R o1 hg
      simp only [hg] at hout
      cases ht : o1.thrown with
      | some e =>
        simp only [ht, Option.some.injEq] at hout
        rw [← hout]; exact h1
      | none =>
        simp only [ht] at hout
        cases hrest : forEachChild gen rest o1.state with
        | none => simp [hrest] at hout
        | some o2 =>
          simp only [hrest, Option.some.injEq] at hout
          rw [← hout]
          exact h1.trans (ih o1.state o2 hrest)

theorem generateSpec_same (host : Host Val) (cfg : Config) (fuel r : Nat) (g : Getter Val)
    (R : Realization Val World) (out : Realized Val World)
    (hout : generateSpec host cfg fuel r g R = some out) :
    SameExceptCaseLabels R.heap out.state.heap := by
  induction fuel generalizing r g R out with
  | zero => simp [generateSpec] at hout
  | succ fuel ih =>
    simp only [generateSpec] at hout
    cases hcls : classOf R.heap r with
    | none =>
      simp only [hcls, Option.some.injEq] at hout
      rw [← hout]; exact SameExceptCaseLabels.refl _
    | some cls =>
      cases cls with
      | ItAction =>
        simp only [hcls] at hout
        cases hthrows : ItAction.descriptionThrows host R.heap r with
        | some thrown =>
          simp only [hthrows, Option.some.injEq] at hout
          rw [← hout]; exact SameExceptCaseLabels.refl _
        | none =>
          simp only [hthrows, Option.some.injEq] at hout
          rw [← hout]
          exact setDescription_same R.heap r _ hcls
      | ChaiComponentAction =>
        simp only [hcls] at hout
        rcases hdo : ChaiComponentAction.do host cfg R.heap r (g.call host R.groupResults) R.st
          with ⟨res, st1⟩
        rw [hdo] at hout
        cases res with
        | error e =>
          simp only [Option.some.injEq] at hout
          rw [← hout]; exact SameExceptCaseLabels.refl _
        | ok v =>
          simp only at hout
          exact forEachChild_same
            (fun childAction R1 => generateSpec host cfg fuel childAction (Getter.result v) R1)
            (fun c R1 o ho => ih c _ R1 o ho) (childrenOf R.heap r)
            { heap := R.heap, st := st1, groupResults := R.groupResults } out hout
      | RootAction =>
        simp only [hcls] at hout
        cases hbody : forEachChild (fun childAction R1 =>
            generateSpec host cfg fuel childAction (Getter.groupResult r) R1)
            (childrenOf R.heap r) R with
        | none => simp [hbody] at hout
        | some body =>
          simp only [hbody, Option.some.injEq] at hout
          rw [← hout]
          exact forEachChild_same _ (fun c R1 o ho => ih c _ R1 o ho) _ _ body hbody
      | DescribeAction =>
        simp only [hcls] at hout
        cases hbody : forEachChild (fun childAction R1 =>
            generateSpec host cfg fuel childAction (Getter.groupResult r) R1)
            (childrenOf R.heap r) R with
        | none => simp [hbody] at hout
        | some body =>
          simp only [hbody, Option.some.injEq] at hout
          rw [← hout]
          exact forEachChild_same _ (fun c R1 o ho => ih c _ R1 o ho) _ _ body hbody

/-- C18, as stated, fails: realizing `subject.shouldEventually.equal(5)` changes the
description of the `ItAction` from `shouldEventually` to `shouldEventually equal 5`. -/
theorem generateSpec_changes_case_description :
    descriptionOf exampleStart.heap 1 = "shouldEventually"
    ∧ classOf exampleStart.heap 1 = some ActionClass.ItAction
    ∧ (generateSpec jsHost exampleConfig 4 0 Getter.noResult exampleStart).map
        (fun out => descriptionOf out.state.heap 1) = some "shouldEventually equal 5" := by
  decide

/-- C18, as amended. For every tree, realizing it with `generateSpec` (Group, Leaf-Case
and Chain-Step alike), running a setup hook and running a case body leave every node's
parent, step, children, class and captured arguments exactly as they were, and leave the
description of every node that is not a Leaf-Case as it was; the description of a
Leaf-Case is the one field that `generateSpec` assigns. -/
theorem realization_frame (host : Host Val) (cfg : Config) (r : Nat) (g : Getter Val)
    (R : Realization Val World) :
    (∀ fuel out, generateSpec host cfg fuel r g R = some out →
      SameExceptCaseLabels R.heap out.state.heap)
    ∧ (∀ out, ItAction.caseBody host cfg r g R = some out →
      SameExceptCaseLabels R.heap out.state.heap)
    ∧ (DescribeAction.setupHook host r g R).2.heap = R.heap := by
  refine ⟨fun fuel out hout => generateSpec_same host cfg fuel r g R out hout, ?_, ?_⟩
  · intro out hout
    simp only [ItAction.caseBody] at hout
    rcases hdo : Action.do host R.heap r (g.call host R.groupResults) R.st with ⟨res, st1⟩
    rw [hdo] at hout
    cases res with
    | error e =>
      simp only [Option.some.injEq] at hout
      rw [← hout]; exact SameExceptCaseLabels.refl _
    | ok v =>
      simp only at hout
      exact forEachChild_same
        (fun childAction R1 =>
          generateSpec host cfg (R.heap.length + 1) childAction (Getter.result v) R1)
        (fun c R1 o ho => generateSpec_same host cfg _ c _ R1 o ho) (childrenOf R.heap r)
        { heap := R.heap, st := st1, groupResults := R.groupResults } out hout
  · simp only [DescribeAction.setupHook]
    rcases Action.do host R.heap r (g.call host R.groupResults) R.st with ⟨res, st1⟩
    cases res <;> rfl

/-! ### Trees grown without `should` -/

theorem pushChild_append_getElem? (h : Heap Val World) (r : Nat) (hr : r < h.length)
    (n : Action Val World) (i : Nat) (b : Action Val World)
    (hb : (pushChild (h ++ [n]) r h.length)[i]? = some b) :
    (i ≠ r ∧ h[i]? = some b)
    ∨ (i = r ∧ ∃ a, h[r]? = some a
        ∧ b = { a with childActions := a.childActions ++ [h.length] })
    ∨ (i = h.length ∧ b = n) := by
  obtain ⟨a, ha⟩ := getElem?_of_lt h r hr
  have ha1 : (h ++ [n])[r]? = some a := by
    rw [List.getElem?_append_left hr]; exact ha
  have hlt : r < (h ++ [n]).length := by simp; omega
  simp only [pushChild, ha1] at hb
  by_cases hir : i = r
  · subst hir
    rw [List.getElem?_set_self hlt] at hb
    exact Or.inr (Or.inl ⟨rfl, a, ha, (Option.some.inj hb).symm⟩)
  · rw [List.getElem?_set_ne (fun hh => hir hh.symm)] at hb
    by_cases hil : i < h.length
    · rw [List.getElem?_append_left hil] at hb
      exact Or.inl ⟨hir, hb⟩
    · have hi : i < (h ++ [n]).length := lt_length_of_getElem? hb
      have hieq : i = h.length := by simp at hi; omega
      subst hieq
      simp at hb
      exact Or.inr (Or.inr ⟨rfl, hb.symm⟩)

theorem methodDescription_not_should (name args : String) :
    isShouldActionDescription (name ++ "(" ++ args ++ ")") = false := by
  have hmem : '(' ∈ (name ++ "(" ++ args ++ ")").data := by
    simp [String.data_append]
  have h1 : name ++ "(" ++ args ++ ")" ≠ "should" := by
    intro he
    rw [he] at hmem
    revert hmem
    decide
  have h2 : name ++ "(" ++ args ++ ")" ≠ "shouldEventually" := by
    intro he
    rw [he] at hmem
    revert hmem
    decide
  simp [isShouldActionDescription, h1, h2]

/-- The invariant of a tree grown without `should` from a root that is not itself
labelled `should` or `shouldEventually`: every node is a group, no node is labelled
`should` or `shouldEventually`, and children are created after their parents. -/
theorem grown_invariant (co : Collaborators Val World) (description : String)
    (callback : Callback Val World) (h : Heap Val World)
    (hroot : isShouldActionDescription description = false)
    (hg : GrownWithoutShould co description callback h) :
    0 < h.length
    ∧ (∀ (i : Nat) (a : Action Val World), h[i]? = some a →
        (a.cls = ActionClass.RootAction ∨ a.cls = ActionClass.DescribeAction)
        ∧ isShouldActionDescription a.description = false
        ∧ ∀ c ∈ a.childActions, i < c) := by
  induction hg with
  | root =>
    refine ⟨by simp [newRoot, Action.create_eq], fun i a ha => ?_⟩
    simp only [newRoot, Action.create_eq, List.nil_append] at ha
    cases i with
    | zero =>
      simp only [List.getElem?_cons_zero, Option.some.injEq] at ha
      rw [← ha]
      exact ⟨Or.inl rfl, hroot, by simp [newAction]⟩
    | succ i => simp at ha
  | property h r name _ hr hn1 hn2 ih =>
    have hnone : createMissingPropertyProxyAction co h r name = (h, none) := by
      cases name with
      | symbol d => rfl
      | string n =>
        have hs : isShouldActionDescription n = false := by
          have h1 : n ≠ "should" := fun he => hn1 (by rw [he])
          have h2 : n ≠ "shouldEventually" := fun he => hn2 (by rw [he])
          simp [isShouldActionDescription, h1, h2]
        have hd : isDescendantOfShould h r = false := by
          simp only [isDescendantOfShould, List.any_eq_false]
          intro a _
          simp only [descriptionOf]
          cases ha : h[a]? with
          | none => simp [isShouldActionDescription]
          | some x => simpa using (ih.2 a x ha).2.1
        by_cases hi : n = "inspect" <;> simp [createMissingPropertyProxyAction, hi, hs, hd]
    rw [hnone]
    exact ih
  | method h r name args _ hr hn1 hn2 ih =>
    rcases createMissingMethodProxyAction_cases co h r name args with h0 | ⟨n, _, h1⟩
    · rw [h0]; exact ih
    · rw [h1]
      have happ := pushChild_append_appends h r hr
        (newAction ActionClass.DescribeAction (some r)
          (n ++ "(" ++ co.stringifyArgs args ++ ")") (methodStep co n args)) rfl rfl
      refine ⟨by rw [happ.2.1]; omega, fun i b hb => ?_⟩
      rcases pushChild_append_getElem? h r hr _ i b hb with ⟨_, hold⟩ | ⟨hir, a, ha, hba⟩
        | ⟨hil, hbn⟩
      · exact ih.2 i b hold
      · obtain ⟨hc, hd, hch⟩ := ih.2 r a ha
        subst hir
        rw [hba]
        refine ⟨hc, hd, fun c hcm => ?_⟩
        simp only [List.mem_append, List.mem_singleton] at hcm
        rcases hcm with hcm | hcm
        · exact hch c hcm
        · omega
      · rw [hbn]
        exact ⟨Or.inr rfl, methodDescription_not_should _ _, by simp [newAction]⟩

theorem caseCountList_append (l1 l2 : List (Block Val)) :
    caseCountList (l1 ++ l2) = caseCountList l1 + caseCountList l2 := by
  induction l1 with
  | nil => simp [caseCountList]
  | cons b l ih => simp [caseCountList, ih, Nat.add_assoc]

theorem forEachChild_groups_only (h : Heap Val World)
    (gen : Nat → Realization Val World → Option (Realized Val World)) (l : List Nat)
    (hgen : ∀ c ∈ l, ∀ R : Realization Val World, R.heap = h →
      ∃ out, gen c R = some out ∧ out.state.heap = h ∧ caseCountList out.blocks = 0)
    (R : Realization Val World) (hR : R.heap = h) :
    ∃ out, forEachChild gen l R = some out ∧ out.state.heap = h
      ∧ caseCountList out.blocks = 0 := by
  induction l generalizing R with
  | nil => exact ⟨_, rfl, hR, rfl⟩
  | cons c rest ih =>
    obtain ⟨o1, hg1, hh1, hc1⟩ := hgen c (by simp) R hR
    simp only [forEachChild, hg1]
    cases ht : o1.thrown with
    | some e => exact ⟨o1, rfl, hh1, hc1⟩
    | none =>
      obtain ⟨o2, hg2, hh2, hc2⟩ := ih (fun c hc => hgen c (by simp [hc])) o1.state hh1
      simp only [hg2]
      exact ⟨_, rfl, hh2, by simp [caseCountList_append, hc1, hc2]⟩

/-- Realizing a tree without `ItAction`, from any node and with enough fuel for the nodes
created after it, returns, leaves the heap as it is and registers no case. -/
theorem generateSpec_groups_only (host : Host Val) (cfg : Config) (h : Heap Val World)
    (hgroups : ∀ (i : Nat) (a : Action Val World), h[i]? = some a →
        a.cls ≠ ActionClass.ItAction ∧ ∀ c ∈ a.childActions, i < c) :
    ∀ (k r fuel : Nat) (g : Getter Val) (R : Realization Val World), R.heap = h →
      h.length - r ≤ k → k < fuel →
      ∃ out, generateSpec host cfg fuel r g R = some out ∧ out.state.heap = h
        ∧ caseCountList out.blocks = 0 := by
  intro k
  induction k with
  | zero =>
    intro r fuel g R hR hk hf
    obtain ⟨fuel, rfl⟩ : ∃ n, fuel = n + 1 := ⟨fuel - 1, by omega⟩
    have hnone : classOf R.heap r = none := by
      have : h[r]? = none := List.getElem?_eq_none (by omega)
      simp [classOf, hR, this]
    exact ⟨{ blocks := [], thrown := some (Thrown.other host.typeError), state := R },
      by simp only [generateSpec, hnone], hR, rfl⟩
  | succ k ih =>
    intro r fuel g R hR hk hf
    obtain ⟨fuel, rfl⟩ : ∃ n, fuel = n + 1 := ⟨fuel - 1, by omega⟩
    cases ha : h[r]? with
    | none =>
      have hnone : classOf R.heap r = none := by simp [classOf, hR, ha]
      exact ⟨{ blocks := [], thrown := some (Thrown.other host.typeError), state := R },
        by simp only [generateSpec, hnone], hR, rfl⟩
    | some a =>
      obtain ⟨hcls, hch⟩ := hgroups r a ha
      have hrlt := lt_length_of_getElem? ha
      have hchildren : childrenOf R.heap r = a.childActions := by
        simp [childrenOf, hR, ha]
      have hclass : classOf R.heap r = some a.cls := by simp [classOf, hR, ha]
      have hgroup : a.cls = ActionClass.RootAction ∨ a.cls = ActionClass.DescribeAction →
          ∃ out, generateSpec host cfg (fuel + 1) r g R = some out ∧ out.state.heap = h
            ∧ caseCountList out.blocks = 0 := by
        intro hc
        obtain ⟨body, hbody, hbh, hbc⟩ := forEachChild_groups_only h
          (fun childAction R1 =>
            generateSpec host cfg fuel childAction (Getter.groupResult r) R1)
          a.childActions
          (fun c hc R1 hR1 => ih c fuel (Getter.groupResult r) R1 hR1
            (by have := hch c hc; omega) (by omega)) R hR
        refine ⟨{ blocks := describe_ ("when doing " ++ descriptionOf R.heap r)
                    (before_ r g ++ body.blocks),
                  thrown := body.thrown, state := body.state }, ?_, hbh, ?_⟩
        · rcases hc with hc | hc <;>
            simp only [generateSpec, hclass, hc, hchildren, hbody]
        · simp [describe_, before_, caseCountList, Block.caseCount, caseCountList_append,
            hbc]
      cases hc : a.cls with
      | RootAction => exact hgroup (Or.inl hc)
      | DescribeAction => exact hgroup (Or.inr hc)
      | ItAction => exact absurd hc hcls
      | ChaiComponentAction =>
        simp only [generateSpec, hclass, hc, hchildren]
        rcases ChaiComponentAction.do host cfg R.heap r (g.call host R.groupResults) R.st
          with ⟨res, st1⟩
        cases res with
        | error e =>
          exact ⟨{ blocks := [], thrown := some e,
                   state := { heap := R.heap, st := st1, groupResults := R.groupResults } },
            rfl, hR, rfl⟩
        | ok v =>
          exact forEachChild_groups_only h
            (fun childAction R1 =>
              generateSpec host cfg fuel childAction (Getter.result v) R1)
            a.childActions
            (fun c hc R1 hR1 => ih c fuel (Getter.result v) R1 hR1
              (by have := hch c hc; omega) (by omega))
            { heap := R.heap, st := st1, groupResults := R.groupResults } hR

theorem createMissingPropertyProxyAction_other_cases (co : Collaborators Val World)
    (h : Heap Val World) (r : Nat) (name : MemberName)
    (hn1 : name ≠ MemberName.string "should")
    (hn2 : name ≠ MemberName.string "shouldEventually") :
    createMissingPropertyProxyAction co h r name = (h, none)
    ∨ ∃ n, createMissingPropertyProxyAction co h r name =
        (pushChild (h ++ [newAction ActionClass.ChaiComponentAction (some r) n
            (propertyStep co n)]) r h.length, some h.length) := by
  cases name with
  | symbol d => left; rfl
  | string n =>
    have hs : isShouldActionDescription n = false := by
      have h1 : n ≠ "should" := fun he => hn1 (by rw [he])
      have h2 : n ≠ "shouldEventually" := fun he => hn2 (by rw [he])
      simp [isShouldActionDescription, h1, h2]
    by_cases hi : n = "inspect"
    · left; simp [createMissingPropertyProxyAction, hi]
    · by_cases hd : isDescendantOfShould h r = true
      · right
        exact ⟨n, by simp [createMissingPropertyProxyAction, hi, hs, hd, Action.create_eq]⟩
      · left; simp [createMissingPropertyProxyAction, hi, hs, hd]

/-- The invariant of a tree grown without `should`, whatever the label of its root: no
node is an `ItAction`, and children are created after their parents. -/
theorem grown_no_case_node (co : Collaborators Val World) (description : String)
    (callback : Callback Val World) (h : Heap Val World)
    (hg : GrownWithoutShould co description callback h) :
    0 < h.length
    ∧ (∀ (i : Nat) (a : Action Val World), h[i]? = some a →
        a.cls ≠ ActionClass.ItAction ∧ ∀ c ∈ a.childActions, i < c) := by
  have happend : ∀ (h : Heap Val World) (r : Nat) (n : Action Val World), r < h.length →
      n.cls ≠ ActionClass.ItAction → n.childActions = [] →
      (0 < h.length ∧ ∀ (i : Nat) (a : Action Val World), h[i]? = some a →
        a.cls ≠ ActionClass.ItAction ∧ ∀ c ∈ a.childActions, i < c) →
      0 < (pushChild (h ++ [n]) r h.length).length
      ∧ ∀ (i : Nat) (b : Action Val World), (pushChild (h ++ [n]) r h.length)[i]? = some b →
        b.cls ≠ ActionClass.ItAction ∧ ∀ c ∈ b.childActions, i < c := by
    intro h r n hr hncls hnch ih
    obtain ⟨a0, ha0⟩ := getElem?_of_lt h r hr
    have hlen : 0 < (pushChild (h ++ [n]) r h.length).length := by
      have ha1 : (h ++ [n])[r]? = some a0 := by
        rw [List.getElem?_append_left hr]; exact ha0
      simp [pushChild, ha1]
    refine ⟨hlen, fun i b hb => ?_⟩
    rcases pushChild_append_getElem? h r hr _ i b hb with ⟨_, hold⟩ | ⟨hir, a, ha, hba⟩
      | ⟨hil, hbn⟩
    · exact ih.2 i b hold
    · obtain ⟨hc, hch⟩ := ih.2 r a ha
      subst hir
      rw [hba]
      refine ⟨hc, fun c hcm => ?_⟩
      simp only [List.mem_append, List.mem_singleton] at hcm
      rcases hcm with hcm | hcm
      · exact hch c hcm
      · omega
    · rw [hbn]
      exact ⟨hncls, by simp [hnch]⟩
  induction hg with
  | root =>
    refine ⟨by simp [newRoot, Action.create_eq], fun i a ha => ?_⟩
    simp only [newRoot, Action.create_eq, List.nil_append] at ha
    cases i with
    | zero =>
      simp only [List.getElem?_cons_zero, Option.some.injEq] at ha
      rw [← ha]
      exact ⟨by simp [newAction], by simp [newAction]⟩
    | succ i => simp at ha
  | property h r name _ hr hn1 hn2 ih =>
    rcases createMissingPropertyProxyAction_other_cases co h r name hn1 hn2 with h0 | ⟨n, h1⟩
    · rw [h0]; exact ih
    · rw [h1]
      exact happend h r _ hr (by simp [newAction]) (by simp [newAction]) ih
  | method h r name args _ hr hn1 hn2 ih =>
    rcases createMissingMethodProxyAction_cases co h r name args with h0 | ⟨n, _, h1⟩
    · rw [h0]; exact ih
    · rw [h1]
      exact happend h r _ hr (by simp [newAction]) (by simp [newAction]) ih

/-- C15, as stated, fails: a root may itself be labelled `should`; on the tree made of
that root alone, grown with no member name at all, property interception with the name
`foo` does not return absent: it adds a chain step. -/
theorem property_intercepted_under_root_named_should :
    GrownWithoutShould exampleCollaborators "should" pollSubject (newRoot "should" pollSubject)
    ∧ (createMissingPropertyProxyAction exampleCollaborators (newRoot "should" pollSubject) 0
        (MemberName.string "foo")).2 = some 1
    ∧ classOf (createMissingPropertyProxyAction exampleCollaborators
        (newRoot "should" pollSubject) 0 (MemberName.string "foo")).1 1
        = some ActionClass.ChaiComponentAction :=
  ⟨GrownWithoutShould.root, by decide, by decide⟩

/-- C15, as amended. For every tree grown from a root, whatever its label, using only
member names other than `should` and `shouldEventually`: no Leaf-Case node is in the
tree; when the root is not itself labelled `should` or `shouldEventually`, property
interception on any of its nodes returns absent and adds no node; method interception
adds only Group nodes; and realizing the tree from its root returns and registers no case
block. -/
theorem grown_without_should_has_no_case (co : Collaborators Val World) (host : Host Val)
    (cfg : Config) (description : String) (callback : Callback Val World)
    (h : Heap Val World) (hg : GrownWithoutShould co description callback h) :
    (∀ (i : Nat) (a : Action Val World), h[i]? = some a → a.cls ≠ ActionClass.ItAction)
    ∧ (isShouldActionDescription description = false →
        ∀ (r : Nat) (name : MemberName), name ≠ MemberName.string "should" →
        name ≠ MemberName.string "shouldEventually" →
        createMissingPropertyProxyAction co h r name = (h, none))
    ∧ (∀ (r : Nat) (name : MemberName) (args : List Val) (c : Nat), r < h.length →
        (createMissingMethodProxyAction co h r name args).2 = some c →
        classOf (createMissingMethodProxyAction co h r name args).1 c
          = some ActionClass.DescribeAction)
    ∧ (∀ (g : Getter Val) (st : St World) (groupResults : List (Nat × Val)),
        ∃ out, generateSpec host cfg (h.length + 1) 0 g
            { heap := h, st := st, groupResults := groupResults } = some out
          ∧ caseCountList out.blocks = 0) := by
  have hnode := grown_no_case_node co description callback h hg
  refine ⟨?_, ?_, ?_, ?_⟩
  · intro i a ha
    exact (hnode.2 i a ha).1
  · intro hroot r name hn1 hn2
    have hinv := grown_invariant co description callback h hroot hg
    cases name with
    | symbol d => rfl
    | string n =>
      have hs : isShouldActionDescription n = false := by
        have h1 : n ≠ "should" := fun he => hn1 (by rw [he])
        have h2 : n ≠ "shouldEventually" := fun he => hn2 (by rw [he])
        simp [isShouldActionDescription, h1, h2]
      have hd : isDescendantOfShould h r = false := by
        simp only [isDescendantOfShould, List.any_eq_false]
        intro a _
        simp only [descriptionOf]
        cases ha : h[a]? with
        | none => simp [isShouldActionDescription]
        | some x => simpa using (hinv.2 a x ha).2.1
      by_cases hi : n = "inspect" <;> simp [createMissingPropertyProxyAction, hi, hs, hd]
  · intro r name args c hr hc
    rcases createMissingMethodProxyAction_cases co h r name args with h0 | ⟨n, _, h1⟩
    · rw [h0] at hc
      exact Option.noConfusion hc
    · rw [h1] at hc ⊢
      have hceq : c = h.length := (Option.some.inj hc).symm
      subst hceq
      simp [classOf, pushChild_append_new h r hr, newAction]
  · intro g st groupResults
    obtain ⟨out, hout, _, hcases⟩ := generateSpec_groups_only host cfg h
      hnode.2 h.length 0 (h.length + 1) g
      { heap := h, st := st, groupResults := groupResults } rfl (by omega) (by omega)
    exact ⟨out, hout, hcases⟩

/-- An instance of C15 as amended: on the tree of `subject.getTotal()`, accessing `foo` on
the group returns absent and leaves the tree as it is. -/
theorem grown_without_should_has_no_case_witness :
    createMissingPropertyProxyAction exampleCollaborators groupsHeap 1
      (MemberName.string "foo") = (groupsHeap, none) :=
  (grown_without_should_has_no_case exampleCollaborators jsHost exampleConfig "subject"
    pollSubject groupsHeap
    (GrownWithoutShould.method (newRoot "subject" pollSubject) 0
      (MemberName.string "getTotal") [] GrownWithoutShould.root (by decide) (by decide)
      (by decide))).2.1 (by decide) 1 (MemberName.string "foo") (by decide) (by decide)

/-- An instance of C18 as amended: realizing `subject.shouldEventually.equal(5)` keeps
every field of every node but the description of the `ItAction`. -/
theorem realization_frame_witness :
    SameExceptCaseLabels exampleStart.heap exampleRegistered.heap := by
  cases hgen : generateSpec jsHost exampleConfig 4 0 Getter.noResult exampleStart with
  | none =>
    have hsome : (generateSpec jsHost exampleConfig 4 0 Getter.noResult exampleStart).isSome
        = true := rfl
    rw [hgen] at hsome
    exact absurd hsome (by simp)
  | some out =>
    have hframe := (realization_frame jsHost exampleConfig 0 Getter.noResult exampleStart).1
      4 out hgen
    simpa [exampleRegistered, hgen] using hframe

/-! ### The calls made by a `do` -/

theorem delayCount_nil : delayCount [] = 0 := rfl

theorem runCallback_log (host : Host Val) (h : Heap Val World) (r : Nat) (arg : Val)
    (s : St World) :
    ∃ evs, (runCallback host h r arg s).2.events = s.events ++ evs
      ∧ (evs = [Event.callback r] ∨ evs = []) := by
  rcases runCallback_events host h r arg s with hev | ⟨hev, _⟩
  · exact ⟨_, hev, Or.inl rfl⟩
  · exact ⟨[], by rw [hev]; simp, Or.inr rfl⟩

theorem attemptCallback_log (host : Host Val) (h : Heap Val World)
    (f : St World → Result Val World) (r : Nat) (l : List Nat)
    (hf : ∀ s, ∃ evs, (f s).2.events = s.events ++ evs ∧ LogBound h l evs)
    (ls : Locals Val × St World) :
    ∃ evs, (attemptCallback host h f r ls).2.2.events = ls.2.events ++ evs
      ∧ AttemptBound h r l evs := by
  obtain ⟨ev1, h1, hb1, hn1, hd1⟩ := hf ls.2
  unfold attemptCallback
  rcases hfs : f ls.2 with ⟨res, s1⟩
  rw [hfs] at h1
  simp only at h1
  have hbase : AttemptBound h r l ev1 := by
    refine ⟨fun a => ?_, fun e he => Or.inr (hn1 e he), fun q hq => ⟨?_, hd1 q hq⟩⟩
    · have := hb1 a
      omega
    · exact hn1 _ hq
  cases res with
  | error e => exact ⟨ev1, h1, hbase⟩
  | ok v =>
    obtain ⟨ev2, h2, hcases⟩ := runCallback_log host h r v s1
    simp only
    rcases hrun : runCallback host h r v s1 with ⟨res2, s2⟩
    rw [hrun] at h2
    simp only at h2
    refine ⟨ev1 ++ ev2, ?_, ?_⟩
    · cases res2 <;> simp [h2, h1]
    · rcases hcases with hc | hc
      · subst hc
        refine ⟨fun a => ?_, fun e he => ?_, fun q hq => ?_⟩
        · have := hb1 a
          simp only [List.count_append, delayCount_append, delayCount_callback,
            List.count_singleton]
          by_cases har : a = r
          · subst har
            simp
            omega
          · have hne : (Event.callback r == Event.callback a) = false := by
              simp; exact fun hh => har hh.symm
            simp only [hne, har, if_false]
            simp
            omega
        · rw [List.mem_append, List.mem_singleton] at he
          rcases he with he | he
          · exact Or.inr (hn1 e he)
          · left; rw [he]; rfl
        · rw [List.mem_append, List.mem_singleton] at hq
          rcases hq with hq | hq
          · exact ⟨hn1 _ hq, hd1 q hq⟩
          · exact Event.noConfusion hq
      · subst hc
        simpa using hbase

theorem retryLoop_log (h : Heap Val World) (r : Nat) (l : List Nat)
    (att : Locals Val × St World → Except (Thrown Val) Unit × (Locals Val × St World))
    (hatt : ∀ ls, ∃ evs, (att ls).2.2.events = ls.2.events ++ evs ∧ AttemptBound h r l evs)
    (hnodup : l.Nodup) (hr : r ∉ l) (n : Nat) (ls : Locals Val × St World) :
    ∃ evs, (retryLoop r att n ls).2.events = ls.2.events ++ evs
      ∧ RetryBound h r l 0 n evs := by
  have hone : ∀ a, (if a = r then 1 else 0) + l.count a ≤ 1 := by
    intro a
    by_cases har : a = r
    · subst har
      simp [List.count_eq_zero_of_not_mem hr]
    · have := List.nodup_iff_count_le_one.mp hnodup a
      simp [har]
      exact this
  induction n generalizing ls with
  | zero =>
    exact ⟨[], by simp [retryLoop], by simp [RetryBound, delayCount_nil]⟩
  | succ n ih =>
    simp only [retryLoop, optionsDelay]
    obtain ⟨ev1, h1, hb1, hn1, hd1⟩ :=
      hatt (ls.1, { world := ls.2.world, events := ls.2.events ++ [Event.delay r] })
    rcases hres : att (ls.1, { world := ls.2.world, events := ls.2.events ++ [Event.delay r] })
      with ⟨res, ls1⟩
    rw [hres] at h1
    simp only at h1
    have hnot : Event.delay r ∉ ev1 := fun hmem => hr (hd1 r hmem).1
    have hiter : RetryBound h r l 0 1 ([Event.delay r] ++ ev1) := by
      refine ⟨fun a => ?_, fun e he => ?_, fun q hq => ?_, ?_⟩
      · have := hb1 a
        have := hone a
        simp only [List.count_append, delayCount_append, delayCount_delay, List.count_singleton]
        have hne : (Event.delay r == Event.callback a) = false := by simp
        simp only [hne, if_false, ite_self, Bool.false_eq_true]
        omega
      · rw [List.mem_append, List.mem_singleton] at he
        rcases he with he | he
        · left; rw [he]; rfl
        · exact hn1 e he
      · rw [List.mem_append, List.mem_singleton] at hq
        rcases hq with hq | hq
        · left; exact (Event.delay.inj hq)
        · exact Or.inr (hd1 q hq)
      · simp [List.count_append, List.count_eq_zero_of_not_mem hnot]
    cases res with
    | ok u => exact ⟨[Event.delay r] ++ ev1, by simp [h1], by
        refine ⟨hiter.1, hiter.2.1, hiter.2.2.1, ?_⟩
        have := hiter.2.2.2
        omega⟩
    | error e =>
      obtain ⟨ev2, h2, hb2, hn2, hd2, hc2⟩ := ih (categorizeException e ls1.1, ls1.2)
      refine ⟨([Event.delay r] ++ ev1) ++ ev2, by simp [h2, h1], ?_⟩
      refine ⟨fun a => ?_, fun e he => ?_, fun q hq => ?_, ?_⟩
      · have h3 := hiter.1 a
        have h4 := hb2 a
        rw [List.count_append, delayCount_append]
        simp only [ite_self, Nat.zero_add] at h3 h4 ⊢
        omega
      · rw [List.mem_append] at he
        rcases he with he | he
        · exact hiter.2.1 e he
        · exact hn2 e he
      · rw [List.mem_append] at hq
        rcases hq with hq | hq
        · exact hiter.2.2.1 q hq
        · exact hd2 q hq
      · rw [List.count_append]
        have := hiter.2.2.2
        omega

theorem firstRun_bound (h : Heap Val World) (r : Nat) (l : List Nat) (n : Nat)
    (ev0 : List Event) (h0 : ev0 = [Event.callback r] ∨ ev0 = []) :
    RetryBound h r l 1 n ev0 := by
  rcases h0 with h0 | h0
  · subst h0
    refine ⟨fun a => ?_, fun e he => ?_, fun q hq => ?_, ?_⟩
    · by_cases har : a = r
      · subst har; simp
      · have hne : (Event.callback r == Event.callback a) = false := by
          simp; exact fun hh => har hh.symm
        simp [List.count_singleton, hne]
    · rw [List.mem_singleton] at he
      left; rw [he]; rfl
    · rw [List.mem_singleton] at hq
      exact Event.noConfusion hq
    · simp [List.count_singleton]
  · subst h0
    simp [RetryBound, delayCount_nil]

theorem RetryBound.append {h : Heap Val World} {r : Nat} {l : List Nat} {n : Nat}
    {ev0 ev1 : List Event} (h0 : RetryBound h r l 1 0 ev0) (h1 : RetryBound h r l 0 n ev1) :
    RetryBound h r l 1 n (ev0 ++ ev1) := by
  refine ⟨fun a => ?_, fun e he => ?_, fun q hq => ?_, ?_⟩
  · have := h0.1 a
    have := h1.1 a
    rw [List.count_append, delayCount_append]
    simp only [ite_self, Nat.zero_add] at *
    omega
  · rw [List.mem_append] at he
    rcases he with he | he
    · exact h0.2.1 e he
    · exact h1.2.1 e he
  · rw [List.mem_append] at hq
    rcases hq with hq | hq
    · exact h0.2.2.1 q hq
    · exact h1.2.2.1 q hq
  · rw [List.count_append]
    have := h0.2.2.2
    have := h1.2.2.2
    omega

theorem doWith_log (host : Host Val) (cfg : Config) (h : Heap Val World)
    (f : St World → Result Val World) (r : Nat) (l : List Nat)
    (hf : ∀ s, ∃ evs, (f s).2.events = s.events ++ evs ∧ LogBound h l evs)
    (hnodup : l.Nodup) (hr : r ∉ l) (prev : Val) (s : St World) :
    ∃ evs, (ChaiComponentAction.doWith host cfg h f r prev s).2.events = s.events ++ evs
      ∧ RetryBound h r l 1 cfg.MAX_RETRIES.toNat evs := by
  obtain ⟨ev0, h0, hcases⟩ := runCallback_log host h r prev s
  have hb0 := firstRun_bound h r l cfg.MAX_RETRIES.toNat ev0 hcases
  unfold ChaiComponentAction.doWith
  rcases hrun : runCallback host h r prev s with ⟨res, s1⟩
  rw [hrun] at h0
  simp only at h0
  cases res with
  | ok v => exact ⟨ev0, h0, hb0⟩
  | error e =>
    cases e with
    | other x => exact ⟨ev0, by simp only [throwOrReturn_state]; exact h0, hb0⟩
    | assertion a =>
      simp only
      split
      · obtain ⟨ev1, h1, hb1⟩ := retryLoop_log h r l (attemptCallback host h f r)
          (attemptCallback_log host h f r l hf) hnodup hr cfg.MAX_RETRIES.toNat
          (categorizeException (Thrown.assertion a)
            { result := host.undefined, resultOfPreviousAction := prev,
              assertionError := none, unhandledException := none }, s1)
        refine ⟨ev0 ++ ev1, by simp only [throwOrReturn_state]; simp [h1, h0], ?_⟩
        exact RetryBound.append (firstRun_bound h r l 0 ev0 hcases) hb1
      · exact ⟨ev0, by simp only [throwOrReturn_state]; exact h0, hb0⟩

theorem dispatchDo_log (host : Host Val) (cfg : Config) (h : Heap Val World)
    (f : St World → Result Val World) (r : Nat) (l : List Nat)
    (hf : ∀ s, ∃ evs, (f s).2.events = s.events ++ evs ∧ LogBound h l evs)
    (hnodup : l.Nodup) (hr : r ∉ l) (prev : Val) (s : St World) :
    ∃ evs, (dispatchDo host cfg h f r prev s).2.events = s.events ++ evs
      ∧ (∀ a, evs.count (Event.callback a) ≤ (if a = r then 1 else 0) + delayCount evs)
      ∧ (∀ e ∈ evs, e.node ∈ r :: l)
      ∧ (∀ q, Event.delay q ∈ evs → classOf h q = some ActionClass.ChaiComponentAction) := by
  unfold dispatchDo
  split
  · rename_i hcls
    obtain ⟨evs, hev, hb, hn, hd, _⟩ := doWith_log host cfg h f r l hf hnodup hr prev s
    refine ⟨evs, hev, hb, fun e he => ?_, fun q hq => ?_⟩
    · rcases hn e he with hn1 | hn1
      · rw [hn1]; simp
      · simp [hn1]
    · rcases hd q hq with hq1 | hq1
      · rw [hq1]; exact hcls
      · exact hq1.2
  · obtain ⟨ev0, h0, hcases⟩ := runCallback_log host h r prev
      { world := s.world, events := s.events ++ [Event.executingAction r] }
    have hb0 := firstRun_bound h r l 0 ev0 hcases
    refine ⟨[Event.executingAction r] ++ ev0, by simp [Action.do, h0], fun a => ?_,
      fun e he => ?_, fun q hq => ?_⟩
    · have := hb0.1 a
      rw [List.count_append, delayCount_append, delayCount_executingAction]
      have hne : (Event.executingAction r == Event.callback a) = false := by simp
      simp only [List.count_singleton, hne]
      simp only [Bool.false_eq_true, if_false]
      omega
    · rw [List.mem_append, List.mem_singleton] at he
      rcases he with he | he
      · rw [he]; simp [Event.node]
      · rcases hb0.2.1 e he with hn1 | hn1
        · rw [hn1]; simp
        · simp [hn1]
    · rw [List.mem_append, List.mem_singleton] at hq
      rcases hq with hq | hq
      · exact Event.noConfusion hq
      · rcases hb0.2.2.1 q hq with hq1 | hq1
        · rcases hcases with hc | hc
          · rw [hc, List.mem_singleton] at hq
            exact Event.noConfusion hq
          · rw [hc] at hq
            exact absurd hq (List.not_mem_nil _)
        · exact hq1.2

theorem LogBound.nil (h : Heap Val World) (l : List Nat) : LogBound h l [] := by
  simp [LogBound, delayCount_nil]

theorem reduceAncestors_log (host : Host Val) (cfg : Config) (h : Heap Val World)
    (l : List Nat) (hnodup : l.Nodup) (s : St World) :
    ∃ evs, (reduceAncestors host cfg h l s).2.events = s.events ++ evs
      ∧ LogBound h l evs := by
  induction l generalizing s with
  | nil => exact ⟨[], by simp [reduceAncestors], LogBound.nil h []⟩
  | cons b above ih =>
    have hb : b ∉ above := (List.nodup_cons.mp hnodup).1
    have habove : above.Nodup := (List.nodup_cons.mp hnodup).2
    obtain ⟨ev1, h1, hc1, hn1, hd1⟩ := ih habove s
    simp only [reduceAncestors]
    rcases hred : reduceAncestors host cfg h above s with ⟨res, s1⟩
    rw [hred] at h1
    simp only at h1
    have hcount : ∀ a, above.count a ≤ (b :: above).count a := by
      intro a
      rw [List.count_cons]
      omega
    cases res with
    | error e =>
      refine ⟨ev1, h1, fun a => ?_, fun e he => ?_, hd1⟩
      · have := hc1 a
        have := hcount a
        omega
      · exact List.mem_cons_of_mem _ (hn1 e he)
    | ok v =>
      have hf : ∀ t, ∃ evs, ((match above with
          | [] => nullAncestors host
          | _ :: _ => reduceAncestors host cfg h above) t).2.events = t.events ++ evs
          ∧ LogBound h above evs := by
        intro t
        cases above with
        | nil => exact ⟨[], by simp [nullAncestors], LogBound.nil h []⟩
        | cons c above2 => exact ih habove t
      obtain ⟨ev2, h2, hc2, hn2, hd2⟩ := dispatchDo_log host cfg h _ b above hf habove hb v s1
      refine ⟨ev1 ++ ev2, by simp only; rw [h2, h1]; simp, fun a => ?_, fun e he => ?_,
        fun q hq => ?_⟩
      · have h3 := hc1 a
        have h4 := hc2 a
        rw [List.count_append, delayCount_append, List.count_cons]
        by_cases hab : a = b
        · subst hab
          simp only [if_true, beq_self_eq_true] at h4 ⊢
          omega
        · have hne : (b == a) = false := by simp; exact fun hh => hab hh.symm
          simp only [hab, if_false, hne, Bool.false_eq_true] at h4 ⊢
          omega
      · rw [List.mem_append] at he
        rcases he with he | he
        · exact List.mem_cons_of_mem _ (hn1 e he)
        · exact hn2 e he
      · rw [List.mem_append] at hq
        rcases hq with hq | hq
        · exact hd1 q hq
        · exact hd2 q hq

theorem ancestors_nodup {h : Heap Val World} (wf : WellFormed h) (r : Nat) :
    (Action.ancestors h r).Nodup ∧ ∀ a ∈ Action.ancestors h r, a ≤ r := by
  induction r using Nat.strong_induction_on with
  | _ r ih =>
    rw [ancestors_unfold wf r]
    cases hp : parentOf h r with
    | none => simp
    | some p =>
      have hlt := parentOf_lt wf hp
      obtain ⟨hn, hle⟩ := ih p hlt
      simp only
      refine ⟨List.nodup_cons.mpr ⟨fun hmem => ?_, hn⟩, fun a ha => ?_⟩
      · have := hle r hmem
        omega
      · rcases List.mem_cons.mp ha with ha | ha
        · omega
        · have := hle a ha
          omega

theorem delayCount_eq_count (r : Nat) (evs : List Event)
    (hd : ∀ q, Event.delay q ∈ evs → q = r) :
    delayCount evs = evs.count (Event.delay r) := by
  induction evs with
  | nil => simp [delayCount]
  | cons e es ih =>
    have hes := ih (fun q hq => hd q (List.mem_cons_of_mem _ hq))
    have hsplit : delayCount (e :: es) = delayCount [e] + delayCount es :=
      delayCount_append [e] es
    rw [hsplit, hes, List.count_cons]
    cases e with
    | executingAction a => simp [delayCount]
    | callback a => simp [delayCount]
    | delay q =>
      have hq := hd q (List.mem_cons_self _ _)
      subst hq
      simp [delayCount]
      omega

/-- C11, as amended. One call of `ChaiComponentAction.do` on a well-formed tree, with the
delay primitive that runs its callback once synchronously, makes at most `MAX_RETRIES`
calls of the delay primitive of its own, and the step of every other action runs at most
once per call of the delay primitive made during the call, those made by the `do` of an
ancestor that is itself a `ChaiComponentAction` included; its own step runs at most once
more than that. When no ancestor other than the action itself is a `ChaiComponentAction`,
the delay primitive is called at most `MAX_RETRIES` times in all, so each ancestor's step,
the root's included, runs at most `MAX_RETRIES` times. -/
theorem retry_reexecutes_ancestors_per_delay (host : Host Val) (cfg : Config)
    (h : Heap Val World) (wf : WellFormed h) (r : Nat) (prev : Val) (s : St World) :
    ∃ evs, (ChaiComponentAction.do host cfg h r prev s).2.events = s.events ++ evs
      ∧ evs.count (Event.delay r) ≤ cfg.MAX_RETRIES.toNat
      ∧ (∀ a, evs.count (Event.callback a) ≤ (if a = r then 1 else 0) + delayCount evs)
      ∧ ((∀ a ∈ Action.ancestors h r, a ≠ r →
            classOf h a ≠ some ActionClass.ChaiComponentAction) →
          delayCount evs ≤ cfg.MAX_RETRIES.toNat
          ∧ ∀ a, a ≠ r → evs.count (Event.callback a) ≤ cfg.MAX_RETRIES.toNat) := by
  have key : ∃ l : List Nat, (∀ a ∈ l, a ≠ r ∧ a ∈ Action.ancestors h r) ∧
      ∃ evs, (ChaiComponentAction.do host cfg h r prev s).2.events = s.events ++ evs
        ∧ RetryBound h r l 1 cfg.MAX_RETRIES.toNat evs := by
    unfold ChaiComponentAction.do
    cases hp : parentOf h r with
    | none =>
      refine ⟨[], by simp, ?_⟩
      have hf : ∀ t : St World, ∃ evs,
          (reduceParentAncestors host cfg h r t).2.events = t.events ++ evs
          ∧ LogBound h [] evs := by
        intro t
        exact ⟨[], by simp [reduceParentAncestors, hp, nullAncestors], LogBound.nil h []⟩
      exact doWith_log host cfg h _ r [] hf List.nodup_nil (List.not_mem_nil r) prev s
    | some p =>
      have hlt := parentOf_lt wf hp
      obtain ⟨hn, hle⟩ := ancestors_nodup wf p
      have hnot : r ∉ Action.ancestors h p := by
        intro hmem
        have := hle r hmem
        omega
      refine ⟨Action.ancestors h p, fun a ha => ⟨fun hh => hnot (hh ▸ ha), ?_⟩, ?_⟩
      · rw [ancestors_unfold wf r, hp]
        exact List.mem_cons_of_mem _ ha
      have hf : ∀ t : St World, ∃ evs,
          (reduceParentAncestors host cfg h r t).2.events = t.events ++ evs
          ∧ LogBound h (Action.ancestors h p) evs := by
        intro t
        simp only [reduceParentAncestors, hp]
        exact reduceAncestors_log host cfg h _ hn t
      exact doWith_log host cfg h _ r _ hf hn hnot prev s
  obtain ⟨l, hl, evs, hev, hc, _, hd, hown⟩ := key
  refine ⟨evs, hev, hown, hc, fun hno => ?_⟩
  have hall : ∀ q, Event.delay q ∈ evs → q = r := by
    intro q hq
    rcases hd q hq with hq1 | hq1
    · exact hq1
    · exact absurd hq1.2 (hno q (hl q hq1.1).2 (hl q hq1.1).1)
  have hcount := delayCount_eq_count r evs hall
  refine ⟨by omega, fun a ha => ?_⟩
  have := hc a
  simp only [ha, if_false, Nat.zero_add] at this
  omega

theorem retry_reexecutes_ancestors_per_delay_witness :
    WellFormed exampleHeap ∧
    ∃ evs, (ChaiComponentAction.do jsHost twoRetries exampleHeap 2 (JsVal.num 4)
        { world := 1, events := [] }).2.events = [] ++ evs
      ∧ evs.count (Event.delay 2) ≤ twoRetries.MAX_RETRIES.toNat
      ∧ (∀ a, evs.count (Event.callback a) ≤ (if a = 2 then 1 else 0) + delayCount evs)
      ∧ ((∀ a ∈ Action.ancestors exampleHeap 2, a ≠ 2 →
            classOf exampleHeap a ≠ some ActionClass.ChaiComponentAction) →
          delayCount evs ≤ twoRetries.MAX_RETRIES.toNat
          ∧ ∀ a, a ≠ 2 → evs.count (Event.callback a) ≤ twoRetries.MAX_RETRIES.toNat) :=
  ⟨by decide, retry_reexecutes_ancestors_per_delay jsHost twoRetries exampleHeap (by decide) 2
    (JsVal.num 4) { world := 1, events := [] }⟩

/-- C11, as stated, fails: in the tree `subject.shouldEventually.equal(4).equal(5)` with
`MAX_RETRIES = 2`, the subject reading 5, 6, ... after the first reading 4, the `do` of
the last action fails, and during it the step of the root runs 6 times, not at most 2:
each of its 2 retry attempts runs the `do` of `equal(4)`, which fails and makes 2 retry
attempts of its own; the delay primitive is called 6 times in all. -/
theorem nested_chain_step_multiplies_retries :
    twoRetries.MAX_RETRIES = 2
    ∧ WellFormed nestedHeap
    ∧ (ChaiComponentAction.do jsHost twoRetries nestedHeap 3 (JsVal.num 4)
        { world := 1, events := [] }).1.isOk = false
    ∧ (ChaiComponentAction.do jsHost twoRetries nestedHeap 3 (JsVal.num 4)
        { world := 1, events := [] }).2.events.count (Event.callback 0) = 6
    ∧ delayCount (ChaiComponentAction.do jsHost twoRetries nestedHeap 3 (JsVal.num 4)
        { world := 1, events := [] }).2.events = 6
    ∧ (ChaiComponentAction.do jsHost twoRetries nestedHeap 3 (JsVal.num 4)
        { world := 1, events := [] }).2.events.count (Event.delay 3) = 2 := by
  refine ⟨rfl, by decide, ?_, ?_, ?_, ?_⟩ <;> decide

/-! ### The retry loop on a realized tree, and values that `JSON.stringify` rejects -/

/-- C3, at the failing input: the tree `subject.shouldEventually.equal(5)` after
`generateSpec`, with the flag off and `MAX_RETRIES` 5, the subject reading 4, then 5. The
chain step is under the `ItAction` made by `shouldEventually`; its step raises an
assertion failure on attempt 1 and would return on attempt 2 (k = 2). The delay primitive
is invoked 0 times, not k - 1 = 1 time, by a direct call of `do` and by the case body
alike: `generateSpec` has replaced the description that the test of `do` looks for. -/
theorem realized_step_never_delayed :
    descriptionOf exampleStart.heap 1 = "shouldEventually"
    ∧ classOf exampleRegistered.heap 1 = some ActionClass.ItAction
    ∧ parentOf exampleRegistered.heap 2 = some 1
    ∧ descriptionOf exampleRegistered.heap 1 = "shouldEventually equal 5"
    ∧ stepInAttempt jsHost exampleConfig exampleRegistered.heap 2 (JsVal.num 4) 0
        { world := 1, events := [] }
      = some (Except.error (Thrown.assertion (equalFailure (JsVal.num 5) (JsVal.num 4))),
          { world := 1, events := [Event.callback 2] })
    ∧ stepInAttempt jsHost exampleConfig exampleRegistered.heap 2 (JsVal.num 4) 1
        { world := 1, events := [Event.callback 2] }
      = some (Except.ok (JsVal.num 5), { world := 2, events := Event.callback 2 :: retryLog })
    ∧ (ChaiComponentAction.do jsHost exampleConfig exampleRegistered.heap 2 (JsVal.num 4)
        { world := 1, events := [] }).2.events = [Event.callback 2]
    ∧ delayCount (ChaiComponentAction.do jsHost exampleConfig exampleRegistered.heap 2
        (JsVal.num 4) { world := 1, events := [] }).2.events = 0
    ∧ (ItAction.caseBody jsHost exampleConfig 1 (Getter.groupResult 0) exampleAfterSetup).map
        (fun out => delayCount out.state.st.events) = some 0 :=
  ⟨rfl, rfl, rfl, rfl, rfl, rfl, rfl, rfl, rfl⟩

/-- C5, at two failing inputs, with `MAX_RETRIES` 2 and the flag off. On the tree
`subject.shouldEventually.equal(5)` after `generateSpec`, the subject reading 9, 6, 7: the
step would raise an assertion failure on the first run and on both retry attempts, the
last one with the actual value 7, and `do` throws the failure of the first run, with the
message `expected: 5   actual: 9`, without any retry. On the tree before `generateSpec`,
over a subject that is the BigInt `4n`: the step raises an assertion failure on the first
run and on both retry attempts, and `do` raises no assertion failure: it throws the
`TypeError` of `JSON.stringify`. -/
theorem exhausted_throws_first_failure_or_type_error :
    (raisingRun jsHost twoRetries exampleRegistered.heap 2 (JsVal.num 9) 3 0
        { world := 2, events := [] }).map (fun run => run.1)
      = some [Thrown.assertion (equalFailure (JsVal.num 5) (JsVal.num 9)),
              Thrown.assertion (equalFailure (JsVal.num 5) (JsVal.num 6)),
              Thrown.assertion (equalFailure (JsVal.num 5) (JsVal.num 7))]
    ∧ ChaiComponentAction.do jsHost twoRetries exampleRegistered.heap 2 (JsVal.num 9)
        { world := 2, events := [] }
      = (Except.error (Thrown.assertion
          { message := "expected: 5   actual: 9", expected := JsVal.num 5,
            actual := JsVal.num 9 }),
        { world := 2, events := [Event.callback 2] })
    ∧ (raisingRun jsHost twoRetries (bigIntHeap "shouldEventually") 2 (JsVal.bigInt 4) 3 0
        { world := 1, events := [] }).map (fun run => run.1)
      = some [Thrown.assertion (equalFailure (JsVal.num 5) (JsVal.bigInt 4)),
              Thrown.assertion (equalFailure (JsVal.num 5) (JsVal.bigInt 4)),
              Thrown.assertion (equalFailure (JsVal.num 5) (JsVal.bigInt 4))]
    ∧ ChaiComponentAction.do jsHost twoRetries (bigIntHeap "shouldEventually") 2
        (JsVal.bigInt 4) { world := 1, events := [] }
      = (Except.error (Thrown.other (JsVal.errorObject "TypeError")),
        { world := 3, events := Event.callback 2 :: retryLog ++ retryLog }) :=
  ⟨rfl, rfl, rfl, rfl⟩

/-- C6, at the failing input: `subject.should.equal(5)` over a subject that is the BigInt
`4n`, the flag off. No ancestor is labelled `shouldEventually`; the step raises an
assertion failure with `expected` 5 and `actual` `4n`; `JSON.stringify` throws a
`TypeError` on `4n` while the message is built, and `ChaiComponentAction.do` throws that
`TypeError`, not the assertion failure. The step has run once and the delay primitive has
not been invoked. -/
theorem unrendered_actual_masks_failure :
    isDescendantOfShouldEventually (bigIntHeap "should") 2 = false
    ∧ exampleConfig.shouldMeansShouldEventually = false
    ∧ runCallback jsHost (bigIntHeap "should") 2 (JsVal.bigInt 4) { world := 1, events := [] }
      = (Except.error (Thrown.assertion (equalFailure (JsVal.num 5) (JsVal.bigInt 4))),
          { world := 1, events := [Event.callback 2] })
    ∧ JSON.stringify jsHost (JsVal.bigInt 4) = Except.error (JsVal.errorObject "TypeError")
    ∧ ChaiComponentAction.do jsHost exampleConfig (bigIntHeap "should") 2 (JsVal.bigInt 4)
        { world := 1, events := [] }
      = (Except.error (Thrown.other (JsVal.errorObject "TypeError")),
          { world := 1, events := [Event.callback 2] }) :=
  ⟨rfl, rfl, rfl, rfl, rfl⟩

end Yemen
